import Mathlib

/-!
Verification development for the `partialjson` repository
(`partialjson/json_parser.py`): a recovery parser for possibly-truncated
JSON text.  Python strings are embedded as `List Char`; Python's `json`
module (the out-of-scope strict decoder) is modelled from the spec.
Idealizations, each noted at its definition: rational arithmetic stands in
for IEEE floats, and `\uXXXX` escapes denoting lone surrogates map to the
default character because Lean `Char` holds only Unicode scalar values.
-/

namespace PartialJson

/-- ASCII whitespace stripped by Python `str.strip()` (the characters the
repository's inputs can contain; further Unicode whitespace is idealized
away). -/
def pyIsSpace (c : Char) : Bool :=
  c = ' ' || c = '\t' || c = '\n' || c = '\r' || c = '\x0b' || c = '\x0c'

/-- Python `s.strip()`: drop whitespace from both ends. -/
def pyStrip (cs : List Char) : List Char :=
  ((cs.dropWhile pyIsSpace).reverse.dropWhile pyIsSpace).reverse

/-- The right-hand half of `pyStrip`: drop trailing whitespace only. -/
def rstrip (cs : List Char) : List Char := (cs.reverse.dropWhile pyIsSpace).reverse

/-- Whitespace recognized by the strict JSON grammar (RFC 8259). -/
def jsonIsSpace (c : Char) : Bool :=
  c = ' ' || c = '\t' || c = '\n' || c = '\r'

/-- Skip strict-JSON whitespace. -/
def skipW (cs : List Char) : List Char := cs.dropWhile jsonIsSpace

/-- The JSON values the program manipulates.  A number records whether the
source converted it with `float` (true) or `int` (false); its magnitude is
kept exactly as a rational, an idealization of IEEE doubles.  An object is
an insertion-ordered association list with Python-`dict` semantics. -/
inductive JVal where
  | null : JVal
  | bool (b : Bool) : JVal
  | num (isFloat : Bool) (q : ℚ) : JVal
  | str (s : List Char) : JVal
  | arr (elems : List JVal) : JVal
  | obj (entries : List (JVal × JVal)) : JVal

/-- Digit test used by the number fragment parser. -/
def isDigitCh (c : Char) : Bool := '0' ≤ c ∧ c ≤ '9'

/-- The characters the number fragment parser accumulates
(`"0123456789.-"`). -/
def isNumCh (c : Char) : Bool := isDigitCh c || c = '.' || c = '-'

/-- Numeric value of a decimal digit character. -/
def digitVal (c : Char) : Nat := c.toNat - '0'.toNat

/-- Value of a list of decimal digits, most significant first. -/
def digitsVal (ds : List Char) : Nat := ds.foldl (fun a c => 10 * a + digitVal c) 0

/-- Value of one hexadecimal digit, if it is one. -/
def hexVal (c : Char) : Option Nat :=
  if '0' ≤ c ∧ c ≤ '9' then some (c.toNat - '0'.toNat)
  else if 'a' ≤ c ∧ c ≤ 'f' then some (c.toNat - 'a'.toNat + 10)
  else if 'A' ≤ c ∧ c ≤ 'F' then some (c.toNat - 'A'.toNat + 10)
  else none

/-- Value of four hexadecimal digits. -/
def hex4 (a b c d : Char) : Option Nat := do
  let x ← hexVal a
  let y ← hexVal b
  let z ← hexVal c
  let w ← hexVal d
  pure (((x * 16 + y) * 16 + z) * 16 + w)

/-- The high-surrogate range of a `\uXXXX` escape. -/
def isHighSur (n : Nat) : Bool := 0xD800 ≤ n ∧ n ≤ 0xDBFF

/-- The low-surrogate range of a `\uXXXX` escape. -/
def isLowSur (n : Nat) : Bool := 0xDC00 ≤ n ∧ n ≤ 0xDFFF

/-- The scalar a surrogate pair denotes. -/
def surPair (n m : Nat) : Char :=
  Char.ofNat (0x10000 + (n - 0xD800) * 0x400 + (m - 0xDC00))

/-- The character of a single-letter escape, if the letter is a valid
JSON escape. -/
def escChar (e : Char) : Option Char :=
  if e = '\x22' then some '\x22'
  else if e = '\\' then some '\\'
  else if e = '/' then some '/'
  else if e = 'b' then some '\x08'
  else if e = 'f' then some '\x0c'
  else if e = 'n' then some '\n'
  else if e = 'r' then some '\r'
  else if e = 't' then some '\t'
  else none

/-- Modelled from the spec: the body of a strict JSON string literal, as
decoded by the out-of-scope strict decoder.  The input are the characters
after the opening quote; the result is the decoded content and the
characters after the closing quote.  `none` models the strict decoder
raising (unterminated string, raw control character, invalid escape).
`pend` carries a high surrogate awaiting its partner, mirroring the
scanner's one-escape lookahead; a lone surrogate (which Python would keep
in the string) maps through `Char.ofNat` to the default character because
Lean characters are Unicode scalars, an idealization. -/
def decodeBody : Option Nat → List Char → Option (List Char × List Char)
  | _, [] => none
  | pend, '\x22' :: rest =>
    match pend with
    | some n => some ([Char.ofNat n], rest)
    | none => some ([], rest)
  | pend, '\\' :: 'u' :: a :: b :: c :: d :: rest =>
    match hex4 a b c d with
    | none => none
    | some m =>
      match pend with
      | some n =>
        if isLowSur m then (decodeBody none rest).map fun p => (surPair n m :: p.1, p.2)
        else if isHighSur m then
          (decodeBody (some m) rest).map fun p => (Char.ofNat n :: p.1, p.2)
        else
          (decodeBody none rest).map fun p => (Char.ofNat n :: Char.ofNat m :: p.1, p.2)
      | none =>
        if isHighSur m then decodeBody (some m) rest
        else (decodeBody none rest).map fun p => (Char.ofNat m :: p.1, p.2)
  | pend, '\\' :: e :: rest =>
    match escChar e with
    | none => none
    | some ec =>
      match pend with
      | some n => (decodeBody none rest).map fun p => (Char.ofNat n :: ec :: p.1, p.2)
      | none => (decodeBody none rest).map fun p => (ec :: p.1, p.2)
  | pend, c :: rest =>
    if c.toNat < 0x20 then none
    else
      match pend with
      | some n => (decodeBody none rest).map fun p => (Char.ofNat n :: c :: p.1, p.2)
      | none => (decodeBody none rest).map fun p => (c :: p.1, p.2)

/-- Insert into an association list keyed by strings: replace the value at
the first matching key (keeping its position) or append.  This is the
key-update behaviour of a Python `dict`. -/
def strInsertP : List (List Char × JVal) → List Char → JVal → List (List Char × JVal)
  | [], k, v => [(k, v)]
  | (k0, v0) :: rest, k, v =>
    if k0 = k then (k0, v) :: rest else (k0, v0) :: strInsertP rest k v

/-- Fold a pair list into Python-`dict` form (first-occurrence position,
last value wins), as `dict`-building does for duplicate JSON keys. -/
def dedupPairs : List (List Char × JVal) → List (List Char × JVal) → List (List Char × JVal)
  | acc, [] => acc
  | acc, (k, v) :: rest => dedupPairs (strInsertP acc k v) rest

/-- Wrap string-keyed pairs back into `JVal` object entries. -/
def objFromPairs (ps : List (List Char × JVal)) : List (JVal × JVal) :=
  (dedupPairs [] ps).map fun p => (JVal.str p.1, p.2)

/-- Modelled from the spec: the strict decoder's number token
(`-?(0|[1-9][0-9]*)(\.[0-9]+)?([eE][+-]?[0-9]+)?`); returns the integer
part's digits and the rest. -/
def scanIntPart : List Char → Option (List Char × List Char)
  | [] => none
  | c :: rest =>
    if c = '0' then some (['0'], rest)
    else if isDigitCh c then some (c :: rest.takeWhile isDigitCh, rest.dropWhile isDigitCh)
    else none

/-- Modelled from the spec: the optional fraction group of a strict JSON
number; consumed only when a digit follows the dot. -/
def scanFrac (cs : List Char) : List Char × List Char :=
  match cs with
  | '.' :: rest =>
    let ds := rest.takeWhile isDigitCh
    if ds = [] then ([], cs) else (ds, rest.dropWhile isDigitCh)
  | _ => ([], cs)

/-- Modelled from the spec: the optional exponent group of a strict JSON
number; consumed only when well-formed. -/
def scanExp (cs : List Char) : Option ℤ × List Char :=
  match cs with
  | e :: rest =>
    if e = 'e' ∨ e = 'E' then
      match rest with
      | '+' :: r2 =>
        let ds := r2.takeWhile isDigitCh
        if ds = [] then (none, cs) else (some (digitsVal ds), r2.dropWhile isDigitCh)
      | '-' :: r2 =>
        let ds := r2.takeWhile isDigitCh
        if ds = [] then (none, cs) else (some (-(digitsVal ds : ℤ)), r2.dropWhile isDigitCh)
      | _ =>
        let ds := rest.takeWhile isDigitCh
        if ds = [] then (none, cs) else (some (digitsVal ds), rest.dropWhile isDigitCh)
    else (none, cs)
  | [] => (none, cs)

/-- Modelled from the spec: one strict JSON number token starting at the
head of the input.  Integer tokens decode with `int`; a fraction or
exponent makes a float (kept exactly as a rational). -/
def scanJNum (cs : List Char) : Option (JVal × List Char) :=
  let neg : Bool := decide (cs.head? = some '-')
  let body : List Char := if neg then cs.tail else cs
  match scanIntPart body with
  | none => none
  | some (ip, r1) =>
    let fr := scanFrac r1
    let ex := scanExp fr.2
    match fr.1, ex.1 with
    | [], none =>
      let n : ℚ := (digitsVal ip : ℚ)
      some (.num false (if neg then -n else n), ex.2)
    | frd, expv =>
      let sgn : ℚ := if neg then -1 else 1
      let mant : ℚ := (digitsVal (ip ++ frd) : ℚ) / (10 : ℚ) ^ frd.length
      let e : ℤ := expv.getD 0
      some (.num true (sgn * mant * (10 : ℚ) ^ e), ex.2)

mutual

/-- Modelled from the spec: one strict JSON value, as the out-of-scope
strict decoder reads it (fueled; the top level supplies ample fuel). -/
def jsonValue : Nat → List Char → Option (JVal × List Char)
  | 0, _ => none
  | f + 1, cs =>
    match cs with
    | [] => none
    | c :: rest =>
      if c = '\x7b' then jsonObjBody f (skipW rest)
      else if c = '[' then jsonArrBody f (skipW rest)
      else if c = '\x22' then (decodeBody none rest).map fun p => (.str p.1, p.2)
      else if c = 't' then
        match rest with
        | 'r' :: 'u' :: 'e' :: r => some (.bool true, r)
        | _ => none
      else if c = 'f' then
        match rest with
        | 'a' :: 'l' :: 's' :: 'e' :: r => some (.bool false, r)
        | _ => none
      else if c = 'n' then
        match rest with
        | 'u' :: 'l' :: 'l' :: r => some (.null, r)
        | _ => none
      else if c = '-' ∨ isDigitCh c then scanJNum cs
      else none

/-- Modelled from the spec: a strict object body after the opening brace
(whitespace already skipped). -/
def jsonObjBody : Nat → List Char → Option (JVal × List Char)
  | 0, _ => none
  | f + 1, cs =>
    match cs with
    | '\x7d' :: rest => some (.obj [], rest)
    | _ => jsonMembers f [] cs

/-- Modelled from the spec: strict object members
(`"key" ws : ws value (ws , ws ...)* ws \x7d`), duplicates resolved as
`dict` building does. -/
def jsonMembers : Nat → List (List Char × JVal) → List Char → Option (JVal × List Char)
  | 0, _, _ => none
  | f + 1, acc, cs =>
    match cs with
    | '\x22' :: rest =>
      match decodeBody none rest with
      | none => none
      | some (key, r1) =>
        match skipW r1 with
        | ':' :: r2 =>
          match jsonValue f (skipW r2) with
          | none => none
          | some (v, r3) =>
            let acc2 := strInsertP acc key v
            match skipW r3 with
            | ',' :: r4 => jsonMembers f acc2 (skipW r4)
            | '\x7d' :: r4 => some (.obj ((acc2).map fun p => (JVal.str p.1, p.2)), r4)
            | _ => none
        | _ => none
    | _ => none

/-- Modelled from the spec: a strict array body after the opening bracket
(whitespace already skipped). -/
def jsonArrBody : Nat → List Char → Option (JVal × List Char)
  | 0, _ => none
  | f + 1, cs =>
    match cs with
    | ']' :: rest => some (.arr [], rest)
    | _ => jsonElems f [] cs

/-- Modelled from the spec: strict array elements. -/
def jsonElems : Nat → List JVal → List Char → Option (JVal × List Char)
  | 0, _, _ => none
  | f + 1, acc, cs =>
    match jsonValue f cs with
    | none => none
    | some (v, r1) =>
      match skipW r1 with
      | ',' :: r2 => jsonElems f (acc ++ [v]) (skipW r2)
      | ']' :: r2 => some (.arr (acc ++ [v]), r2)
      | _ => none

end

/-- Modelled from the spec: the external strict JSON decoder
(`json.loads`): the whole text must be one JSON value surrounded by
optional whitespace.  The non-standard `NaN`/`Infinity` extensions and
IEEE float rounding are idealized away. -/
def jsonLoads (s : List Char) : Option JVal :=
  match jsonValue (2 * s.length + 4) (skipW s) with
  | some (v, rest) => if skipW rest = [] then some v else none
  | none => none

/-- The raise sites of the recovery parser.  Every `raise` in the source
raises the strict decoder's error object; the model additionally records
which site raised. -/
inductive RSite where
  | emptyInput : RSite
  | undispatchable : RSite
  | keyColon : RSite
  | numberConv : RSite
  | literalMismatch : RSite
  | stringDecode : RSite
deriving DecidableEq

/-- Errors of the embedded recovery parser: a structural decode error at
one of the raise sites, the `TypeError` Python raises when an unhashable
(composite) key is assigned into a dict, or fuel exhaustion (an artifact
of the embedding, unreachable at the fuel the top level supplies). -/
inductive PErr where
  | decodeErr (site : RSite) : PErr
  | typeError : PErr
  | outOfFuel : PErr
deriving DecidableEq

/-- Python `int(num_str)` on a run of characters from `0123456789.-`:
succeeds exactly on an optional minus followed by digits. -/
def pyInt (cs : List Char) : Option ℚ :=
  match cs with
  | '-' :: ds => if ds ≠ [] ∧ ds.all isDigitCh then some (-(digitsVal ds : ℚ)) else none
  | ds => if ds ≠ [] ∧ ds.all isDigitCh then some ((digitsVal ds : ℚ)) else none

/-- Python `float(num_str)` on a run of characters from `0123456789.-`:
succeeds exactly on an optional minus followed by digits with at most one
dot and at least one digit.  The value is kept exactly as a rational (an
idealization of IEEE doubles). -/
def pyFloat (cs : List Char) : Option ℚ :=
  let neg : Bool := decide (cs.head? = some '-')
  let body : List Char := if neg then cs.tail else cs
  let sgn : ℚ := if neg then -1 else 1
  let ip := body.takeWhile isDigitCh
  match body.dropWhile isDigitCh with
  | '.' :: fr =>
    if fr.all isDigitCh ∧ (ip ≠ [] ∨ fr ≠ []) then
      some (sgn * (digitsVal (ip ++ fr) : ℚ) / (10 : ℚ) ^ fr.length)
    else none
  | [] => if ip ≠ [] then some (sgn * (digitsVal ip : ℚ)) else none
  | _ => none

/-- `JSONParser.parse_number`: accumulate the leading run of characters
from `0123456789.-`; an empty run or one ending in `.`/`-` is returned raw
as an incomplete placeholder; otherwise convert with `float` (if a dot or
exponent letter occurs in the run) or `int`, raising on conversion
failure. -/
def parse_number (s : List Char) : Except PErr (JVal × List Char × Bool) :=
  let numStr := s.takeWhile isNumCh
  let rest := s.dropWhile isNumCh
  if numStr = [] ∨ numStr.getLast? = some '.' ∨ numStr.getLast? = some '-' then
    .ok (.str numStr, [], false)
  else if numStr.contains '.' ∨ numStr.contains 'e' ∨ numStr.contains 'E' then
    match pyFloat numStr with
    | some q => .ok (.num true q, rest, true)
    | none => .error (.decodeErr .numberConv)
  else
    match pyInt numStr with
    | some q => .ok (.num false q, rest, true)
    | none => .error (.decodeErr .numberConv)

/-- `JSONParser.parse_true`: exact-prefix match of the literal. -/
def parse_true (s : List Char) : Except PErr (JVal × List Char × Bool) :=
  match s with
  | 't' :: 'r' :: 'u' :: 'e' :: rest => .ok (.bool true, rest, true)
  | _ => .error (.decodeErr .literalMismatch)

/-- `JSONParser.parse_false`: exact-prefix match of the literal. -/
def parse_false (s : List Char) : Except PErr (JVal × List Char × Bool) :=
  match s with
  | 'f' :: 'a' :: 'l' :: 's' :: 'e' :: rest => .ok (.bool false, rest, true)
  | _ => .error (.decodeErr .literalMismatch)

/-- `JSONParser.parse_null`: exact-prefix match of the literal. -/
def parse_null (s : List Char) : Except PErr (JVal × List Char × Bool) :=
  match s with
  | 'n' :: 'u' :: 'l' :: 'l' :: rest => .ok (.null, rest, true)
  | _ => .error (.decodeErr .literalMismatch)

/-- The quote scan of `JSONParser.parse_string`: find the first quote at
index ≥ 1 of the original string whose immediately preceding character is
not a backslash (`end = s.find('"', 1)` followed by the skip-while-escaped
loop).  `prev` is the character before the current head; the caller starts
it at the opening quote.  Returns the characters before the terminator and
those after it. -/
def scanQuote : Char → List Char → Option (List Char × List Char)
  | _, [] => none
  | prev, c :: rest =>
    if c = '\x22' ∧ prev ≠ '\\' then some ([], rest)
    else (scanQuote c rest).map fun p => (c :: p.1, p.2)

/-- `JSONParser.parse_string`: scan for the closing quote with the
single-character backslash lookback; if none is found return the raw text
after the opening quote, empty remainder and `false`; otherwise decode the
quoted span with the strict decoder (`json.loads(str_val)`), which raises
when the span is not exactly one valid string literal. -/
def parse_string (s : List Char) : Except PErr (JVal × List Char × Bool) :=
  let cs := s.drop 1
  match scanQuote '\x22' cs with
  | none => .ok (.str cs, [], false)
  | some (body, rest) =>
    match decodeBody none (body ++ ['\x22']) with
    | some (content, []) => .ok (.str content, rest, true)
    | _ => .error (.decodeErr .stringDecode)

/-- Python `==` on the values that can appear as (hashable) dict keys:
`None` equals only itself, strings compare as strings, and booleans and
numbers compare numerically (`True == 1`).  Composite values are
unreachable as keys (the hashability check raises first), so their arm is
never consulted. -/
def pyNumVal : JVal → Option ℚ
  | .bool b => some (if b then 1 else 0)
  | .num _ q => some q
  | _ => none

/-- Python `==` for dict keys; see `pyNumVal`. -/
def pyEq (a b : JVal) : Bool :=
  match a, b with
  | .null, .null => true
  | .str x, .str y => x = y
  | _, _ =>
    match pyNumVal a, pyNumVal b with
    | some x, some y => x = y
    | _, _ => false

/-- Whether a value may be a dict key (`hash` succeeds). -/
def hashable : JVal → Bool
  | .arr _ => false
  | .obj _ => false
  | _ => true

/-- Insert by Python `==`, keeping the first-inserted key and its
position, updating the value. -/
def insertEq : List (JVal × JVal) → JVal → JVal → List (JVal × JVal)
  | [], k, v => [(k, v)]
  | (k0, v0) :: rest, k, v =>
    if pyEq k0 k then (k0, v) :: rest else (k0, v0) :: insertEq rest k v

/-- `acc[key] = value` on a Python dict: `TypeError` for an unhashable
key, else insert-or-update. -/
def pyInsert (acc : List (JVal × JVal)) (k v : JVal) : Except PErr (List (JVal × JVal)) :=
  if hashable k then .ok (insertEq acc k v) else .error .typeError

/-- The comma step shared verbatim by the array and object loops:
`if s.startswith(","): s = s[1:]; s = s.strip()`. -/
def consumeComma (s : List Char) : List Char :=
  match s with
  | ',' :: rest => pyStrip rest
  | _ => s

/-- The whitespace characters registered in the dispatch table
(`" \r\n\t"`). -/
def pySpaceKey (c : Char) : Bool :=
  c = ' ' || c = '\r' || c = '\n' || c = '\t'

mutual

/-- `JSONParser.parse_any`: dispatch on the first character; raise the
strict decoder's error when the text is empty or the character has no
registered parser. -/
def parse_any : Nat → List Char → Except PErr (JVal × List Char × Bool)
  | 0, _ => .error .outOfFuel
  | f + 1, s =>
    match s with
    | [] => .error (.decodeErr .emptyInput)
    | c :: _ =>
      if pySpaceKey c then parse_space f s
      else if c = '[' then parse_array f s
      else if c = '\x7b' then parse_object f s
      else if c = '\x22' then parse_string s
      else if c = 't' then parse_true s
      else if c = 'f' then parse_false s
      else if c = 'n' then parse_null s
      else if isNumCh c then parse_number s
      else .error (.decodeErr .undispatchable)

/-- `JSONParser.parse_space`: strip and redispatch. -/
def parse_space : Nat → List Char → Except PErr (JVal × List Char × Bool)
  | 0, _ => .error .outOfFuel
  | f + 1, s => parse_any f (pyStrip s)

/-- `JSONParser.parse_array`: skip `[`, strip, and run the element
loop. -/
def parse_array : Nat → List Char → Except PErr (JVal × List Char × Bool)
  | 0, _ => .error .outOfFuel
  | f + 1, s =>
    match arrLoop f [] false (pyStrip (s.drop 1)) with
    | .error e => .error e
    | .ok (acc, rest, comp) => .ok (.arr acc, rest, comp)

/-- The `while s:` loop of `JSONParser.parse_array`, with the running
accumulator and `has_any_incomplete` flag. -/
def arrLoop : Nat → List JVal → Bool → List Char → Except PErr (List JVal × List Char × Bool)
  | 0, _, _, _ => .error .outOfFuel
  | f + 1, acc, hasInc, s =>
    match s with
    | [] => .ok (acc, s, !hasInc)
    | ']' :: rest => .ok (acc, rest, !hasInc)
    | _ =>
      match parse_any f s with
      | .error e => .error e
      | .ok (res, s1, isComp) =>
        arrLoop f (acc ++ [res]) (hasInc || !isComp) (consumeComma (pyStrip s1))

/-- `JSONParser.parse_object`: skip `\x7b`, strip, and run the member
loop. -/
def parse_object : Nat → List Char → Except PErr (JVal × List Char × Bool)
  | 0, _ => .error .outOfFuel
  | f + 1, s =>
    match objLoop f [] false (pyStrip (s.drop 1)) with
    | .error e => .error e
    | .ok (acc, rest, comp) => .ok (.obj acc, rest, comp)

/-- The `while s:` loop of `JSONParser.parse_object`: parse a key, then
either dangle it (end of input or closing brace; null placeholder), raise
on a missing colon, dangle it after the colon (end, comma or closing
brace), or parse its value and continue. -/
def objLoop : Nat → List (JVal × JVal) → Bool → List Char →
    Except PErr (List (JVal × JVal) × List Char × Bool)
  | 0, _, _, _ => .error .outOfFuel
  | f + 1, acc, hasInc, s =>
    match s with
    | [] => .ok (acc, s, !hasInc)
    | '\x7d' :: rest => .ok (acc, rest, !hasInc)
    | _ =>
      match parse_any f s with
      | .error e => .error e
      | .ok (key, s1, kComp) =>
        let hasInc2 := hasInc || !kComp
        let s2 := pyStrip s1
        match s2 with
        | [] =>
          match pyInsert acc key .null with
          | .error e => .error e
          | .ok acc2 => .ok (acc2, s2, false)
        | '\x7d' :: _ =>
          match pyInsert acc key .null with
          | .error e => .error e
          | .ok acc2 => .ok (acc2, s2, false)
        | ':' :: s3 =>
          let s4 := pyStrip s3
          match s4 with
          | [] =>
            match pyInsert acc key .null with
            | .error e => .error e
            | .ok acc2 => .ok (acc2, s4, false)
          | ',' :: s5 =>
            match pyInsert acc key .null with
            | .error e => .error e
            | .ok acc2 => .ok (acc2, s5, false)
          | '\x7d' :: _ =>
            match pyInsert acc key .null with
            | .error e => .error e
            | .ok acc2 => .ok (acc2, s4, false)
          | _ =>
            match parse_any f s4 with
            | .error e => .error e
            | .ok (value, s5, vComp) =>
              match pyInsert acc key value with
              | .error e => .error e
              | .ok acc2 => objLoop f acc2 (hasInc2 || !vComp) (consumeComma (pyStrip s5))
        | _ :: _ => .error (.decodeErr .keyColon)

end

/-- Decimal rendering of an integer dict key, as `json.dumps` writes
it. -/
def renderInt (n : ℤ) : List Char := (toString n).data

/-- Decimal rendering of a float dict key, as `json.dumps` writes it
(`repr`): the exact decimal expansion with trailing zeros trimmed and at
least one fractional digit.  Exact for the decimal fractions the parsers
produce; `repr`'s shortest-round-trip behaviour on other doubles is
idealized away. -/
def renderFloat (q : ℚ) : List Char :=
  let d := q.den
  let sgnChars : List Char := if q.num < 0 then ['-'] else []
  if q.num.natAbs * 10 ^ d % d ≠ 0 then sgnChars ++ (toString q.num.natAbs).data
  else
    let m : ℕ := (q.num.natAbs * 10 ^ d) / d
    let ip := m / 10 ^ d
    let frNat := m % 10 ^ d
    let frDigits := (toString frNat).data
    let padded := List.replicate (d - frDigits.length) '0' ++ frDigits
    let trimmed := (padded.reverse.dropWhile (fun c => c = '0')).reverse
    let frFinal := if trimmed = [] then ['0'] else trimmed
    sgnChars ++ (toString ip).data ++ ['.'] ++ frFinal

/-- Modelled from the spec: how `json.dumps` stringifies a non-composite
dict key (`str` kept, `int`/`float` in decimal, `True`/`False`/`None` as
their JSON spellings).  Composite keys are unreachable: assigning them
raised `TypeError` during recovery. -/
def keyStr : JVal → List Char
  | .str s => s
  | .bool true => 't' :: 'r' :: 'u' :: 'e' :: []
  | .bool false => 'f' :: 'a' :: 'l' :: 's' :: 'e' :: []
  | .null => 'n' :: 'u' :: 'l' :: 'l' :: []
  | .num false q => renderInt q.num
  | .num true q => renderFloat q
  | .arr _ => []
  | .obj _ => []

mutual

/-- Modelled from the spec: the normalization pass
`json.loads(json.dumps(data))` over a recovered value: scalars and the
exact rationals round-trip unchanged, arrays recurse, and objects have
their keys stringified and re-inserted in order (so stringified duplicates
collapse, last value winning at the first position). -/
def normalize : JVal → JVal
  | .null => .null
  | .bool b => .bool b
  | .num isf q => .num isf q
  | .str s => .str s
  | .arr xs => .arr (normList xs)
  | .obj kvs => .obj (objFromPairs (normPairs kvs))

/-- Normalize each element of an array. -/
def normList : List JVal → List JVal
  | [] => []
  | x :: xs => normalize x :: normList xs

/-- Stringify the key and normalize the value of each object entry. -/
def normPairs : List (JVal × JVal) → List (List Char × JVal)
  | [] => []
  | (k, v) :: rest => (keyStr k, normalize v) :: normPairs rest

end

/-- The keys of an object value, in order (`list(result.keys())`); empty
for non-objects. -/
def objKeysJ : JVal → List JVal
  | .obj kvs => kvs.map Prod.fst
  | _ => []

/-- Fuel that the termination argument shows is ample for the recovery
parser on an input of this length. -/
def FUEL (s : List Char) : Nat := 3 * s.length + 3

/-- The recovery entry point with ample fuel
(`parse_any(s, e)` as `JSONParser.parse` invokes it). -/
def parseAnyTop (s : List Char) : Except PErr (JVal × List Char × Bool) :=
  parse_any (FUEL s) s

/-- `JSONParser.parse`, including the `last_parse_reminding` instance
field (`none` models the initial Python `None`): try the strict decoder;
on success return its value and, for objects, the full key list, leaving
the field untouched; on failure run recovery, store the remainder in the
field, normalize the recovered value through the strict decoder, and for
objects return all keys but the last; empty input yields an empty object.
The `on_extra_token` hook only prints and is not modelled. -/
def parseWithState (st : Option (List Char)) (s : List Char) :
    Except PErr ((JVal × List JVal) × Option (List Char)) :=
  if 1 ≤ s.length then
    match jsonLoads s with
    | some result => .ok ((result, objKeysJ result), st)
    | none =>
      match parseAnyTop s with
      | .error e => .error e
      | .ok (data, reminding, _) =>
        let result := normalize data
        let ckeys :=
          match result with
          | .obj kvs =>
            let ks := kvs.map Prod.fst
            if ks.length = 0 then [] else ks.dropLast
          | _ => []
        .ok ((result, ckeys), some reminding)
  else .ok ((JVal.obj [], []), st)

/-- `JSONParser.parse` as seen by a caller: the value and settled-key
list. -/
def parse (s : List Char) : Except PErr (JVal × List JVal) :=
  (parseWithState none s).map Prod.fst

/-- How the array loop ended: on a closing bracket, or by running out of
input. -/
inductive ArrEnd where
  | closed : ArrEnd
  | ranOut : ArrEnd
deriving DecidableEq

/-- Instrumented restatement of the array loop for specification
purposes: it returns the parsed elements, each element's own completeness
flag, the remainder, and how the loop ended.  `arrLoop_eq_instr` proves it
computes the same traversal as the source loop. -/
def arrLoopInstr : Nat → List Char → Except PErr (List JVal × List Bool × List Char × ArrEnd)
  | 0, _ => .error .outOfFuel
  | f + 1, s =>
    match s with
    | [] => .ok ([], [], [], .ranOut)
    | ']' :: rest => .ok ([], [], rest, .closed)
    | _ =>
      match parse_any f s with
      | .error e => .error e
      | .ok (res, s1, isComp) =>
        match arrLoopInstr f (consumeComma (pyStrip s1)) with
        | .error e => .error e
        | .ok (vs, fs, rem, r) => .ok (res :: vs, isComp :: fs, rem, r)

/-- Whether index `i` of the text scanned by `parse_string` (the
characters after the opening quote) is a terminator for the lookback
scan: a double quote whose immediately preceding character — `prev`, the
opening quote, when `i = 0` — is not a backslash. -/
def lookTerm (prev : Char) (cs : List Char) (i : Nat) : Bool :=
  match cs.get? i with
  | some c =>
    c = '\x22' &&
      (match i with
       | 0 => decide (prev ≠ '\\')
       | j + 1 =>
         match cs.get? j with
         | some p => decide (p ≠ '\\')
         | none => false)
  | none => false

/-- The errors the recovery parser can produce on a prefix of a valid
JSON text: the fuel artifact (excluded at the top level by the adequacy
theorem), a whitespace-only prefix, a cut literal, a string span the
escape lookback misreads, and the undispatchable exponent letter a split
number token exposes. -/
def benignPErr (r : PErr) : Prop :=
  r = .outOfFuel ∨ r = .decodeErr .emptyInput ∨ r = .decodeErr .literalMismatch ∨
    r = .decodeErr .stringDecode ∨ r = .decodeErr .undispatchable

/-- The exponent letters: splitting a strict number token at or after
them leaves a remainder the dispatcher cannot route. -/
def desyncHead (c : Char) : Bool := c = 'e' || c = 'E'

/-- Every double quote in the text has a backslash as its immediate
predecessor (`prev` is the character before the head).  This is the
invariant of the consumed body of a strict string literal, and makes the
recovery parser's quote lookback skip every interior quote. -/
def quotesEscapedB : Char → List Char → Bool
  | _, [] => true
  | prev, c :: rest => (!(c = '\x22' : Bool) || (prev = '\\' : Bool)) && quotesEscapedB c rest

/-- The last character of a list, or the given default for the empty
list: the predecessor of the character that follows the list. -/
def lastD (prev : Char) (b : List Char) : Char := b.getLast?.getD prev

/-!  Theorems.  General lemmas about the embedded operations come first,
then each claim's theorem with its witness or counterexample. -/

theorem pyStrip_eq_rstrip (cs : List Char) :
    pyStrip cs = rstrip (cs.dropWhile pyIsSpace) := rfl

theorem dropWhile_idem (p : α → Bool) (l : List α) :
    (l.dropWhile p).dropWhile p = l.dropWhile p := by
  induction l with
  | nil => rfl
  | cons c t ih =>
    by_cases h : p c
    · simpa [List.dropWhile_cons, h] using ih
    · simp [List.dropWhile_cons, h]

theorem rstrip_idem (cs : List Char) : rstrip (rstrip cs) = rstrip cs := by
  unfold rstrip
  rw [List.reverse_reverse, dropWhile_idem]

theorem rstrip_cons (c : Char) (t : List Char) :
    rstrip (c :: t) =
      if t.reverse.dropWhile pyIsSpace = [] then (List.dropWhile pyIsSpace [c]).reverse
      else c :: rstrip t := by
  unfold rstrip
  rw [List.reverse_cons, List.dropWhile_append]
  by_cases h : t.reverse.dropWhile pyIsSpace = []
  · simp [h]
  · simp only [h, if_neg h, List.isEmpty_eq_true, if_false]
    rw [List.reverse_append]
    rfl

theorem lstrip_rstrip_comm (t : List Char) :
    (rstrip t).dropWhile pyIsSpace = rstrip (t.dropWhile pyIsSpace) := by
  induction t with
  | nil => rfl
  | cons c t ih =>
    by_cases hc : pyIsSpace c
    · rw [List.dropWhile_cons_of_pos hc, rstrip_cons]
      by_cases he : t.reverse.dropWhile pyIsSpace = []
      · have ht : t.dropWhile pyIsSpace = [] := by
          refine List.dropWhile_eq_nil_iff.mpr ?_
          intro x hx
          exact List.dropWhile_eq_nil_iff.mp he x (List.mem_reverse.mpr hx)
        simp [he, hc, ht, rstrip]
      · rw [if_neg he, List.dropWhile_cons_of_pos hc, ih]
    · rw [List.dropWhile_cons_of_neg hc, rstrip_cons]
      by_cases he : t.reverse.dropWhile pyIsSpace = []
      · rw [if_pos he]
        simp [hc]
      · rw [if_neg he]
        simp [hc]

theorem pyStrip_rstrip (t : List Char) : pyStrip (rstrip t) = pyStrip t := by
  rw [pyStrip_eq_rstrip, pyStrip_eq_rstrip, lstrip_rstrip_comm, rstrip_idem]

theorem pyStrip_cons_not_space (c : Char) (t : List Char) (h : pyIsSpace c = false) :
    pyStrip (c :: t) = c :: rstrip t := by
  rw [pyStrip_eq_rstrip, List.dropWhile_cons_of_neg (by simp [h]), rstrip_cons]
  by_cases he : t.reverse.dropWhile pyIsSpace = []
  · rw [if_pos he]
    simp [h, rstrip, he]
  · rw [if_neg he]

theorem ite_dropLast_eq {α : Type} (l : List α) :
    (if l.length = 0 then ([] : List α) else l.dropLast) = l.dropLast := by
  cases l <;> simp

/-- C1: for every input text that the strict decoder accepts, `parse`
returns exactly the strict decoder's value, and the settled-keys list is
the object's full key list in insertion order (empty for non-objects). -/
theorem claim_strict_equivalence (s : List Char) (v : JVal)
    (h : jsonLoads s = some v) : parse s = .ok (v, objKeysJ v) := by
  cases s with
  | nil =>
    rw [show jsonLoads [] = none from rfl] at h
    exact Option.noConfusion h
  | cons c cs =>
    unfold parse parseWithState
    rw [if_pos (show 1 ≤ (c :: cs).length by simp), h]
    rfl

/-- Witness for C1 at the object text `\x7b"a":true\x7d`. -/
theorem claim_strict_equivalence_witness :
    jsonLoads ("\x7b\"a\":true\x7d").data =
        some (JVal.obj [(JVal.str ("a").data, JVal.bool true)]) ∧
      parse ("\x7b\"a\":true\x7d").data =
        .ok (JVal.obj [(JVal.str ("a").data, JVal.bool true)],
          objKeysJ (JVal.obj [(JVal.str ("a").data, JVal.bool true)])) :=
  ⟨rfl, claim_strict_equivalence _ _ rfl⟩

/-- C2: whenever the strict decoder fails and recovery yields a value
whose normalization is an object, `parse` returns as settled keys all of
that object's keys except the last, hence the empty list for at most one
key; the per-field completeness flag returned by recovery plays no
role. -/
theorem claim_recovery_settled_keys (s : List Char) (data : JVal) (rem : List Char)
    (cflag : Bool) (kvs : List (JVal × JVal)) (h1 : jsonLoads s = none)
    (h2 : parseAnyTop s = .ok (data, rem, cflag)) (h3 : normalize data = .obj kvs) :
    parse s = .ok (.obj kvs, (kvs.map Prod.fst).dropLast) ∧
      (kvs.length ≤ 1 → (kvs.map Prod.fst).dropLast = []) := by
  constructor
  · cases s with
    | nil =>
      rw [show parseAnyTop [] = Except.error (.decodeErr .emptyInput) from rfl] at h2
      exact Except.noConfusion h2
    | cons c cs =>
      unfold parse parseWithState
      rw [if_pos (show 1 ≤ (c :: cs).length by simp), h1, h2]
      simp [h3, ite_dropLast_eq]
      rfl
  · intro hlen
    match kvs, hlen with
    | [], _ => rfl
    | [kv], _ => rfl

/-- Witness for C2 at the truncated object `\x7b"a": 1, "b": 2`. -/
theorem claim_recovery_settled_keys_witness :
    jsonLoads ("\x7b\"a\": 1, \"b\": 2").data = none ∧
    parseAnyTop ("\x7b\"a\": 1, \"b\": 2").data =
      .ok (JVal.obj [(JVal.str ("a").data, JVal.num false 1),
        (JVal.str ("b").data, JVal.num false 2)], [], true) ∧
    parse ("\x7b\"a\": 1, \"b\": 2").data =
      .ok (JVal.obj [(JVal.str ("a").data, JVal.num false 1),
          (JVal.str ("b").data, JVal.num false 2)],
        ([(JVal.str ("a").data, JVal.num false 1),
          (JVal.str ("b").data, JVal.num false 2)].map Prod.fst).dropLast) :=
  ⟨rfl, rfl, (claim_recovery_settled_keys _ _ _ _ _ (by rfl) (by rfl) (by rfl)).1⟩

/-- C7: monotonic settlement fails on the code.  Both inputs below are
prefixes of the valid JSON text `\x7b"b":1,"a":2,"bc":3\x7d`; at the
shorter prefix the settled key "b" has value 1, while at the longer
prefix the truncated third key `"b` dangles, is assigned the null
placeholder, and — because Python dicts update in place — overwrites the
already-settled key "b", whose value changes to null while it stays in
the settled list. -/
theorem claim_monotonic_settlement_failure :
    (jsonLoads ("\x7b\"b\":1,\"a\":2,\"bc\":3\x7d").data).isSome = true ∧
    parse ("\x7b\"b\":1,\"a\":2").data =
      .ok (JVal.obj [(JVal.str ("b").data, JVal.num false 1),
          (JVal.str ("a").data, JVal.num false 2)],
        [JVal.str ("b").data]) ∧
    parse ("\x7b\"b\":1,\"a\":2,\"b").data =
      .ok (JVal.obj [(JVal.str ("b").data, JVal.null),
          (JVal.str ("a").data, JVal.num false 2)],
        [JVal.str ("b").data]) :=
  ⟨rfl, rfl, rfl⟩

/-- C9 counterexample: on a fresh parser (field `None`), a call in which
the strict decoder succeeds leaves the diagnostic field `None`, not the
empty string the claim asserts. -/
theorem cex_reminder_strict :
    parseWithState none ("1").data = .ok ((JVal.num false 1, []), none) ∧
      (none : Option (List Char)) ≠ some [] :=
  ⟨rfl, by simp⟩

/-- C9 amended: a call in which the strict decoder succeeds (and likewise
the empty-input call) leaves the diagnostic field unchanged — initially
`None`, not the empty string — while a call that used recovery stores
that call's unconsumed remainder in the field. -/
theorem claim_reminder_amended (st : Option (List Char)) (s : List Char) :
    (∀ v, jsonLoads s = some v → parseWithState st s = .ok ((v, objKeysJ v), st)) ∧
    (s = [] → parseWithState st s = .ok ((JVal.obj [], []), st)) ∧
    (∀ data rem cflag, jsonLoads s = none → parseAnyTop s = .ok (data, rem, cflag) →
      ∃ out, parseWithState st s = .ok (out, some rem)) := by
  refine ⟨fun v h => ?_, fun h => ?_, fun data rem cflag h1 h2 => ?_⟩
  · cases s with
    | nil =>
      rw [show jsonLoads [] = none from rfl] at h
      exact Option.noConfusion h
    | cons c cs =>
      unfold parseWithState
      simp [h]
  · subst h
    rfl
  · cases s with
    | nil =>
      rw [show parseAnyTop [] = Except.error (.decodeErr .emptyInput) from rfl] at h2
      exact Except.noConfusion h2
    | cons c cs =>
      unfold parseWithState
      simp only [List.length_cons, h1, h2]
      rw [if_pos (by omega : 1 ≤ cs.length + 1)]
      exact ⟨_, rfl⟩

/-- Witness for C9's amended statement: a strict-path call keeps the
previous field value, and a recovery call stores its remainder. -/
theorem claim_reminder_amended_witness :
    parseWithState (some ("x").data) ("1").data =
        .ok ((JVal.num false 1, objKeysJ (JVal.num false 1)), some ("x").data) ∧
      (∃ out, parseWithState none ("[1,").data = .ok (out, some [])) :=
  ⟨(claim_reminder_amended (some ("x").data) ("1").data).1 (JVal.num false 1) rfl,
   (claim_reminder_amended none ("[1,").data).2.2 (JVal.arr [JVal.num false 1]) [] true rfl rfl⟩

/-- C10: commas between elements and members are optional.  The loops'
shared comma step reaches the same continuation state whether or not a
comma separates two items, and concretely `[1 2` parses to the
two-element array and `\x7b"a":1 "b":2\x7d` to the two-member object. -/
theorem claim_comma_optional :
    (∀ t : List Char, (pyStrip t).head? ≠ some ',' →
        consumeComma (pyStrip (',' :: t)) = consumeComma (pyStrip t)) ∧
    parse ("[1 2").data = .ok (.arr [.num false 1, .num false 2], []) ∧
    parse ("\x7b\"a\":1 \"b\":2\x7d").data =
      .ok (.obj [(.str ("a").data, .num false 1), (.str ("b").data, .num false 2)],
        [.str ("a").data]) := by
  refine ⟨fun t ht => ?_, rfl, rfl⟩
  rw [pyStrip_cons_not_space ',' t (by decide)]
  show pyStrip (rstrip t) = _
  rw [pyStrip_rstrip]
  cases hh : pyStrip t with
  | nil => rfl
  | cons a u =>
    have ha : a ≠ ',' := by
      rw [hh] at ht
      simpa using ht
    have hcc : consumeComma (a :: u) = a :: u := by
      unfold consumeComma
      split
      · next heq => exact absurd (List.head_eq_of_cons_eq heq) ha
      · rfl
    exact hcc.symm

/-- Witness for C10's universal part at `t = "2"`. -/
theorem claim_comma_optional_witness :
    consumeComma (pyStrip (',' :: ("2").data)) = consumeComma (pyStrip ("2").data) :=
  claim_comma_optional.1 ("2").data (by decide)

theorem length_dropWhile_le (p : α → Bool) (l : List α) :
    (l.dropWhile p).length ≤ l.length := by
  induction l with
  | nil => simp
  | cons c t ih =>
    by_cases h : p c
    · rw [List.dropWhile_cons_of_pos h]
      exact Nat.le_succ_of_le ih
    · rw [List.dropWhile_cons_of_neg h]

theorem pyStrip_length_le (cs : List Char) : (pyStrip cs).length ≤ cs.length := by
  unfold pyStrip
  calc ((cs.dropWhile pyIsSpace).reverse.dropWhile pyIsSpace).reverse.length
      = ((cs.dropWhile pyIsSpace).reverse.dropWhile pyIsSpace).length := by
        rw [List.length_reverse]
    _ ≤ (cs.dropWhile pyIsSpace).reverse.length := length_dropWhile_le _ _
    _ = (cs.dropWhile pyIsSpace).length := by rw [List.length_reverse]
    _ ≤ cs.length := length_dropWhile_le _ _

theorem pyStrip_cons_space_lt (c : Char) (cs : List Char) (h : pyIsSpace c = true) :
    (pyStrip (c :: cs)).length < (c :: cs).length := by
  unfold pyStrip
  rw [List.dropWhile_cons_of_pos h]
  calc ((cs.dropWhile pyIsSpace).reverse.dropWhile pyIsSpace).reverse.length
      ≤ cs.length := pyStrip_length_le cs
    _ < (c :: cs).length := by simp

theorem consumeComma_length_le (s : List Char) : (consumeComma s).length ≤ s.length := by
  unfold consumeComma
  split
  · exact Nat.le_succ_of_le (pyStrip_length_le _)
  · exact Nat.le_refl _

theorem scanQuote_shrink (prev : Char) (cs : List Char) (b rest : List Char)
    (h : scanQuote prev cs = some (b, rest)) : rest.length < cs.length := by
  induction cs generalizing prev b rest with
  | nil => exact Option.noConfusion h
  | cons c t ih =>
    rw [scanQuote] at h
    split at h
    · simp only [Option.some.injEq, Prod.mk.injEq] at h
      obtain ⟨-, hr⟩ := h
      rw [← hr]
      simp
    · match hsq : scanQuote c t with
      | none => rw [hsq] at h; exact Option.noConfusion h
      | some (b2, r2) =>
        rw [hsq] at h
        simp only [Option.map, Option.some.injEq, Prod.mk.injEq] at h
        obtain ⟨-, hr⟩ := h
        rw [← hr]
        exact Nat.lt_succ_of_lt (ih c b2 r2 hsq)

theorem parse_string_shrink (s : List Char) (v : JVal) (r : List Char) (c : Bool)
    (hs : s ≠ []) (h : parse_string s = .ok (v, r, c)) : r.length < s.length := by
  unfold parse_string at h
  dsimp only at h
  split at h
  · simp only [Except.ok.injEq, Prod.mk.injEq] at h
    obtain ⟨-, hr, -⟩ := h
    rw [← hr]
    cases s with
    | nil => exact absurd rfl hs
    | cons a t => simp
  · next body rest hsq =>
    split at h
    · simp only [Except.ok.injEq, Prod.mk.injEq] at h
      obtain ⟨-, hr, -⟩ := h
      rw [← hr]
      have h1 : rest.length < (s.drop 1).length := scanQuote_shrink _ _ _ _ hsq
      have h2 : (s.drop 1).length ≤ s.length := by cases s <;> simp
      omega
    · exact Except.noConfusion h

theorem parse_number_shrink (s : List Char) (v : JVal) (r : List Char) (c : Bool)
    (hs : s ≠ []) (h : parse_number s = .ok (v, r, c)) : r.length < s.length := by
  unfold parse_number at h
  dsimp only at h
  split at h
  · simp only [Except.ok.injEq, Prod.mk.injEq] at h
    obtain ⟨-, hr, -⟩ := h
    rw [← hr]
    cases s with
    | nil => exact absurd rfl hs
    | cons a t => simp
  · next hcond =>
    obtain ⟨a, t, rfl⟩ : ∃ a t, s = a :: t := by
      cases s with
      | nil => exact absurd rfl hs
      | cons a t => exact ⟨a, t, rfl⟩
    have ha : isNumCh a = true := by
      by_contra hna
      rw [List.takeWhile_cons_of_neg (by simpa using hna)] at hcond
      exact hcond (Or.inl rfl)
    have hdrop : (a :: t).dropWhile isNumCh = t.dropWhile isNumCh :=
      List.dropWhile_cons_of_pos ha
    split at h
    · split at h
      · simp only [Except.ok.injEq, Prod.mk.injEq] at h
        obtain ⟨-, hr, -⟩ := h
        rw [← hr, hdrop]
        exact Nat.lt_succ_of_le (length_dropWhile_le _ _)
      · exact Except.noConfusion h
    · split at h
      · simp only [Except.ok.injEq, Prod.mk.injEq] at h
        obtain ⟨-, hr, -⟩ := h
        rw [← hr, hdrop]
        exact Nat.lt_succ_of_le (length_dropWhile_le _ _)
      · exact Except.noConfusion h

theorem parse_true_shrink (s : List Char) (v : JVal) (r : List Char) (c : Bool)
    (h : parse_true s = .ok (v, r, c)) : r.length < s.length := by
  unfold parse_true at h
  split at h
  · simp only [Except.ok.injEq, Prod.mk.injEq] at h
    obtain ⟨-, hr, -⟩ := h
    rw [← hr]
    simp only [List.length_cons]
    omega
  · exact Except.noConfusion h

theorem parse_false_shrink (s : List Char) (v : JVal) (r : List Char) (c : Bool)
    (h : parse_false s = .ok (v, r, c)) : r.length < s.length := by
  unfold parse_false at h
  split at h
  · simp only [Except.ok.injEq, Prod.mk.injEq] at h
    obtain ⟨-, hr, -⟩ := h
    rw [← hr]
    simp only [List.length_cons]
    omega
  · exact Except.noConfusion h

theorem parse_null_shrink (s : List Char) (v : JVal) (r : List Char) (c : Bool)
    (h : parse_null s = .ok (v, r, c)) : r.length < s.length := by
  unfold parse_null at h
  split at h
  · simp only [Except.ok.injEq, Prod.mk.injEq] at h
    obtain ⟨-, hr, -⟩ := h
    rw [← hr]
    simp only [List.length_cons]
    omega
  · exact Except.noConfusion h

theorem shrink_all (f : Nat) :
    (∀ s v r c, parse_any f s = .ok (v, r, c) → r.length < s.length) ∧
    (∀ s v r c, parse_space f s = .ok (v, r, c) → r.length < s.length) ∧
    (∀ s v r c, s ≠ [] → parse_array f s = .ok (v, r, c) → r.length < s.length) ∧
    (∀ s v r c, s ≠ [] → parse_object f s = .ok (v, r, c) → r.length < s.length) ∧
    (∀ acc b t a r fl, arrLoop f acc b t = .ok (a, r, fl) → r.length ≤ t.length) ∧
    (∀ acc b t a r fl, objLoop f acc b t = .ok (a, r, fl) → r.length ≤ t.length) := by
  induction f with
  | zero =>
    refine ⟨fun s v r c h => ?_, fun s v r c h => ?_, fun s v r c hs h => ?_,
      fun s v r c hs h => ?_, fun acc b t a r fl h => ?_, fun acc b t a r fl h => ?_⟩
    · simp [parse_any] at h
    · simp [parse_space] at h
    · simp [parse_array] at h
    · simp [parse_object] at h
    · simp [arrLoop] at h
    · simp [objLoop] at h
  | succ f ih =>
    obtain ⟨ihAny, ihSpace, ihArr, ihObj, ihALoop, ihOLoop⟩ := ih
    refine ⟨fun s v r c h => ?_, fun s v r c h => ?_, fun s v r c hs h => ?_,
      fun s v r c hs h => ?_, fun acc b t a r fl h => ?_, fun acc b t a r fl h => ?_⟩
    · -- parse_any
      cases s with
      | nil => simp [parse_any] at h
      | cons c0 cs =>
        simp only [parse_any] at h
        split at h
        · exact ihSpace _ _ _ _ h
        · split at h
          · exact ihArr _ _ _ _ (by simp) h
          · split at h
            · exact ihObj _ _ _ _ (by simp) h
            · split at h
              · exact parse_string_shrink _ _ _ _ (by simp) h
              · split at h
                · exact parse_true_shrink _ _ _ _ h
                · split at h
                  · exact parse_false_shrink _ _ _ _ h
                  · split at h
                    · exact parse_null_shrink _ _ _ _ h
                    · split at h
                      · exact parse_number_shrink _ _ _ _ (by simp) h
                      · exact Except.noConfusion h
    · -- parse_space
      simp only [parse_space] at h
      exact Nat.lt_of_lt_of_le (ihAny _ _ _ _ h) (pyStrip_length_le s)
    · -- parse_array
      simp only [parse_array] at h
      split at h
      · exact Except.noConfusion h
      · next acc0 rest comp heq =>
        simp only [Except.ok.injEq, Prod.mk.injEq] at h
        obtain ⟨-, hr, -⟩ := h
        subst hr
        have h1 : rest.length ≤ (pyStrip (s.drop 1)).length := ihALoop _ _ _ _ _ _ heq
        have h2 : (pyStrip (s.drop 1)).length ≤ (s.drop 1).length := pyStrip_length_le _
        have h3 : (s.drop 1).length = s.length - 1 := by simp
        have h4 : 1 ≤ s.length := by
          cases s with
          | nil => exact absurd rfl hs
          | cons a t => simp
        omega
    · -- parse_object
      simp only [parse_object] at h
      split at h
      · exact Except.noConfusion h
      · next acc0 rest comp heq =>
        simp only [Except.ok.injEq, Prod.mk.injEq] at h
        obtain ⟨-, hr, -⟩ := h
        subst hr
        have h1 : rest.length ≤ (pyStrip (s.drop 1)).length := ihOLoop _ _ _ _ _ _ heq
        have h2 : (pyStrip (s.drop 1)).length ≤ (s.drop 1).length := pyStrip_length_le _
        have h3 : (s.drop 1).length = s.length - 1 := by simp
        have h4 : 1 ≤ s.length := by
          cases s with
          | nil => exact absurd rfl hs
          | cons a t => simp
        omega
    · -- arrLoop
      cases t with
      | nil =>
        simp only [arrLoop] at h
        simp only [Except.ok.injEq, Prod.mk.injEq] at h
        obtain ⟨-, hr, -⟩ := h
        rw [← hr]
      | cons c0 cs =>
        simp only [arrLoop] at h
        split at h
        · rename_i heq
          exact List.noConfusion heq
        · rename_i s2 rest2 heq
          injection heq with h1 h2
          simp only [Except.ok.injEq, Prod.mk.injEq] at h
          obtain ⟨-, hr, -⟩ := h
          subst hr
          rw [← h2]
          simp
        · split at h
          · exact Except.noConfusion h
          · rename_i res s1 isComp heq2
            have h1 : r.length ≤ (consumeComma (pyStrip s1)).length := ihALoop _ _ _ _ _ _ h
            have h2 : (consumeComma (pyStrip s1)).length ≤ (pyStrip s1).length :=
              consumeComma_length_le _
            have h3 : (pyStrip s1).length ≤ s1.length := pyStrip_length_le _
            have h4 : s1.length < (c0 :: cs).length := ihAny _ _ _ _ heq2
            omega
    · -- objLoop
      cases t with
      | nil =>
        simp only [objLoop] at h
        simp only [Except.ok.injEq, Prod.mk.injEq] at h
        obtain ⟨-, hr, -⟩ := h
        rw [← hr]
      | cons c0 cs =>
        simp only [objLoop] at h
        split at h
        · rename_i heq
          exact List.noConfusion heq
        · rename_i s2 rest2 heq
          injection heq with h1 h2
          simp only [Except.ok.injEq, Prod.mk.injEq] at h
          obtain ⟨-, hr, -⟩ := h
          subst hr
          rw [← h2]
          simp
        · split at h
          · exact Except.noConfusion h
          · rename_i key s1 kComp heq
            have hk : s1.length < (c0 :: cs).length := ihAny _ _ _ _ heq
            have hstrip : (pyStrip s1).length ≤ s1.length := pyStrip_length_le _
            split at h
            · split at h
              · exact Except.noConfusion h
              · simp only [Except.ok.injEq, Prod.mk.injEq] at h
                obtain ⟨-, hr, -⟩ := h
                subst hr
                omega
            · split at h
              · exact Except.noConfusion h
              · simp only [Except.ok.injEq, Prod.mk.injEq] at h
                obtain ⟨-, hr, -⟩ := h
                subst hr
                omega
            · rename_i s2x s3x heqC
              have hs3 : s3x.length + 1 = (pyStrip s1).length := by
                rw [heqC]
                simp
              have hstrip3 : (pyStrip s3x).length ≤ s3x.length := pyStrip_length_le _
              split at h
              · split at h
                · exact Except.noConfusion h
                · simp only [Except.ok.injEq, Prod.mk.injEq] at h
                  obtain ⟨-, hr, -⟩ := h
                  subst hr
                  omega
              · rename_i s5 heqD
                have hs5 : s5.length + 1 = (pyStrip s3x).length := by
                  rw [heqD]
                  simp
                split at h
                · exact Except.noConfusion h
                · simp only [Except.ok.injEq, Prod.mk.injEq] at h
                  obtain ⟨-, hr, -⟩ := h
                  subst hr
                  omega
              · split at h
                · exact Except.noConfusion h
                · simp only [Except.ok.injEq, Prod.mk.injEq] at h
                  obtain ⟨-, hr, -⟩ := h
                  subst hr
                  omega
              · split at h
                · exact Except.noConfusion h
                · rename_i value s5v vComp heqE
                  have hval : s5v.length < (pyStrip s3x).length := ihAny _ _ _ _ heqE
                  split at h
                  · exact Except.noConfusion h
                  · have h1 : r.length ≤ (consumeComma (pyStrip s5v)).length :=
                      ihOLoop _ _ _ _ _ _ h
                    have h2 : (consumeComma (pyStrip s5v)).length ≤ (pyStrip s5v).length :=
                      consumeComma_length_le _
                    have h3 : (pyStrip s5v).length ≤ s5v.length := pyStrip_length_le _
                    omega
            · exact Except.noConfusion h

theorem pySpaceKey_isSpace (c : Char) (h : pySpaceKey c = true) : pyIsSpace c = true := by
  unfold pySpaceKey at h
  unfold pyIsSpace
  rcases Bool.or_eq_true_iff.mp h with h1 | h1
  · rcases Bool.or_eq_true_iff.mp h1 with h2 | h2
    · rcases Bool.or_eq_true_iff.mp h2 with h3 | h3 <;> simp [h3]
    · simp [h2]
  · simp [h1]

theorem parse_string_no_fuel (s : List Char) : parse_string s ≠ .error .outOfFuel := by
  unfold parse_string
  dsimp only
  split
  · simp
  · split <;> simp

theorem parse_number_no_fuel (s : List Char) : parse_number s ≠ .error .outOfFuel := by
  unfold parse_number
  dsimp only
  split
  · simp
  · split
    · split <;> simp
    · split <;> simp

theorem parse_true_no_fuel (s : List Char) : parse_true s ≠ .error .outOfFuel := by
  unfold parse_true
  split <;> simp

theorem parse_false_no_fuel (s : List Char) : parse_false s ≠ .error .outOfFuel := by
  unfold parse_false
  split <;> simp

theorem parse_null_no_fuel (s : List Char) : parse_null s ≠ .error .outOfFuel := by
  unfold parse_null
  split <;> simp

theorem pyInsert_no_fuel (acc : List (JVal × JVal)) (k v : JVal) :
    pyInsert acc k v ≠ .error .outOfFuel := by
  unfold pyInsert
  split <;> simp

theorem fuel_all (f : Nat) :
    (∀ s, 3 * s.length + 3 ≤ f → parse_any f s ≠ .error .outOfFuel) ∧
    (∀ s, 3 * (pyStrip s).length + 4 ≤ f → parse_space f s ≠ .error .outOfFuel) ∧
    (∀ s, s ≠ [] → 3 * s.length + 2 ≤ f → parse_array f s ≠ .error .outOfFuel) ∧
    (∀ s, s ≠ [] → 3 * s.length + 2 ≤ f → parse_object f s ≠ .error .outOfFuel) ∧
    (∀ acc b t, 3 * t.length + 4 ≤ f → arrLoop f acc b t ≠ .error .outOfFuel) ∧
    (∀ acc b t, 3 * t.length + 4 ≤ f → objLoop f acc b t ≠ .error .outOfFuel) := by
  induction f with
  | zero =>
    refine ⟨fun s hb => ?_, fun s hb => ?_, fun s hs hb => ?_, fun s hs hb => ?_,
      fun acc b t hb => ?_, fun acc b t hb => ?_⟩ <;> exact absurd hb (by omega)
  | succ f ih =>
    obtain ⟨ihAny, ihSpace, ihArr, ihObj, ihALoop, ihOLoop⟩ := ih
    obtain ⟨shAny, -, -, -, -, -⟩ := shrink_all f
    refine ⟨fun s hb => ?_, fun s hb => ?_, fun s hs hb => ?_, fun s hs hb => ?_,
      fun acc b t hb => ?_, fun acc b t hb => ?_⟩
    · -- parse_any
      cases s with
      | nil => simp [parse_any]
      | cons c0 cs =>
        simp only [parse_any]
        intro hcon
        split at hcon
        · rename_i hsp
          have hlt : (pyStrip (c0 :: cs)).length < (c0 :: cs).length :=
            pyStrip_cons_space_lt _ _ (pySpaceKey_isSpace _ hsp)
          refine ihSpace _ ?_ hcon
          simp only [List.length_cons] at hb hlt ⊢
          omega
        · split at hcon
          · refine ihArr _ (by simp) ?_ hcon
            omega
          · split at hcon
            · refine ihObj _ (by simp) ?_ hcon
              omega
            · split at hcon
              · exact parse_string_no_fuel _ hcon
              · split at hcon
                · exact parse_true_no_fuel _ hcon
                · split at hcon
                  · exact parse_false_no_fuel _ hcon
                  · split at hcon
                    · exact parse_null_no_fuel _ hcon
                    · split at hcon
                      · exact parse_number_no_fuel _ hcon
                      · simp at hcon
    · -- parse_space
      simp only [parse_space]
      refine ihAny _ ?_
      omega
    · -- parse_array
      simp only [parse_array]
      intro hcon
      split at hcon
      · rename_i e heq
        have hdl : (pyStrip (s.drop 1)).length ≤ s.length - 1 := by
          have h1 : (pyStrip (s.drop 1)).length ≤ (s.drop 1).length := pyStrip_length_le _
          have h2 : (s.drop 1).length = s.length - 1 := by simp
          omega
        have h4 : 1 ≤ s.length := by
          cases s with
        | nil => exact absurd rfl hs
        | cons a t => simp
        have hloop : arrLoop f [] false (pyStrip (s.drop 1)) ≠ .error .outOfFuel := by
          refine ihALoop _ _ _ ?_
          omega
        injection hcon with hcon2
        rw [hcon2] at heq
        exact hloop heq
      · exact Except.noConfusion hcon
    · -- parse_object
      simp only [parse_object]
      intro hcon
      split at hcon
      · rename_i e heq
        have hdl : (pyStrip (s.drop 1)).length ≤ s.length - 1 := by
          have h1 : (pyStrip (s.drop 1)).length ≤ (s.drop 1).length := pyStrip_length_le _
          have h2 : (s.drop 1).length = s.length - 1 := by simp
          omega
        have h4 : 1 ≤ s.length := by
          cases s with
        | nil => exact absurd rfl hs
        | cons a t => simp
        have hloop : objLoop f [] false (pyStrip (s.drop 1)) ≠ .error .outOfFuel := by
          refine ihOLoop _ _ _ ?_
          omega
        injection hcon with hcon2
        rw [hcon2] at heq
        exact hloop heq
      · exact Except.noConfusion hcon
    · -- arrLoop
      cases t with
      | nil => simp [arrLoop]
      | cons c0 cs =>
        simp only [arrLoop]
        intro hcon
        split at hcon
        · simp at hcon
        · simp at hcon
        · split at hcon
          · rename_i e heq
            have : parse_any f (c0 :: cs) ≠ .error .outOfFuel := by
              refine ihAny _ ?_
              simp only [List.length_cons] at hb ⊢
              omega
            injection hcon with hcon2
            rw [hcon2] at heq
            exact this heq
          · rename_i res s1 isComp heq
            have hsh : s1.length < (c0 :: cs).length := shAny _ _ _ _ heq
            have hcc : (consumeComma (pyStrip s1)).length ≤ s1.length := by
              have h1 := consumeComma_length_le (pyStrip s1)
              have h2 := pyStrip_length_le s1
              omega
            refine ihALoop _ _ _ ?_ hcon
            simp only [List.length_cons] at hb hsh ⊢
            omega
    · -- objLoop
      cases t with
      | nil => simp [objLoop]
      | cons c0 cs =>
        simp only [objLoop]
        intro hcon
        split at hcon
        · simp at hcon
        · simp at hcon
        · split at hcon
          · rename_i e heq
            have : parse_any f (c0 :: cs) ≠ .error .outOfFuel := by
              refine ihAny _ ?_
              simp only [List.length_cons] at hb ⊢
              omega
            injection hcon with hcon2
            rw [hcon2] at heq
            exact this heq
          · rename_i key s1 kComp heq
            have hk : s1.length < (c0 :: cs).length := shAny _ _ _ _ heq
            have hstrip : (pyStrip s1).length ≤ s1.length := pyStrip_length_le _
            split at hcon
            · split at hcon
              · rename_i e2 heqI
                injection hcon with h2
                rw [h2] at heqI
                exact pyInsert_no_fuel _ _ _ heqI
              · simp at hcon
            · split at hcon
              · rename_i e2 heqI
                injection hcon with h2
                rw [h2] at heqI
                exact pyInsert_no_fuel _ _ _ heqI
              · simp at hcon
            · rename_i s2x s3x heqC
              have hs3 : s3x.length + 1 = (pyStrip s1).length := by
                rw [heqC]
                simp
              have hstrip3 : (pyStrip s3x).length ≤ s3x.length := pyStrip_length_le _
              split at hcon
              · split at hcon
                · rename_i e2 heqI
                  injection hcon with h2
                  rw [h2] at heqI
                  exact pyInsert_no_fuel _ _ _ heqI
                · simp at hcon
              · split at hcon
                · rename_i e2 heqI
                  injection hcon with h2
                  rw [h2] at heqI
                  exact pyInsert_no_fuel _ _ _ heqI
                · simp at hcon
              · split at hcon
                · rename_i e2 heqI
                  injection hcon with h2
                  rw [h2] at heqI
                  exact pyInsert_no_fuel _ _ _ heqI
                · simp at hcon
              · split at hcon
                · rename_i e heqE
                  have : parse_any f (pyStrip s3x) ≠ .error .outOfFuel := by
                    refine ihAny _ ?_
                    simp only [List.length_cons] at hb hk ⊢
                    omega
                  injection hcon with hcon2
                  rw [hcon2] at heqE
                  exact this heqE
                · rename_i value s5v vComp heqE
                  have hval : s5v.length < (pyStrip s3x).length := shAny _ _ _ _ heqE
                  split at hcon
                  · rename_i e2 heqI
                    injection hcon with h2
                    rw [h2] at heqI
                    exact pyInsert_no_fuel _ _ _ heqI
                  · have hcc : (consumeComma (pyStrip s5v)).length ≤ s5v.length := by
                      have h1 := consumeComma_length_le (pyStrip s5v)
                      have h2 := pyStrip_length_le s5v
                      omega
                    refine ihOLoop _ _ _ ?_ hcon
                    simp only [List.length_cons] at hb hk ⊢
                    omega
            · simp at hcon

theorem parseAnyTop_no_fuel (s : List Char) : parseAnyTop s ≠ .error .outOfFuel :=
  (fuel_all (FUEL s)).1 s (by unfold FUEL; omega)

/-- C8 counterexample: `parse` raises a structural error on "tr" even
though its first character has a registered parser (the dispatcher routes
it to `parse_true`) and no object key/colon is involved: the raise happens
at the literal-mismatch site, outside the claim's two situations. -/
theorem cex_raise_beyond_two :
    parse ("tr").data = .error (.decodeErr .literalMismatch) ∧
      parseAnyTop ("tr").data = parse_true ("tr").data :=
  ⟨rfl, rfl⟩

/-- C8 amended: `parse` raises exactly at these sites — no significant
character at all or an undispatchable first character; an object key
followed (with text remaining) by a character other than colon or closing
brace; a numeric conversion failure on the accumulated run; a literal
token that does not fully match; a found string span that fails strict
decoding; and Python's `TypeError` when a composite key is assigned.
Each is reachable, as the concrete inputs show. -/
theorem claim_raise_conditions_amended :
    (∀ s r, parse s = .error r →
      r = .decodeErr .emptyInput ∨ r = .decodeErr .undispatchable ∨
      r = .decodeErr .keyColon ∨ r = .decodeErr .numberConv ∨
      r = .decodeErr .literalMismatch ∨ r = .decodeErr .stringDecode ∨
      r = .typeError) ∧
    parse (" ").data = .error (.decodeErr .emptyInput) ∧
    parse ("@").data = .error (.decodeErr .undispatchable) ∧
    parse ("\x7b\"a\"x").data = .error (.decodeErr .keyColon) ∧
    parse ("1-2").data = .error (.decodeErr .numberConv) ∧
    parse ("tru").data = .error (.decodeErr .literalMismatch) ∧
    parse ("\x22\\x\x22").data = .error (.decodeErr .stringDecode) ∧
    parse ("\x7b[]\x7d").data = .error .typeError := by
  refine ⟨fun s r h => ?_, rfl, rfl, rfl, rfl, rfl, rfl, rfl⟩
  have hno : r ≠ .outOfFuel := by
    intro hr
    subst hr
    cases s with
    | nil => exact absurd h (by simp [parse, parseWithState, Except.map])
    | cons c cs =>
      unfold parse parseWithState at h
      rw [if_pos (show 1 ≤ (c :: cs).length by simp)] at h
      cases hjl : jsonLoads (c :: cs) with
      | some v =>
        rw [hjl] at h
        simp [Except.map] at h
      | none =>
        rw [hjl] at h
        cases hpa : parseAnyTop (c :: cs) with
        | error e =>
          rw [hpa] at h
          have he : e = PErr.outOfFuel := by simpa [Except.map] using h
          exact parseAnyTop_no_fuel _ (he ▸ hpa)
        | ok trip =>
          obtain ⟨data, rem, cf⟩ := trip
          rw [hpa] at h
          simp [Except.map] at h
  cases r with
  | decodeErr site => cases site <;> simp
  | typeError => simp
  | outOfFuel => exact absurd rfl hno

/-- Witness for C8's amended universal part at the literal-mismatch
input. -/
theorem claim_raise_conditions_amended_witness :
    (PErr.decodeErr .literalMismatch) = .decodeErr .emptyInput ∨
      (PErr.decodeErr .literalMismatch) = .decodeErr .undispatchable ∨
      (PErr.decodeErr .literalMismatch) = .decodeErr .keyColon ∨
      (PErr.decodeErr .literalMismatch) = .decodeErr .numberConv ∨
      (PErr.decodeErr .literalMismatch) = .decodeErr .literalMismatch ∨
      (PErr.decodeErr .literalMismatch) = .decodeErr .stringDecode ∨
      (PErr.decodeErr .literalMismatch) = .typeError :=
  claim_raise_conditions_amended.1 ("tru").data _ (by rfl)

theorem not_any_not_eq_all (fs : List Bool) : (!(fs.any fun x => !x)) = fs.all id := by
  induction fs with
  | nil => rfl
  | cons a t ih => cases a <;> simp_all

theorem arrLoop_eq_instr (f : Nat) (acc : List JVal) (b : Bool) (t : List Char) :
    arrLoop f acc b t =
      match arrLoopInstr f t with
      | .error e => .error e
      | .ok (vs, fs, rem, _) => .ok (acc ++ vs, rem, !(b || fs.any (fun x => !x))) := by
  induction f generalizing acc b t with
  | zero => rfl
  | succ f ih =>
    cases t with
    | nil => simp [arrLoop, arrLoopInstr]
    | cons c0 cs =>
      by_cases hc : c0 = ']'
      · subst hc
        simp [arrLoop, arrLoopInstr]
      · simp only [arrLoop, arrLoopInstr]
        split
        · rename_i heq
          exact List.noConfusion heq
        · rename_i s2 rest2 heq
          injection heq with h1 h2
          exact absurd h1 hc
        · cases hpa : parse_any f (c0 :: cs) with
          | error e => simp [hpa]
          | ok trip =>
            obtain ⟨res, s1, isComp⟩ := trip
            simp only [hpa]
            rw [ih]
            cases hin : arrLoopInstr f (consumeComma (pyStrip s1)) with
            | error e => rfl
            | ok quad =>
              obtain ⟨vs, fs, rem, reason⟩ := quad
              simp [List.append_assoc, Bool.or_assoc]

/-- C4: when the array loop runs out of input without having seen a
closing bracket (`ranOut`), the array parser still returns every element
collected so far, and its completeness flag is true exactly when every
element's own flag was true — the missing bracket by itself does not make
the array incomplete. -/
theorem claim_array_exhaustion (f : Nat) (s : List Char) (vs : List JVal)
    (fs : List Bool) (rem : List Char)
    (h : arrLoopInstr f (pyStrip (s.drop 1)) = .ok (vs, fs, rem, .ranOut)) :
    parse_array (f + 1) s = .ok (.arr vs, rem, fs.all id) := by
  simp only [parse_array]
  rw [arrLoop_eq_instr, h]
  simp [not_any_not_eq_all]

/-- Witness for C4 at the truncated array `[1,"a`, whose second element
is an incomplete string. -/
theorem claim_array_exhaustion_witness :
    arrLoopInstr 30 (pyStrip (("[1,\"a").data.drop 1)) =
      .ok ([JVal.num false 1, JVal.str ("a").data], [true, false], [], .ranOut) ∧
    parse_array 31 ("[1,\"a").data =
      .ok (.arr [JVal.num false 1, JVal.str ("a").data], [], false) :=
  ⟨rfl, claim_array_exhaustion 30 ("[1,\"a").data
    [JVal.num false 1, JVal.str ("a").data] [true, false] [] (by rfl)⟩

/-- C5 counterexample: a comma directly after a key (before any colon)
does not produce a null placeholder as the claim asserts — the object
parser raises the structural error of the missing-colon site, and so does
`parse`. -/
theorem cex_object_comma_after_key :
    parse_object 40 ("\x7b\"a\",1\x7d").data = .error (.decodeErr .keyColon) ∧
    parse ("\x7b\"a\",1\x7d").data = .error (.decodeErr .keyColon) :=
  ⟨rfl, rfl⟩

/-- C5 amended: in the object parser, after a key parses (to a hashable
value): if the remaining text is empty or begins with a closing brace the
key is assigned the null placeholder and the object is returned marked
incomplete, without raising; if a colon follows and after it the text is
empty or begins with a comma (which is consumed) or a closing brace,
likewise; but if more text remains and the character after the key is
neither a colon nor a closing brace — a comma included — the parser
raises a structural error. -/
theorem claim_object_dangling_amended (f : Nat) (acc : List (JVal × JVal)) (b : Bool)
    (c0 : Char) (cs : List Char) (key : JVal) (s1 : List Char) (kc : Bool)
    (hne : c0 ≠ '\x7d')
    (hpa : parse_any f (c0 :: cs) = .ok (key, s1, kc))
    (hkey : hashable key = true) :
    (pyStrip s1 = [] →
      objLoop (f + 1) acc b (c0 :: cs) = .ok (insertEq acc key .null, [], false)) ∧
    (∀ u, pyStrip s1 = '\x7d' :: u →
      objLoop (f + 1) acc b (c0 :: cs) = .ok (insertEq acc key .null, pyStrip s1, false)) ∧
    (∀ u, pyStrip s1 = ':' :: u →
      (pyStrip u = [] →
        objLoop (f + 1) acc b (c0 :: cs) = .ok (insertEq acc key .null, [], false)) ∧
      (∀ w, pyStrip u = ',' :: w →
        objLoop (f + 1) acc b (c0 :: cs) = .ok (insertEq acc key .null, w, false)) ∧
      (∀ w, pyStrip u = '\x7d' :: w →
        objLoop (f + 1) acc b (c0 :: cs) = .ok (insertEq acc key .null, pyStrip u, false))) ∧
    (∀ c2 u, pyStrip s1 = c2 :: u → c2 ≠ ':' → c2 ≠ '\x7d' →
      objLoop (f + 1) acc b (c0 :: cs) = .error (.decodeErr .keyColon)) := by
  have hred : ∀ target : Except PErr (List (JVal × JVal) × List Char × Bool),
      (match pyStrip s1 with
        | [] =>
          match pyInsert acc key JVal.null with
          | Except.error e => Except.error e
          | Except.ok acc2 => Except.ok (acc2, pyStrip s1, false)
        | '\x7d' :: _ =>
          match pyInsert acc key JVal.null with
          | Except.error e => Except.error e
          | Except.ok acc2 => Except.ok (acc2, pyStrip s1, false)
        | ':' :: s3 =>
          (match pyStrip s3 with
            | [] =>
              match pyInsert acc key JVal.null with
              | Except.error e => Except.error e
              | Except.ok acc2 => Except.ok (acc2, pyStrip s3, false)
            | ',' :: s5 =>
              match pyInsert acc key JVal.null with
              | Except.error e => Except.error e
              | Except.ok acc2 => Except.ok (acc2, s5, false)
            | '\x7d' :: _ =>
              match pyInsert acc key JVal.null with
              | Except.error e => Except.error e
              | Except.ok acc2 => Except.ok (acc2, pyStrip s3, false)
            | _ =>
              match parse_any f (pyStrip s3) with
              | Except.error e => Except.error e
              | Except.ok (value, s5, vComp) =>
                match pyInsert acc key value with
                | Except.error e => Except.error e
                | Except.ok acc2 =>
                  objLoop f acc2 ((b || !kc) || !vComp) (consumeComma (pyStrip s5)))
        | _ :: _ => Except.error (PErr.decodeErr RSite.keyColon)) = target →
      objLoop (f + 1) acc b (c0 :: cs) = target := by
    intro target hmatch
    simp only [objLoop]
    split
    · rename_i heq
      exact List.noConfusion heq
    · rename_i s2 rest2 heq
      injection heq with h1 h2
      exact absurd h1 hne
    · rw [hpa]
      dsimp only
      exact hmatch
  refine ⟨fun hnil => ?_, fun u hbr => ?_, fun u hcol => ?_, fun c2 u hother hnc hnb => ?_⟩
  · refine hred _ ?_
    rw [hnil]
    simp [pyInsert, hkey, hnil]
  · refine hred _ ?_
    rw [hbr]
    simp [pyInsert, hkey, hbr]
  · refine ⟨fun hnil2 => ?_, fun w hcomma => ?_, fun w hbr2 => ?_⟩
    · refine hred _ ?_
      rw [hcol]
      simp [pyInsert, hkey, hnil2]
    · refine hred _ ?_
      rw [hcol]
      simp [pyInsert, hkey, hcomma]
    · refine hred _ ?_
      rw [hcol]
      simp [pyInsert, hkey, hbr2]
  · refine hred _ ?_
    rw [hother]
    simp [hnc, hnb]

/-- Witness for C5's amended statement: in `\x7b"k":,1...`, after the key
`"k"` and its colon a comma follows, so the key dangles with a null
placeholder, the comma is consumed, and the loop stops without
raising. -/
theorem claim_object_dangling_amended_witness :
    objLoop 41 [] false ('\x22' :: ("k\x22:,1").data) =
      .ok (insertEq [] (JVal.str ("k").data) .null, ("1").data, false) :=
  ((claim_object_dangling_amended 40 [] false '\x22' (("k\x22:,1").data)
      (JVal.str ("k").data) ((":,1").data) true (by decide) (by rfl) rfl).2.2.1
    ((",1").data) (by rfl)).2.1 (("1").data) (by rfl)

theorem lookTerm_zero (prev c : Char) (t : List Char) :
    lookTerm prev (c :: t) 0 = (decide (c = '\x22') && decide (prev ≠ '\\')) := rfl

theorem lookTerm_succ (prev c : Char) (t : List Char) (i : Nat) :
    lookTerm prev (c :: t) (i + 1) = lookTerm c t i := by
  cases i with
  | zero => rfl
  | succ j => rfl

theorem scanQuote_none_iff (prev : Char) (cs : List Char) :
    scanQuote prev cs = none ↔ ∀ i, lookTerm prev cs i = false := by
  induction cs generalizing prev with
  | nil =>
    constructor
    · intro _ i
      rfl
    · intro _
      rfl
  | cons c t ih =>
    rw [scanQuote]
    by_cases hc : c = '\x22' ∧ prev ≠ '\\'
    · rw [if_pos hc]
      constructor
      · intro hcon
        exact Option.noConfusion hcon
      · intro hall
        have := hall 0
        rw [lookTerm_zero] at this
        simp [hc.1, hc.2] at this
    · rw [if_neg hc]
      constructor
      · intro hnone i
        have hsub : scanQuote c t = none := by
          cases hsq : scanQuote c t with
          | none => rfl
          | some p => rw [hsq] at hnone; exact Option.noConfusion hnone
        cases i with
        | zero =>
          rw [lookTerm_zero]
          by_cases h1 : c = '\x22'
          · have h2 : ¬prev ≠ '\\' := fun hp => hc ⟨h1, hp⟩
            simp [h2]
          · simp [h1]
        | succ j =>
          rw [lookTerm_succ]
          exact (ih c).mp hsub j
      · intro hall
        have hsub : scanQuote c t = none := (ih c).mpr fun i => by
          have := hall (i + 1)
          rwa [lookTerm_succ] at this
        rw [hsub]
        rfl

theorem scanQuote_some (prev : Char) (cs : List Char) (i : Nat)
    (hterm : lookTerm prev cs i = true)
    (hleast : ∀ j, j < i → lookTerm prev cs j = false) :
    scanQuote prev cs = some (cs.take i, cs.drop (i + 1)) := by
  induction cs generalizing prev i with
  | nil => exact Bool.noConfusion hterm
  | cons c t ih =>
    rw [scanQuote]
    by_cases hc : c = '\x22' ∧ prev ≠ '\\'
    · have h0 : lookTerm prev (c :: t) 0 = true := by
        rw [lookTerm_zero]
        simp [hc.1, hc.2]
      have hi0 : i = 0 := by
        by_contra hne
        have := hleast 0 (Nat.pos_of_ne_zero hne)
        rw [h0] at this
        exact Bool.noConfusion this
      subst hi0
      rw [if_pos hc]
      rfl
    · rw [if_neg hc]
      have h0 : lookTerm prev (c :: t) 0 = false := by
        rw [lookTerm_zero]
        by_cases h1 : c = '\x22'
        · have h2 : ¬prev ≠ '\\' := fun hp => hc ⟨h1, hp⟩
          simp [h2]
        · simp [h1]
      cases i with
      | zero => rw [h0] at hterm; exact Bool.noConfusion hterm
      | succ j =>
        rw [lookTerm_succ] at hterm
        have hleast2 : ∀ k, k < j → lookTerm c t k = false := by
          intro k hk
          have := hleast (k + 1) (by omega)
          rwa [lookTerm_succ] at this
        rw [ih c j hterm hleast2]
        rfl

/-- C6 counterexample: with the invalid escape `\x`, the string parser
finds a closing quote but the strict decode of the span raises instead of
returning a decoded string as the claim asserts; `parse` propagates the
error. -/
theorem cex_string_invalid_escape :
    parse_string ("\x22\\x\x22").data = .error (.decodeErr .stringDecode) ∧
    parse ("\x22\\x\x22").data = .error (.decodeErr .stringDecode) :=
  ⟨rfl, rfl⟩

/-- C6 amended: on an opening quote followed by `cs`, when no index of
`cs` is a terminator under the single-character backslash lookback the
parser returns the raw text `cs`, empty remainder and `false`; when `i`
is the least terminator index, the span through that quote is decoded by
the strict decoder — on success the decoded string, the suffix after the
quote and `true` are returned, while on a decode failure (invalid escape,
raw control character, or a span that is not exactly one string literal,
as the escaped-backslash lookback ambiguity produces) the strict
decoder's error propagates instead. -/
theorem claim_string_parser_amended (cs : List Char) :
    ((∀ i, lookTerm '\x22' cs i = false) →
      parse_string ('\x22' :: cs) = .ok (.str cs, [], false)) ∧
    (∀ i, lookTerm '\x22' cs i = true → (∀ j, j < i → lookTerm '\x22' cs j = false) →
      ((∀ content, decodeBody none (cs.take i ++ ['\x22']) = some (content, []) →
        parse_string ('\x22' :: cs) = .ok (.str content, cs.drop (i + 1), true)) ∧
       ((∀ content, decodeBody none (cs.take i ++ ['\x22']) ≠ some (content, [])) →
        parse_string ('\x22' :: cs) = .error (.decodeErr .stringDecode)))) := by
  constructor
  · intro hall
    unfold parse_string
    dsimp only
    simp only [List.drop_succ_cons, List.drop_zero]
    rw [(scanQuote_none_iff '\x22' cs).mpr hall]
  · intro i hterm hleast
    constructor
    · intro content hdec
      unfold parse_string
      dsimp only
      simp only [List.drop_succ_cons, List.drop_zero]
      rw [scanQuote_some '\x22' cs i hterm hleast]
      dsimp only
      rw [hdec]
    · intro hfail
      unfold parse_string
      dsimp only
      simp only [List.drop_succ_cons, List.drop_zero]
      rw [scanQuote_some '\x22' cs i hterm hleast]
      dsimp only
      cases hdec : decodeBody none (cs.take i ++ ['\x22']) with
      | none => rfl
      | some p =>
        obtain ⟨content, leftover⟩ := p
        cases leftover with
        | nil => exact absurd hdec (hfail content)
        | cons l ls => rfl

/-- Witness for C6's amended statement on the complete literal `"a"R`:
the terminator is at index 1 and the span decodes to `a`. -/
theorem claim_string_parser_amended_witness :
    parse_string ('\x22' :: ("a\x22R").data) =
      .ok (.str ("a").data, ("R").data, true) :=
  ((claim_string_parser_amended (("a\x22R").data)).2 1 (by rfl)
      (fun j hj => by
        cases j with
        | zero => rfl
        | succ n => exact absurd hj (by omega))).1
    (("a").data) (by rfl)

theorem take_clip {α : Type} (l : List α) (j : Nat) :
    ∃ m, m ≤ l.length ∧ l.take j = l.take m := by
  rcases Nat.le_total j l.length with h | h
  · exact ⟨j, h, rfl⟩
  · exact ⟨l.length, Nat.le_refl _, by rw [List.take_of_length_le h, List.take_length]⟩

theorem dropWhile_eq_drop (p : α → Bool) (l : List α) :
    ∃ d, d ≤ l.length ∧ l.dropWhile p = l.drop d := by
  induction l with
  | nil => exact ⟨0, by simp, rfl⟩
  | cons c t ih =>
    by_cases h : p c
    · obtain ⟨d, hd, he⟩ := ih
      refine ⟨d + 1, by simp; omega, ?_⟩
      rw [List.dropWhile_cons_of_pos h, List.drop_succ_cons]
      exact he
    · exact ⟨0, by simp, by rw [List.dropWhile_cons_of_neg h, List.drop_zero]⟩

theorem rstrip_eq_take (z : List Char) : ∃ j, j ≤ z.length ∧ rstrip z = z.take j := by
  obtain ⟨d, hd, he⟩ := dropWhile_eq_drop pyIsSpace z.reverse
  refine ⟨z.length - d, by omega, ?_⟩
  rw [rstrip, he, List.drop_reverse, List.reverse_reverse]

theorem rstrip_take (z : List Char) (n : Nat) :
    ∃ m, m ≤ z.length ∧ rstrip (z.take n) = z.take m := by
  obtain ⟨j, hj, he⟩ := rstrip_eq_take (z.take n)
  refine ⟨min n j, ?_, ?_⟩
  · have := List.length_take n z
    omega
  · rw [he, List.take_take, Nat.min_comm]

theorem dropWhile_append_all (p : α → Bool) (A B : List α)
    (h : ∀ c ∈ A, p c = true) : (A ++ B).dropWhile p = B.dropWhile p := by
  induction A with
  | nil => rfl
  | cons a t ih =>
    rw [List.cons_append, List.dropWhile_cons_of_pos (h a (by simp))]
    exact ih fun c hc => h c (by simp [hc])

theorem takeWhile_append_stop (p : α → Bool) (A B : List α)
    (hA : ∀ c ∈ A, p c = true) (hB : ∀ c t, B = c :: t → p c = false) :
    (A ++ B).takeWhile p = A ∧ (A ++ B).dropWhile p = B := by
  induction A with
  | nil =>
    cases B with
    | nil => exact ⟨rfl, rfl⟩
    | cons c t =>
      have := hB c t rfl
      constructor
      · exact List.takeWhile_cons_of_neg (by simp [this])
      · exact List.dropWhile_cons_of_neg (by simp [this])
  | cons a t ih =>
    have ha : p a = true := hA a (by simp)
    obtain ⟨h1, h2⟩ := ih fun c hc => hA c (by simp [hc])
    constructor
    · rw [List.cons_append, List.takeWhile_cons_of_pos ha, h1]
    · rw [List.cons_append, List.dropWhile_cons_of_pos ha]
      exact h2

theorem takeWhile_all (p : α → Bool) (l : List α) (h : ∀ c ∈ l, p c = true) :
    l.takeWhile p = l ∧ l.dropWhile p = [] := by
  have := takeWhile_append_stop p l [] h (fun c t hct => List.noConfusion hct)
  simpa using this

theorem jsonIsSpace_py (c : Char) (h : jsonIsSpace c = true) : pyIsSpace c = true := by
  simp only [jsonIsSpace, Bool.or_eq_true, decide_eq_true_eq] at h
  rcases h with ((h | h) | h) | h <;> subst h <;> rfl

theorem jsonIsSpace_key (c : Char) (h : jsonIsSpace c = true) : pySpaceKey c = true := by
  simp only [jsonIsSpace, Bool.or_eq_true, decide_eq_true_eq] at h
  rcases h with ((h | h) | h) | h <;> subst h <;> rfl

theorem skipW_decomp (x : List Char) :
    x = x.takeWhile jsonIsSpace ++ skipW x ∧
      ∀ c ∈ x.takeWhile jsonIsSpace, pyIsSpace c = true := by
  refine ⟨(List.takeWhile_append_dropWhile ..).symm, fun c hc => ?_⟩
  exact jsonIsSpace_py c (List.mem_takeWhile_imp hc)

theorem skipW_head (r : List Char) (c : Char) (t : List Char) (hr : r = c :: t) :
    jsonIsSpace c = true ∨ skipW r = r := by
  subst hr
  by_cases h : jsonIsSpace c
  · exact .inl h
  · exact .inr (by rw [skipW, List.dropWhile_cons_of_neg (by simp [h])])

theorem skipW_nil_head (r : List Char) (c : Char) (t : List Char) (hr : r = c :: t)
    (hn : skipW r = []) : jsonIsSpace c = true := by
  rcases skipW_head r c t hr with h | h
  · exact h
  · have hre : r = [] := h.symm.trans hn
    rw [hr] at hre
    exact List.noConfusion hre

theorem pyStrip_all_space (w : List Char) (h : ∀ c ∈ w, pyIsSpace c = true) :
    pyStrip w = [] := by
  rw [pyStrip_eq_rstrip]
  have h2 := (takeWhile_all pyIsSpace w h).2
  rw [h2]
  rfl

/-- Stripping any prefix of a text that begins with strict whitespace
followed by a non-space character lands on a prefix of the
whitespace-skipped text. -/
theorem pyStrip_take_skipW (x : List Char) (k : Nat)
    (hhead : ∀ c t, skipW x = c :: t → pyIsSpace c = false) :
    ∃ m, m ≤ (skipW x).length ∧ pyStrip (x.take k) = (skipW x).take m := by
  obtain ⟨hx, hw⟩ := skipW_decomp x
  set w := x.takeWhile jsonIsSpace with hwdef
  set y := skipW x with hydef
  have hsplit : x.take k = w.take k ++ y.take (k - w.length) := by
    conv_lhs => rw [hx]
    rw [List.take_append_eq_append_take]
  rw [hsplit]
  rw [pyStrip_eq_rstrip, dropWhile_append_all pyIsSpace _ _
    (fun c hc => hw c (List.take_subset _ _ hc))]
  cases hy : y with
  | nil =>
    refine ⟨0, by simp, ?_⟩
    simp [hy]
    rfl
  | cons c t =>
    have hc : pyIsSpace c = false := hhead c t hy
    cases hk : k - w.length with
    | zero =>
      refine ⟨0, by simp, ?_⟩
      simp [hy]
      rfl
    | succ n =>
      rw [List.take_succ_cons, List.dropWhile_cons_of_neg (by simp [hc])]
      have hct : c :: t.take n = (c :: t).take (n + 1) := rfl
      rw [hct]
      obtain ⟨m, hm, he⟩ := rstrip_take (c :: t) (n + 1)
      exact ⟨m, hm, he⟩

theorem digit_not_space (c : Char) (h : isDigitCh c = true) : pyIsSpace c = false := by
  cases hpy : pyIsSpace c
  · rfl
  · simp only [pyIsSpace, Bool.or_eq_true, decide_eq_true_eq] at hpy
    rcases hpy with ((((h1 | h1) | h1) | h1) | h1) | h1 <;> subst h1 <;>
      exact absurd h (by decide)

theorem digit_not_key (c : Char) (h : isDigitCh c = true) : pySpaceKey c = false := by
  cases hpy : pySpaceKey c
  · rfl
  · simp only [pySpaceKey, Bool.or_eq_true, decide_eq_true_eq] at hpy
    rcases hpy with ((h1 | h1) | h1) | h1 <;> subst h1 <;> exact absurd h (by decide)

theorem digit_ne (c a : Char) (h : isDigitCh c = true) (ha : isDigitCh a = false) :
    c ≠ a := by
  intro he
  subst he
  rw [h] at ha
  exact Bool.noConfusion ha

theorem jsonValue_head (F : Nat) (cs : List Char) (v : JVal) (rest : List Char)
    (h : jsonValue F cs = some (v, rest)) :
    ∃ c t, cs = c :: t ∧ pyIsSpace c = false ∧ pySpaceKey c = false ∧
      c ≠ ',' ∧ c ≠ ']' ∧ c ≠ '\x7d' := by
  cases F with
  | zero => exact absurd h (by simp [jsonValue])
  | succ f =>
    cases cs with
    | nil => exact absurd h (by simp [jsonValue])
    | cons c t =>
      refine ⟨c, t, rfl, ?_⟩
      simp only [jsonValue] at h
      by_cases h1 : c = '\x7b'
      · subst h1; exact (by decide)
      rw [if_neg h1] at h
      by_cases h2 : c = '['
      · subst h2; exact (by decide)
      rw [if_neg h2] at h
      by_cases h3 : c = '\x22'
      · subst h3; exact (by decide)
      rw [if_neg h3] at h
      by_cases h4 : c = 't'
      · subst h4; exact (by decide)
      rw [if_neg h4] at h
      by_cases h5 : c = 'f'
      · subst h5; exact (by decide)
      rw [if_neg h5] at h
      by_cases h6 : c = 'n'
      · subst h6; exact (by decide)
      rw [if_neg h6] at h
      by_cases h7 : c = '-' ∨ isDigitCh c = true
      · rcases h7 with h7 | h7
        · subst h7; exact (by decide)
        · exact ⟨digit_not_space c h7, digit_not_key c h7, digit_ne c ',' h7 (by decide),
            digit_ne c ']' h7 (by decide), digit_ne c '\x7d' h7 (by decide)⟩
      · rw [if_neg h7] at h
        exact Option.noConfusion h

theorem jsonMembers_head (F : Nat) (acc : List (List Char × JVal)) (cs : List Char)
    (p : JVal × List Char) (h : jsonMembers F acc cs = some p) :
    ∃ t, cs = '\x22' :: t := by
  cases F with
  | zero => exact absurd h (by simp [jsonMembers])
  | succ f =>
    cases cs with
    | nil => exact absurd h (by simp [jsonMembers])
    | cons c t =>
      by_cases hc : c = '\x22'
      · exact ⟨t, by rw [hc]⟩
      · simp only [jsonMembers] at h
        split at h
        · rename_i rest heq
          injection heq with h1 h2
          exact absurd h1 hc
        · exact Option.noConfusion h

theorem jsonElems_head (F : Nat) (acc : List JVal) (cs : List Char) (p : JVal × List Char)
    (h : jsonElems F acc cs = some p) :
    ∃ c t, cs = c :: t ∧ pyIsSpace c = false ∧ pySpaceKey c = false ∧
      c ≠ ',' ∧ c ≠ ']' ∧ c ≠ '\x7d' := by
  cases F with
  | zero => exact absurd h (by simp [jsonElems])
  | succ f =>
    rw [jsonElems] at h
    cases hv : jsonValue f cs with
    | none =>
      rw [hv] at h
      exact Option.noConfusion h
    | some q => exact jsonValue_head f cs q.1 q.2 (by rw [hv])

theorem parse_any_obj (g : Nat) (t : List Char) :
    parse_any (g + 1) ('\x7b' :: t) = parse_object g ('\x7b' :: t) := rfl

theorem parse_any_arr (g : Nat) (t : List Char) :
    parse_any (g + 1) ('[' :: t) = parse_array g ('[' :: t) := rfl

theorem parse_any_quote (g : Nat) (t : List Char) :
    parse_any (g + 1) ('\x22' :: t) = parse_string ('\x22' :: t) := rfl

theorem parse_any_t (g : Nat) (t : List Char) :
    parse_any (g + 1) ('t' :: t) = parse_true ('t' :: t) := rfl

theorem parse_any_f (g : Nat) (t : List Char) :
    parse_any (g + 1) ('f' :: t) = parse_false ('f' :: t) := rfl

theorem parse_any_n (g : Nat) (t : List Char) :
    parse_any (g + 1) ('n' :: t) = parse_null ('n' :: t) := rfl

theorem parse_space_eq (g : Nat) (s : List Char) :
    parse_space (g + 1) s = parse_any g (pyStrip s) := rfl

theorem parse_any_num (g : Nat) (c : Char) (t : List Char)
    (h : c = '-' ∨ isDigitCh c = true) :
    parse_any (g + 1) (c :: t) = parse_number (c :: t) := by
  rcases h with h | h
  · subst h; rfl
  · have hsp := digit_not_key c h
    simp only [parse_any]
    rw [if_neg (by simp [hsp]), if_neg (digit_ne c '[' h (by decide)),
        if_neg (digit_ne c '\x7b' h (by decide)), if_neg (digit_ne c '\x22' h (by decide)),
        if_neg (digit_ne c 't' h (by decide)), if_neg (digit_ne c 'f' h (by decide)),
        if_neg (digit_ne c 'n' h (by decide)), if_pos (by simp [isNumCh, h])]

theorem parse_any_desync (g : Nat) (d : Char) (x : List Char) (h : desyncHead d = true) :
    parse_any g (d :: x) = .error .outOfFuel ∨
      parse_any g (d :: x) = .error (.decodeErr .undispatchable) := by
  have hd : d = 'e' ∨ d = 'E' := by
    simpa [desyncHead, Bool.or_eq_true, decide_eq_true_eq] using h
  cases g with
  | zero => exact .inl rfl
  | succ g => rcases hd with hd | hd <;> subst hd <;> exact .inr rfl

theorem consumeComma_nil : consumeComma [] = [] := rfl

theorem consumeComma_comma (x : List Char) : consumeComma (',' :: x) = pyStrip x := rfl

theorem consumeComma_ne (c : Char) (x : List Char) (h : c ≠ ',') :
    consumeComma (c :: x) = c :: x := by
  unfold consumeComma
  split
  · rename_i rest heq
    injection heq with h1 h2
    exact absurd h1 h
  · rfl

theorem arrLoop_nil (g : Nat) (acc : List JVal) (b : Bool) :
    arrLoop (g + 1) acc b [] = .ok (acc, [], !b) := rfl

theorem arrLoop_close (g : Nat) (acc : List JVal) (b : Bool) (r : List Char) :
    arrLoop (g + 1) acc b (']' :: r) = .ok (acc, r, !b) := rfl

theorem objLoop_nil (g : Nat) (acc : List (JVal × JVal)) (b : Bool) :
    objLoop (g + 1) acc b [] = .ok (acc, [], !b) := rfl

theorem objLoop_close (g : Nat) (acc : List (JVal × JVal)) (b : Bool) (r : List Char) :
    objLoop (g + 1) acc b ('\x7d' :: r) = .ok (acc, r, !b) := rfl

theorem arrLoop_step (f : Nat) (acc : List JVal) (b : Bool) (c0 : Char) (cs : List Char)
    (hne : c0 ≠ ']') :
    (∀ e, parse_any f (c0 :: cs) = .error e →
       arrLoop (f + 1) acc b (c0 :: cs) = .error e) ∧
    (∀ res s1 ic, parse_any f (c0 :: cs) = .ok (res, s1, ic) →
       arrLoop (f + 1) acc b (c0 :: cs) =
         arrLoop f (acc ++ [res]) (b || !ic) (consumeComma (pyStrip s1))) := by
  have hred : ∀ target : Except PErr (List JVal × List Char × Bool),
      (match parse_any f (c0 :: cs) with
        | Except.error e => Except.error e
        | Except.ok (res, s1, isComp) =>
          arrLoop f (acc ++ [res]) (b || !isComp) (consumeComma (pyStrip s1))) = target →
      arrLoop (f + 1) acc b (c0 :: cs) = target := by
    intro target hmatch
    simp only [arrLoop]
    split
    · rename_i heq
      exact List.noConfusion heq
    · rename_i rest heq
      injection heq with h1 h2
      exact absurd h1 hne
    · exact hmatch
  constructor
  · intro e he
    exact hred _ (by rw [he])
  · intro res s1 ic hok
    exact hred _ (by rw [hok])

theorem objLoop_step (f : Nat) (acc : List (JVal × JVal)) (b : Bool) (c0 : Char)
    (cs : List Char) (hne : c0 ≠ '\x7d') :
    (∀ e, parse_any f (c0 :: cs) = .error e →
       objLoop (f + 1) acc b (c0 :: cs) = .error e) ∧
    (∀ key s1 kc, parse_any f (c0 :: cs) = .ok (key, s1, kc) → hashable key = true →
      ((pyStrip s1 = [] →
          objLoop (f + 1) acc b (c0 :: cs) = .ok (insertEq acc key .null, [], false)) ∧
       (∀ u, pyStrip s1 = '\x7d' :: u →
          objLoop (f + 1) acc b (c0 :: cs) =
            .ok (insertEq acc key .null, pyStrip s1, false)) ∧
       (∀ s3, pyStrip s1 = ':' :: s3 →
          ((pyStrip s3 = [] →
              objLoop (f + 1) acc b (c0 :: cs) = .ok (insertEq acc key .null, [], false)) ∧
           (∀ w, pyStrip s3 = ',' :: w →
              objLoop (f + 1) acc b (c0 :: cs) = .ok (insertEq acc key .null, w, false)) ∧
           (∀ w, pyStrip s3 = '\x7d' :: w →
              objLoop (f + 1) acc b (c0 :: cs) =
                .ok (insertEq acc key .null, pyStrip s3, false)) ∧
           (∀ c4 u4, pyStrip s3 = c4 :: u4 → c4 ≠ ',' → c4 ≠ '\x7d' →
              (∀ e, parse_any f (pyStrip s3) = .error e →
                 objLoop (f + 1) acc b (c0 :: cs) = .error e) ∧
              (∀ value s5 vc, parse_any f (pyStrip s3) = .ok (value, s5, vc) →
                 objLoop (f + 1) acc b (c0 :: cs) =
                   objLoop f (insertEq acc key value) ((b || !kc) || !vc)
                     (consumeComma (pyStrip s5)))))))) := by
  have hred : ∀ target : Except PErr (List (JVal × JVal) × List Char × Bool),
      (match parse_any f (c0 :: cs) with
        | Except.error e => Except.error e
        | Except.ok (key, s1, kComp) =>
          (match pyStrip s1 with
            | [] =>
              match pyInsert acc key JVal.null with
              | Except.error e => Except.error e
              | Except.ok acc2 => Except.ok (acc2, pyStrip s1, false)
            | '\x7d' :: _ =>
              match pyInsert acc key JVal.null with
              | Except.error e => Except.error e
              | Except.ok acc2 => Except.ok (acc2, pyStrip s1, false)
            | ':' :: s3 =>
              (match pyStrip s3 with
                | [] =>
                  match pyInsert acc key JVal.null with
                  | Except.error e => Except.error e
                  | Except.ok acc2 => Except.ok (acc2, pyStrip s3, false)
                | ',' :: s5 =>
                  match pyInsert acc key JVal.null with
                  | Except.error e => Except.error e
                  | Except.ok acc2 => Except.ok (acc2, s5, false)
                | '\x7d' :: _ =>
                  match pyInsert acc key JVal.null with
                  | Except.error e => Except.error e
                  | Except.ok acc2 => Except.ok (acc2, pyStrip s3, false)
                | _ =>
                  match parse_any f (pyStrip s3) with
                  | Except.error e => Except.error e
                  | Except.ok (value, s5, vComp) =>
                    match pyInsert acc key value with
                    | Except.error e => Except.error e
                    | Except.ok acc2 =>
                      objLoop f acc2 ((b || !kComp) || !vComp)
                        (consumeComma (pyStrip s5)))
            | _ :: _ => Except.error (PErr.decodeErr RSite.keyColon))) = target →
      objLoop (f + 1) acc b (c0 :: cs) = target := by
    intro target hmatch
    simp only [objLoop]
    split
    · rename_i heq
      exact List.noConfusion heq
    · rename_i s2 rest2 heq
      injection heq with h1 h2
      exact absurd h1 hne
    · exact hmatch
  refine ⟨fun e he => hred _ (by rw [he]), fun key s1 kc hpa hkey => ?_⟩
  refine ⟨fun hnil => hred _ ?_, fun u hbr => hred _ ?_, fun s3 hcol => ?_⟩
  · rw [hpa]
    dsimp only
    rw [hnil]
    simp [pyInsert, hkey, hnil]
  · rw [hpa]
    dsimp only
    rw [hbr]
    simp [pyInsert, hkey, hbr]
  · refine ⟨fun hnil2 => hred _ ?_, fun w hcomma => hred _ ?_, fun w hbr2 => hred _ ?_,
      fun c4 u4 hc4 hnc hnb => ?_⟩
    · rw [hpa]
      dsimp only
      rw [hcol]
      simp [pyInsert, hkey, hnil2]
    · rw [hpa]
      dsimp only
      rw [hcol]
      simp [pyInsert, hkey, hcomma]
    · rw [hpa]
      dsimp only
      rw [hcol]
      simp [pyInsert, hkey, hbr2]
    · have hv2 : ∀ q, parse_any f (pyStrip s3) = q → parse_any f (c4 :: u4) = q := by
        intro q hq
        rw [← hc4]
        exact hq
      refine ⟨fun e he => hred _ ?_, fun value s5 vc hv => hred _ ?_⟩
      · rw [hpa]
        dsimp only
        rw [hcol]
        split
        · rename_i heq
          exact List.noConfusion heq
        · rename_i w heq
          injection heq with h1
          exact absurd h1 (by decide)
        · rename_i s3x heq
          injection heq with h1 h2
          subst h2
          rw [hc4]
          split
          · rename_i heq2
            exact List.noConfusion heq2
          · rename_i w heq2
            injection heq2 with h1x
            exact absurd h1x hnc
          · rename_i w heq2
            injection heq2 with h1x
            exact absurd h1x hnb
          · rw [hv2 _ he]
        · rename_i hx heq
          injection heq with h1 h2
          exact absurd h1.symm hx
      · rw [hpa]
        dsimp only
        rw [hcol]
        split
        · rename_i heq
          exact List.noConfusion heq
        · rename_i w heq
          injection heq with h1
          exact absurd h1 (by decide)
        · rename_i s3x heq
          injection heq with h1 h2
          subst h2
          rw [hc4]
          split
          · rename_i heq2
            exact List.noConfusion heq2
          · rename_i w heq2
            injection heq2 with h1x
            exact absurd h1x hnc
          · rename_i w heq2
            injection heq2 with h1x
            exact absurd h1x hnb
          · rw [hv2 _ hv]
            simp [pyInsert, hkey]
        · rename_i hx heq
          injection heq with h1 h2
          exact absurd h1.symm hx

theorem objLoop_desync (g : Nat) (acc : List (JVal × JVal)) (b : Bool) (d : Char)
    (x : List Char) (h : desyncHead d = true) :
    objLoop g acc b (d :: x) = .error .outOfFuel ∨
      objLoop g acc b (d :: x) = .error (.decodeErr .undispatchable) := by
  have hd : d = 'e' ∨ d = 'E' := by
    simpa [desyncHead, Bool.or_eq_true, decide_eq_true_eq] using h
  cases g with
  | zero => exact .inl rfl
  | succ g =>
    have hne : d ≠ '\x7d' := by rcases hd with h1 | h1 <;> subst h1 <;> decide
    obtain ⟨hid, -⟩ := objLoop_step g acc b d x hne
    rcases parse_any_desync g d x h with hp | hp
    · exact .inl (hid _ hp)
    · exact .inr (hid _ hp)

theorem arrLoop_desync (g : Nat) (acc : List JVal) (b : Bool) (d : Char)
    (x : List Char) (h : desyncHead d = true) :
    arrLoop g acc b (d :: x) = .error .outOfFuel ∨
      arrLoop g acc b (d :: x) = .error (.decodeErr .undispatchable) := by
  have hd : d = 'e' ∨ d = 'E' := by
    simpa [desyncHead, Bool.or_eq_true, decide_eq_true_eq] using h
  cases g with
  | zero => exact .inl rfl
  | succ g =>
    have hne : d ≠ ']' := by rcases hd with h1 | h1 <;> subst h1 <;> decide
    obtain ⟨hid, -⟩ := arrLoop_step g acc b d x hne
    rcases parse_any_desync g d x h with hp | hp
    · exact .inl (hid _ hp)
    · exact .inr (hid _ hp)

theorem parse_object_step (g : Nat) (s : List Char) :
    (∀ e, objLoop g [] false (pyStrip (s.drop 1)) = .error e →
       parse_object (g + 1) s = .error e) ∧
    (∀ a rem c, objLoop g [] false (pyStrip (s.drop 1)) = .ok (a, rem, c) →
       parse_object (g + 1) s = .ok (.obj a, rem, c)) := by
  constructor
  · intro e he
    simp only [parse_object]
    rw [he]
  · intro a rem c hok
    simp only [parse_object]
    rw [hok]

theorem parse_array_step (g : Nat) (s : List Char) :
    (∀ e, arrLoop g [] false (pyStrip (s.drop 1)) = .error e →
       parse_array (g + 1) s = .error e) ∧
    (∀ a rem c, arrLoop g [] false (pyStrip (s.drop 1)) = .ok (a, rem, c) →
       parse_array (g + 1) s = .ok (.arr a, rem, c)) := by
  constructor
  · intro e he
    simp only [parse_array]
    rw [he]
  · intro a rem c hok
    simp only [parse_array]
    rw [hok]

theorem contains_false_of_all (l : List Char) (a : Char) (h : ∀ c ∈ l, c ≠ a) :
    l.contains a = false := by
  cases hc : l.contains a
  · rfl
  · obtain ⟨b, hb, he⟩ := List.contains_iff_exists_mem_beq.mp hc
    have hab : a = b := by simpa using he
    exact absurd hab.symm (h b hb)

theorem contains_true_of_mem (l : List Char) (a : Char) (h : a ∈ l) :
    l.contains a = true :=
  List.contains_iff_exists_mem_beq.mpr ⟨a, h, by simp⟩

theorem desync_not_num (e : Char) (h : desyncHead e = true) : isNumCh e = false := by
  have hd : e = 'e' ∨ e = 'E' := by
    simpa [desyncHead, Bool.or_eq_true, decide_eq_true_eq] using h
  rcases hd with hd | hd <;> subst hd <;> decide

theorem digit_isNum (c : Char) (h : isDigitCh c = true) : isNumCh c = true := by
  simp [isNumCh, h]

theorem pyInt_digits (ds : List Char) (h1 : ds ≠ []) (h2 : ds.all isDigitCh = true) :
    ∃ q, pyInt ds = some q := by
  cases ds with
  | nil => exact absurd rfl h1
  | cons d t =>
    have hd : isDigitCh d = true := List.all_eq_true.mp h2 d (by simp)
    refine ⟨(digitsVal (d :: t) : ℚ), ?_⟩
    rw [pyInt]
    · rw [if_pos ⟨h1, h2⟩]
    · intro r hr
      injection hr with hh
      exact absurd hh (digit_ne d '-' hd (by decide))

theorem pyInt_neg_digits (ds : List Char) (h1 : ds ≠ []) (h2 : ds.all isDigitCh = true) :
    ∃ q, pyInt ('-' :: ds) = some q := by
  refine ⟨-(digitsVal ds : ℚ), ?_⟩
  rw [pyInt, if_pos ⟨h1, h2⟩]

theorem scanIntPart_split (cs0 ip r1 : List Char) (h : scanIntPart cs0 = some (ip, r1)) :
    ip ≠ [] ∧ ip.all isDigitCh = true ∧ cs0 = ip ++ r1 := by
  cases cs0 with
  | nil => exact absurd h (by simp [scanIntPart])
  | cons c t =>
    rw [scanIntPart] at h
    by_cases h0 : c = '0'
    · rw [if_pos h0] at h
      simp only [Option.some.injEq, Prod.mk.injEq] at h
      obtain ⟨h1, h2⟩ := h
      subst h0
      rw [← h1, ← h2]
      exact ⟨by simp, by decide, rfl⟩
    · rw [if_neg h0] at h
      by_cases hd : isDigitCh c = true
      · rw [if_pos hd] at h
        simp only [Option.some.injEq, Prod.mk.injEq] at h
        obtain ⟨h1, h2⟩ := h
        rw [← h1, ← h2]
        refine ⟨by simp, ?_, ?_⟩
        · simp only [List.all_cons, hd, Bool.true_and]
          rw [List.all_eq_true]
          intro x hx
          exact List.mem_takeWhile_imp hx
        · simp
      · rw [if_neg hd] at h
        exact Option.noConfusion h

theorem scanFrac_split (r1 frd r2 : List Char) (h : scanFrac r1 = (frd, r2)) :
    (frd = [] ∧ r2 = r1) ∨
      (frd ≠ [] ∧ frd.all isDigitCh = true ∧ r1 = '.' :: (frd ++ r2)) := by
  unfold scanFrac at h
  split at h
  · rename_i rest
    dsimp only at h
    by_cases hds : rest.takeWhile isDigitCh = []
    · rw [if_pos hds] at h
      injection h with h1 h2
      exact .inl ⟨h1.symm, h2.symm⟩
    · rw [if_neg hds] at h
      injection h with h1 h2
      refine .inr ⟨by rw [← h1]; exact hds, ?_, ?_⟩
      · rw [← h1]
        rw [List.all_eq_true]
        intro x hx
        exact List.mem_takeWhile_imp hx
      · rw [← h1, ← h2]
        simp
  · injection h with h1 h2
    exact .inl ⟨h1.symm, h2.symm⟩

theorem scanExp_split (w : List Char) (ov : Option ℤ) (r : List Char)
    (h : scanExp w = (ov, r)) :
    (ov = none ∧ r = w) ∨ ∃ e pre, w = (e :: pre) ++ r ∧ desyncHead e = true := by
  unfold scanExp at h
  split at h
  · rename_i e rest
    by_cases he : e = 'e' ∨ e = 'E'
    · rw [if_pos he] at h
      have hde : desyncHead e = true := by
        rcases he with he | he <;> subst he <;> rfl
      split at h
      · rename_i r2
        dsimp only at h
        by_cases hds : r2.takeWhile isDigitCh = []
        · rw [if_pos hds] at h
          injection h with h1 h2
          exact .inl ⟨h1.symm, h2.symm⟩
        · rw [if_neg hds] at h
          injection h with h1 h2
          refine .inr ⟨e, '+' :: r2.takeWhile isDigitCh, ?_, hde⟩
          rw [← h2]
          simp
      · rename_i r2
        dsimp only at h
        by_cases hds : r2.takeWhile isDigitCh = []
        · rw [if_pos hds] at h
          injection h with h1 h2
          exact .inl ⟨h1.symm, h2.symm⟩
        · rw [if_neg hds] at h
          injection h with h1 h2
          refine .inr ⟨e, '-' :: r2.takeWhile isDigitCh, ?_, hde⟩
          rw [← h2]
          simp
      · dsimp only at h
        by_cases hds : rest.takeWhile isDigitCh = []
        · rw [if_pos hds] at h
          injection h with h1 h2
          exact .inl ⟨h1.symm, h2.symm⟩
        · rw [if_neg hds] at h
          injection h with h1 h2
          refine .inr ⟨e, rest.takeWhile isDigitCh, ?_, hde⟩
          rw [← h2]
          simp
    · rw [if_neg he] at h
      injection h with h1 h2
      exact .inl ⟨h1.symm, h2.symm⟩
  · injection h with h1 h2
    exact .inl ⟨h1.symm, h2.symm⟩

theorem pyFloat_mk_pos (ip f2 : List Char) (hip : ip ≠ [])
    (hipd : ip.all isDigitCh = true) (hfd : f2.all isDigitCh = true) :
    ∃ q, pyFloat (ip ++ '.' :: f2) = some q := by
  obtain ⟨htw, hdw⟩ := takeWhile_append_stop isDigitCh ip ('.' :: f2)
    (fun c hc => List.all_eq_true.mp hipd c hc)
    (fun c t hct => by
      injection hct with hc1 hc2
      subst hc1
      decide)
  cases ip with
  | nil => exact absurd rfl hip
  | cons d t =>
    have hd : isDigitCh d = true := List.all_eq_true.mp hipd d (by simp)
    have hnegf : (decide (((d :: t) ++ '.' :: f2).head? = some '-')) = false := by
      simp only [List.cons_append, List.head?_cons]
      exact decide_eq_false (by
        intro hcon
        injection hcon with hcc
        exact absurd hcc (digit_ne d '-' hd (by decide)))
    refine Option.isSome_iff_exists.mp ?_
    unfold pyFloat
    dsimp only
    rw [hnegf]
    simp only [Bool.false_eq_true, if_false]
    rw [hdw]
    split
    · rename_i fr heq
      injection heq with hq1 hq2
      subst hq2
      rw [htw]
      rw [if_pos ⟨hfd, Or.inl (by simp)⟩]
      rfl
    · rename_i heq
      exact List.noConfusion heq
    · rename_i hx heq
      exact absurd rfl (hx f2)

theorem pyFloat_mk_neg (ip f2 : List Char) (hip : ip ≠ [])
    (hipd : ip.all isDigitCh = true) (hfd : f2.all isDigitCh = true) :
    ∃ q, pyFloat ('-' :: (ip ++ '.' :: f2)) = some q := by
  obtain ⟨htw, hdw⟩ := takeWhile_append_stop isDigitCh ip ('.' :: f2)
    (fun c hc => List.all_eq_true.mp hipd c hc)
    (fun c t hct => by
      injection hct with hc1 hc2
      subst hc1
      decide)
  refine Option.isSome_iff_exists.mp ?_
  unfold pyFloat
  dsimp only
  have hnegt : (decide (('-' :: (ip ++ '.' :: f2)).head? = some '-')) = true := by simp
  rw [hnegt]
  simp only [eq_self_iff_true, if_true, List.tail_cons]
  rw [hdw]
  split
  · rename_i fr heq
    injection heq with hq1 hq2
    subst hq2
    rw [htw]
    rw [if_pos ⟨hfd, Or.inl hip⟩]
    rfl
  · rename_i heq
    exact List.noConfusion heq
  · rename_i hx heq
    exact absurd rfl (hx f2)

theorem mant_take_conv_int (sgn : Bool) (ip : List Char) (j : Nat) (hip : ip ≠ [])
    (hipd : ip.all isDigitCh = true) (run : List Char)
    (hrun : run = ((if sgn then ['-'] else []) ++ ip).take j)
    (hne : run ≠ []) (hlast2 : run.getLast? ≠ some '-') :
    run.contains '.' = false ∧ run.contains 'e' = false ∧ run.contains 'E' = false ∧
      ∃ q, pyInt run = some q := by
  have hmem : ∀ c ∈ run, isDigitCh c = true ∨ c = '-' := by
    intro c hc
    rw [hrun] at hc
    have hc2 := List.take_subset _ _ hc
    rcases List.mem_append.mp hc2 with hcs | hci
    · cases sgn with
      | true =>
        right
        simpa using hcs
      | false =>
        exact absurd hcs (by simp)
    · exact .inl (List.all_eq_true.mp hipd c hci)
  have hcontains : ∀ a : Char, isDigitCh a = false → a ≠ '-' → run.contains a = false := by
    intro a ha ham
    refine contains_false_of_all run a fun c hc hca => ?_
    subst hca
    rcases hmem c hc with hd | hd
    · rw [hd] at ha
      exact Bool.noConfusion ha
    · exact ham hd
  refine ⟨hcontains '.' (by decide) (by decide), hcontains 'e' (by decide) (by decide),
    hcontains 'E' (by decide) (by decide), ?_⟩
  cases sgn with
  | false =>
    have hrun2 : run = ip.take j := by
      rw [hrun]
      simp
    have hall : run.all isDigitCh = true := List.all_eq_true.mpr fun c hc => by
      rw [hrun2] at hc
      exact List.all_eq_true.mp hipd c (List.take_subset _ _ hc)
    exact pyInt_digits run hne hall
  | true =>
    have hrun2 : run = ('-' :: ip).take j := by
      rw [hrun]
      simp
    cases j with
    | zero =>
      rw [hrun2] at hne
      simp at hne
    | succ n =>
      rw [List.take_succ_cons] at hrun2
      by_cases hip0 : ip.take n = []
      · rw [hip0] at hrun2
        rw [hrun2] at hlast2
        simp at hlast2
      · have hall : (ip.take n).all isDigitCh = true := List.all_eq_true.mpr
          fun c hc => List.all_eq_true.mp hipd c (List.take_subset _ _ hc)
        obtain ⟨q, hq⟩ := pyInt_neg_digits (ip.take n) hip0 hall
        refine ⟨q, ?_⟩
        rw [hrun2]
        exact hq

theorem mant_take_conv (sgn : Bool) (ip frd : List Char) (j : Nat)
    (hip : ip ≠ []) (hipd : ip.all isDigitCh = true) (hfrd : frd.all isDigitCh = true)
    (run : List Char)
    (hrun : run = ((if sgn then ['-'] else []) ++ ip ++
      (if frd = [] then [] else '.' :: frd)).take j)
    (hne : run ≠ []) (hlast1 : run.getLast? ≠ some '.') (hlast2 : run.getLast? ≠ some '-') :
    (run.contains '.' = false ∧ run.contains 'e' = false ∧ run.contains 'E' = false ∧
      ∃ q, pyInt run = some q) ∨
    (run.contains '.' = true ∧ ∃ q, pyFloat run = some q) := by
  by_cases hfe : frd = []
  · left
    refine mant_take_conv_int sgn ip j hip hipd run ?_ hne hlast2
    rw [hrun, if_pos hfe]
    simp
  · by_cases hj : j ≤ ((if sgn then ['-'] else []) ++ ip).length
    · left
      refine mant_take_conv_int sgn ip j hip hipd run ?_ hne hlast2
      rw [hrun, if_neg hfe]
      exact List.take_append_of_le_length hj
    · right
      push_neg at hj
      have hsplit : run = ((if sgn then ['-'] else []) ++ ip) ++
          ('.' :: frd).take (j - ((if sgn then ['-'] else []) ++ ip).length) := by
        rw [hrun, if_neg hfe, List.take_append_eq_append_take,
          List.take_of_length_le (by omega)]
      cases hjb : j - ((if sgn then ['-'] else []) ++ ip).length with
      | zero => omega
      | succ n =>
        rw [hjb, List.take_succ_cons] at hsplit
        by_cases hf0 : frd.take n = []
        · rw [hf0] at hsplit
          rw [hsplit] at hlast1
          rw [List.getLast?_concat] at hlast1
          exact absurd rfl hlast1
        · constructor
          · rw [hsplit]
            exact contains_true_of_mem _ _ (by simp)
          · have hfall : (frd.take n).all isDigitCh = true := List.all_eq_true.mpr
              fun c hc => List.all_eq_true.mp hfrd c (List.take_subset _ _ hc)
            cases sgn with
            | false =>
              obtain ⟨q, hq⟩ := pyFloat_mk_pos ip (frd.take n) hip hipd hfall
              refine ⟨q, ?_⟩
              rw [hsplit]
              simpa using hq
            | true =>
              obtain ⟨q, hq⟩ := pyFloat_mk_neg ip (frd.take n) hip hipd hfall
              refine ⟨q, ?_⟩
              rw [hsplit]
              simpa using hq

theorem number_cut_core (sgn : Bool) (ip frd tl : List Char) (k : Nat)
    (hip : ip ≠ []) (hipd : ip.all isDigitCh = true) (hfrd : frd.all isDigitCh = true)
    (htl : ∀ c t, tl = c :: t → isNumCh c = false) :
    ∀ RES, parse_number ((((if sgn then ['-'] else []) ++ ip ++
        (if frd = [] then [] else '.' :: frd)) ++ tl).take k) = RES →
      (∃ v2 c2, RES = .ok (v2, [], c2)) ∨
      (∃ v2 c2 m, m ≤ tl.length ∧ RES = .ok (v2, tl.take m, c2)) := by
  intro RES hRES
  set M := (if sgn then ['-'] else []) ++ ip ++ (if frd = [] then [] else '.' :: frd)
    with hM
  have hMall : ∀ c ∈ M, isNumCh c = true := by
    intro c hc
    rw [hM] at hc
    rcases List.mem_append.mp hc with hc1 | hc2
    · rcases List.mem_append.mp hc1 with hcs | hci
      · cases sgn with
        | true =>
          simp at hcs
          subst hcs
          decide
        | false => simp at hcs
      · exact digit_isNum c (List.all_eq_true.mp hipd c hci)
    · by_cases hfe : frd = []
      · rw [if_pos hfe] at hc2
        simp at hc2
      · rw [if_neg hfe] at hc2
        rcases List.mem_cons.mp hc2 with hcd | hcf
        · subst hcd
          decide
        · exact digit_isNum c (List.all_eq_true.mp hfrd c hcf)
  by_cases hk : k ≤ M.length
  · have htk : (M ++ tl).take k = M.take k := List.take_append_of_le_length hk
    have hall : ∀ c ∈ M.take k, isNumCh c = true :=
      fun c hc => hMall c (List.take_subset _ _ hc)
    obtain ⟨hrw1, hrw2⟩ := takeWhile_all isNumCh (M.take k) hall
    rw [htk] at hRES
    unfold parse_number at hRES
    dsimp only at hRES
    rw [hrw1, hrw2] at hRES
    split at hRES
    · exact .inl ⟨_, _, hRES.symm⟩
    · rename_i hn1
      push_neg at hn1
      obtain ⟨hne, hl1, hl2⟩ := hn1
      have hconv := mant_take_conv sgn ip frd k hip hipd hfrd (M.take k) (by rw [hM])
        hne hl1 hl2
      split at hRES
      · rename_i hcond
        rcases hconv with ⟨hc1, hc2, hc3, -⟩ | ⟨-, q, hq⟩
        · rw [hc1, hc2, hc3] at hcond
          simp at hcond
        · simp only [hq] at hRES
          exact .inl ⟨_, _, hRES.symm⟩
      · rename_i hcond
        rcases hconv with ⟨-, -, -, q, hq⟩ | ⟨hdot, -⟩
        · simp only [hq] at hRES
          exact .inl ⟨_, _, hRES.symm⟩
        · rw [hdot] at hcond
          simp at hcond
  · push_neg at hk
    have htk : (M ++ tl).take k = M ++ tl.take (k - M.length) := by
      rw [List.take_append_eq_append_take, List.take_of_length_le (by omega)]
    have hBhead : ∀ c t2, tl.take (k - M.length) = c :: t2 → isNumCh c = false := by
      intro c t2 hct
      cases htls : tl with
      | nil =>
        rw [htls] at hct
        simp at hct
      | cons c0 t0 =>
        rw [htls] at hct
        cases hkk : k - M.length with
        | zero =>
          rw [hkk] at hct
          simp at hct
        | succ n =>
          rw [hkk, List.take_succ_cons] at hct
          injection hct with h1 h2
          rw [← h1]
          exact htl c0 t0 htls
    obtain ⟨hrw1, hrw2⟩ := takeWhile_append_stop isNumCh M (tl.take (k - M.length))
      hMall hBhead
    rw [htk] at hRES
    unfold parse_number at hRES
    dsimp only at hRES
    rw [hrw1, hrw2] at hRES
    split at hRES
    · exact .inl ⟨_, _, hRES.symm⟩
    · rename_i hn1
      push_neg at hn1
      obtain ⟨hne, hl1, hl2⟩ := hn1
      have hconv := mant_take_conv sgn ip frd M.length hip hipd hfrd M
        (by rw [hM]; exact (List.take_length _).symm) hne hl1 hl2
      obtain ⟨m, hm, hcl⟩ := take_clip tl (k - M.length)
      split at hRES
      · rename_i hcond
        rcases hconv with ⟨hc1, hc2, hc3, -⟩ | ⟨-, q, hq⟩
        · rw [hc1, hc2, hc3] at hcond
          simp at hcond
        · simp only [hq] at hRES
          refine .inr ⟨.num true q, true, m, hm, ?_⟩
          rw [← hRES, hcl]
      · rename_i hcond
        rcases hconv with ⟨-, -, -, q, hq⟩ | ⟨hdot, -⟩
        · simp only [hq] at hRES
          refine .inr ⟨.num false q, true, m, hm, ?_⟩
          rw [← hRES, hcl]
        · rw [hdot] at hcond
          simp at hcond

theorem number_cut (cs : List Char) (v : JVal) (rest : List Char)
    (h : scanJNum cs = some (v, rest)) (k : Nat)
    (hrest : ∀ c t, rest = c :: t → isNumCh c = false) :
    (∀ r, parse_number (cs.take k) = .error r → benignPErr r) ∧
    (∀ v2 rem c2, parse_number (cs.take k) = .ok (v2, rem, c2) →
      (∃ d x, rem = d :: x ∧ desyncHead d = true) ∨
        ∃ m, m ≤ rest.length ∧ rem = rest.take m) := by
  cases cs with
  | nil => exact absurd h (by simp [scanJNum, scanIntPart])
  | cons c0 t0 =>
    unfold scanJNum at h
    dsimp only at h
    -- Split on the sign and extract the scan structure in each case.
    have hmain : ∀ (sgn : Bool) (body : List Char),
        (c0 :: t0 : List Char) = (if sgn then ['-'] else []) ++ body →
        (match scanIntPart body with
          | none => none
          | some (ip, r1) =>
            (match (scanFrac r1).1, (scanExp (scanFrac r1).2).1 with
              | [], none =>
                some (JVal.num false (if (sgn : Bool) = true then
                  -(digitsVal ip : ℚ) else (digitsVal ip : ℚ)), (scanExp (scanFrac r1).2).2)
              | frd, expv =>
                some (JVal.num true ((if (sgn : Bool) = true then (-1 : ℚ) else 1) *
                    ((digitsVal (ip ++ frd) : ℚ) / (10 : ℚ) ^ frd.length) *
                    (10 : ℚ) ^ (expv.getD 0)),
                  (scanExp (scanFrac r1).2).2)) : Option (JVal × List Char)) =
          some (v, rest) →
        (∀ r, parse_number ((c0 :: t0).take k) = .error r → benignPErr r) ∧
        (∀ v2 rem c2, parse_number ((c0 :: t0).take k) = .ok (v2, rem, c2) →
          (∃ d x, rem = d :: x ∧ desyncHead d = true) ∨
            ∃ m, m ≤ rest.length ∧ rem = rest.take m) := by
      intro sgn body hcs hm
      cases hip : scanIntPart body with
      | none =>
        rw [hip] at hm
        exact absurd hm (by simp)
      | some p =>
        obtain ⟨ip, r1⟩ := p
        rw [hip] at hm
        dsimp only at hm
        rcases hfr : scanFrac r1 with ⟨frd, r2⟩
        rw [hfr] at hm
        dsimp only at hm
        rcases hex : scanExp r2 with ⟨ov, r3⟩
        rw [hex] at hm
        dsimp only at hm
        have hr3 : rest = r3 := by
          split at hm
          · simp only [Option.some.injEq, Prod.mk.injEq] at hm
            exact hm.2.symm
          · simp only [Option.some.injEq, Prod.mk.injEq] at hm
            exact hm.2.symm
        subst hr3
        obtain ⟨hipne, hipall, hbody⟩ := scanIntPart_split body ip r1 hip
        have hr1D : r1 = (if frd = [] then [] else '.' :: frd) ++ r2 := by
          rcases scanFrac_split r1 frd r2 hfr with ⟨hfe, hr2⟩ | ⟨hfe, hfall, hr1⟩
          · rw [if_pos hfe, hr2]
            simp
          · rw [if_neg hfe, hr1]
            simp
        have hfall : frd.all isDigitCh = true := by
          rcases scanFrac_split r1 frd r2 hfr with ⟨hfe, -⟩ | ⟨-, hfall, -⟩
          · rw [hfe]
            rfl
          · exact hfall
        rcases scanExp_split r2 ov rest hex with ⟨-, hr2⟩ | ⟨e, pre, hr2, hde⟩
        · -- no exponent: tail is rest itself
          have hcs2 : (c0 :: t0 : List Char) = (((if sgn then ['-'] else []) ++ ip ++
              (if frd = [] then [] else '.' :: frd)) ++ rest) := by
            rw [hcs, hbody, hr1D, hr2]
            simp [List.append_assoc]
          have hcore := number_cut_core sgn ip frd rest k hipne hipall hfall
            (fun c t hct => hrest c t hct)
          constructor
          · intro r hr
            rw [hcs2] at hr
            rcases hcore _ hr with ⟨v2, c2, hbad⟩ | ⟨v2, c2, m, hm2, hbad⟩ <;>
              exact Except.noConfusion hbad
          · intro v2 rem c2 hok
            rw [hcs2] at hok
            rcases hcore _ hok with ⟨v3, c3, hgood⟩ | ⟨v3, c3, m, hm2, hgood⟩
            · simp only [Except.ok.injEq, Prod.mk.injEq] at hgood
              refine .inr ⟨0, Nat.zero_le _, ?_⟩
              rw [hgood.2.1, List.take_zero]
            · simp only [Except.ok.injEq, Prod.mk.injEq] at hgood
              exact .inr ⟨m, hm2, hgood.2.1⟩
        · -- exponent present: the tail starts with the desync letter
          have hcs2 : (c0 :: t0 : List Char) = (((if sgn then ['-'] else []) ++ ip ++
              (if frd = [] then [] else '.' :: frd)) ++ (e :: (pre ++ rest))) := by
            rw [hcs, hbody, hr1D, hr2]
            simp [List.append_assoc]
          have htl : ∀ c t, (e :: (pre ++ rest) : List Char) = c :: t →
              isNumCh c = false := by
            intro c t hct
            injection hct with h1 h2
            rw [← h1]
            exact desync_not_num e hde
          have hcore := number_cut_core sgn ip frd (e :: (pre ++ rest)) k hipne hipall
            hfall htl
          constructor
          · intro r hr
            rw [hcs2] at hr
            rcases hcore _ hr with ⟨v2, c2, hbad⟩ | ⟨v2, c2, m, hm2, hbad⟩ <;>
              exact Except.noConfusion hbad
          · intro v2 rem c2 hok
            rw [hcs2] at hok
            rcases hcore _ hok with ⟨v3, c3, hgood⟩ | ⟨v3, c3, m, hm2, hgood⟩
            · simp only [Except.ok.injEq, Prod.mk.injEq] at hgood
              refine .inr ⟨0, Nat.zero_le _, ?_⟩
              rw [hgood.2.1, List.take_zero]
            · simp only [Except.ok.injEq, Prod.mk.injEq] at hgood
              cases m with
              | zero =>
                refine .inr ⟨0, Nat.zero_le _, ?_⟩
                rw [hgood.2.1]
                simp
              | succ n =>
                rw [List.take_succ_cons] at hgood
                exact .inl ⟨e, _, hgood.2.1, hde⟩
    by_cases hneg : c0 = '-'
    · subst hneg
      rw [show (decide ((('-' :: t0 : List Char)).head? = some '-')) = true from by simp]
        at h
      simp only [if_true, eq_self_iff_true, List.tail_cons] at h
      exact hmain true t0 (by simp) h
    · rw [show (decide (((c0 :: t0 : List Char)).head? = some '-')) = false from
        decide_eq_false (by
          intro hcon
          injection hcon with hcc
          exact hneg hcc)] at h
      simp only [Bool.false_eq_true, if_false] at h
      exact hmain false (c0 :: t0) (by simp) h

theorem quotesEscapedB_cons_ne (prev x : Char) (t : List Char) (hx : x ≠ '\x22')
    (ht : quotesEscapedB x t = true) : quotesEscapedB prev (x :: t) = true := by
  rw [quotesEscapedB]
  simp [hx, ht]

theorem quotesEscapedB_cons_esc (prev : Char) (t : List Char)
    (ht : quotesEscapedB '\x22' t = true) (hp : prev = '\\') :
    quotesEscapedB prev ('\x22' :: t) = true := by
  rw [quotesEscapedB]
  simp [hp, ht]

theorem quotesEscapedB_take (prev : Char) (b : List Char)
    (h : quotesEscapedB prev b = true) :
    ∀ j, quotesEscapedB prev (b.take j) = true := by
  induction b generalizing prev with
  | nil =>
    intro j
    rw [List.take_nil]
    rfl
  | cons c t ih =>
    intro j
    cases j with
    | zero => rfl
    | succ n =>
      rw [List.take_succ_cons]
      rw [quotesEscapedB] at h ⊢
      simp only [Bool.and_eq_true] at h ⊢
      exact ⟨h.1, ih c h.2 n⟩

theorem scanQuote_escaped_none (prev : Char) (b : List Char)
    (h : quotesEscapedB prev b = true) : scanQuote prev b = none := by
  induction b generalizing prev with
  | nil => rfl
  | cons c t ih =>
    rw [quotesEscapedB] at h
    simp only [Bool.and_eq_true] at h
    rw [scanQuote]
    have hcond : ¬(c = '\x22' ∧ prev ≠ '\\') := by
      rintro ⟨hc, hp⟩
      subst hc
      have h1 := h.1
      simp at h1
      exact hp h1
    rw [if_neg hcond, ih c h.2]
    rfl

theorem lastD_cons (prev x : Char) (t : List Char) : lastD prev (x :: t) = lastD x t := by
  unfold lastD
  cases t with
  | nil => rfl
  | cons y u =>
    rw [List.getLast?_cons_cons]
    cases hgl : (y :: u).getLast? with
    | none => exact absurd hgl (by simp)
    | some a => rfl

theorem scanQuote_escaped_term (prev : Char) (b z : List Char)
    (h : quotesEscapedB prev b = true) (hl : lastD prev b ≠ '\\') :
    scanQuote prev (b ++ '\x22' :: z) = some (b, z) := by
  induction b generalizing prev with
  | nil =>
    rw [List.nil_append, scanQuote, if_pos ⟨rfl, hl⟩]
  | cons c t ih =>
    rw [List.cons_append, scanQuote]
    rw [quotesEscapedB] at h
    simp only [Bool.and_eq_true] at h
    have hcond : ¬(c = '\x22' ∧ prev ≠ '\\') := by
      rintro ⟨hc, hp⟩
      subst hc
      have h1 := h.1
      simp at h1
      exact hp h1
    rw [if_neg hcond, ih c h.2 (by rw [← lastD_cons prev c t]; exact hl)]
    rfl

theorem scanQuote_escaped_skip (prev : Char) (b z : List Char)
    (h : quotesEscapedB prev b = true) (hl : lastD prev b = '\\') :
    scanQuote prev (b ++ '\x22' :: z) =
      (scanQuote '\x22' z).map fun p => (b ++ '\x22' :: p.1, p.2) := by
  induction b generalizing prev with
  | nil =>
    have hp : prev = '\\' := hl
    rw [List.nil_append, scanQuote, if_neg (by rintro ⟨hc, hp2⟩; exact hp2 hp)]
    cases scanQuote '\x22' z with
    | none => rfl
    | some p => rfl
  | cons c t ih =>
    rw [List.cons_append, scanQuote]
    rw [quotesEscapedB] at h
    simp only [Bool.and_eq_true] at h
    have hcond : ¬(c = '\x22' ∧ prev ≠ '\\') := by
      rintro ⟨hc, hp⟩
      subst hc
      have h1 := h.1
      simp at h1
      exact hp h1
    rw [if_neg hcond, ih c h.2 (by rw [← lastD_cons prev c t]; exact hl)]
    cases scanQuote '\x22' z with
    | none => rfl
    | some p => rfl

theorem scanQuote_decomp (prev : Char) (y b2 r2 : List Char)
    (h : scanQuote prev y = some (b2, r2)) : y = b2 ++ '\x22' :: r2 := by
  induction y generalizing prev b2 r2 with
  | nil => exact Option.noConfusion h
  | cons c t ih =>
    rw [scanQuote] at h
    by_cases hc : c = '\x22' ∧ prev ≠ '\\'
    · rw [if_pos hc] at h
      simp only [Option.some.injEq, Prod.mk.injEq] at h
      obtain ⟨h1, h2⟩ := h
      rw [← h1, ← h2, hc.1]
      rfl
    · rw [if_neg hc] at h
      cases hsq : scanQuote c t with
      | none =>
        rw [hsq] at h
        exact Option.noConfusion h
      | some p =>
        obtain ⟨pb, pr⟩ := p
        rw [hsq] at h
        simp only [Option.map_some', Option.some.injEq, Prod.mk.injEq] at h
        obtain ⟨h1, h2⟩ := h
        rw [← h1, ← h2]
        rw [List.cons_append]
        rw [← ih c pb pr hsq]

theorem hexVal_ne_quote (x : Char) (v : Nat) (h : hexVal x = some v) : x ≠ '\x22' := by
  intro he
  subst he
  rw [show hexVal '\x22' = none from rfl] at h
  exact Option.noConfusion h

theorem hex4_chars (a b0 c0 d0 : Char) (m : Nat) (h : hex4 a b0 c0 d0 = some m) :
    a ≠ '\x22' ∧ b0 ≠ '\x22' ∧ c0 ≠ '\x22' ∧ d0 ≠ '\x22' := by
  unfold hex4 at h
  cases ha : hexVal a with
  | none =>
    rw [ha] at h
    simp at h
  | some va =>
    rw [ha] at h
    cases hb : hexVal b0 with
    | none =>
      rw [hb] at h
      simp at h
    | some vb =>
      rw [hb] at h
      cases hc : hexVal c0 with
      | none =>
        rw [hc] at h
        simp at h
      | some vc =>
        rw [hc] at h
        cases hd : hexVal d0 with
        | none =>
          rw [hd] at h
          simp at h
        | some vd =>
          exact ⟨hexVal_ne_quote a va ha, hexVal_ne_quote b0 vb hb,
            hexVal_ne_quote c0 vc hc, hexVal_ne_quote d0 vd hd⟩

theorem quotesEscapedB_hex (a b0 c0 d0 : Char) (m : Nat) (hx : hex4 a b0 c0 d0 = some m)
    (b' : List Char) (hb : ∀ prev, quotesEscapedB prev b' = true) :
    ∀ prev, quotesEscapedB prev ('\\' :: 'u' :: a :: b0 :: c0 :: d0 :: b') = true := by
  obtain ⟨ha, hb0, hc0, hd0⟩ := hex4_chars a b0 c0 d0 m hx
  intro prev
  refine quotesEscapedB_cons_ne _ _ _ (by decide) ?_
  refine quotesEscapedB_cons_ne _ _ _ (by decide) ?_
  refine quotesEscapedB_cons_ne _ _ _ ha ?_
  refine quotesEscapedB_cons_ne _ _ _ hb0 ?_
  refine quotesEscapedB_cons_ne _ _ _ hc0 ?_
  exact quotesEscapedB_cons_ne _ _ _ hd0 (hb d0)

theorem quotesEscapedB_esc (e : Char) (b' : List Char)
    (hb : ∀ prev, quotesEscapedB prev b' = true) :
    ∀ prev, quotesEscapedB prev ('\\' :: e :: b') = true := by
  intro prev
  refine quotesEscapedB_cons_ne _ _ _ (by decide) ?_
  by_cases he : e = '\x22'
  · subst he
    exact quotesEscapedB_cons_esc _ _ (hb _) rfl
  · exact quotesEscapedB_cons_ne _ _ _ he (hb e)

theorem decodeBody_span (pend : Option Nat) (y : List Char) (c : List Char) (r : List Char)
    (h : decodeBody pend y = some (c, r)) :
    ∃ b, y = b ++ '\x22' :: r ∧ (∀ r2, decodeBody pend (b ++ '\x22' :: r2) = some (c, r2)) ∧
      (∀ prev, quotesEscapedB prev b = true) := by
  induction pend, y using decodeBody.induct generalizing c r with
  | case1 pend0 => exact absurd h (by simp [decodeBody])
  | case2 rest n =>
    simp only [decodeBody, Option.some.injEq, Prod.mk.injEq] at h
    obtain ⟨hc, hr⟩ := h
    subst hc
    subst hr
    exact ⟨[], by simp, fun r2 => by simp [decodeBody], fun prev => rfl⟩
  | case3 rest =>
    simp only [decodeBody, Option.some.injEq, Prod.mk.injEq] at h
    obtain ⟨hc, hr⟩ := h
    subst hc
    subst hr
    exact ⟨[], by simp, fun r2 => by simp [decodeBody], fun prev => rfl⟩
  | case4 pend0 a b0 c0 d0 rest hx =>
    simp only [decodeBody, hx] at h
    exact Option.noConfusion h
  | case5 a b0 c0 d0 rest m hx n hlow ih =>
    rw [show decodeBody (some n) ('\\' :: 'u' :: a :: b0 :: c0 :: d0 :: rest) =
        (decodeBody none rest).map (fun p => (surPair n m :: p.1, p.2)) from by
      simp only [decodeBody, hx]
      rw [if_pos hlow]] at h
    cases hd : decodeBody none rest with
    | none =>
      rw [hd] at h
      exact Option.noConfusion h
    | some p =>
      obtain ⟨pc, pr⟩ := p
      rw [hd] at h
      simp only [Option.map_some', Option.some.injEq, Prod.mk.injEq] at h
      obtain ⟨hc, hr⟩ := h
      subst hc
      subst hr
      obtain ⟨b', hb1, hb2, hb3⟩ := ih pc pr hd
      refine ⟨'\\' :: 'u' :: a :: b0 :: c0 :: d0 :: b', by rw [hb1]; rfl, ?_,
        quotesEscapedB_hex a b0 c0 d0 m hx b' hb3⟩
      intro r2
      simp only [List.cons_append]
      rw [show decodeBody (some n)
            ('\\' :: 'u' :: a :: b0 :: c0 :: d0 :: (b' ++ '\x22' :: r2)) =
          (decodeBody none (b' ++ '\x22' :: r2)).map
            (fun p => (surPair n m :: p.1, p.2)) from by
        simp only [decodeBody, hx]
        rw [if_pos hlow]]
      rw [hb2 r2]
      rfl
  | case6 a b0 c0 d0 rest m hx n hlow hhigh ih =>
    rw [show decodeBody (some n) ('\\' :: 'u' :: a :: b0 :: c0 :: d0 :: rest) =
        (decodeBody (some m) rest).map (fun p => (Char.ofNat n :: p.1, p.2)) from by
      simp only [decodeBody, hx]
      rw [if_neg hlow, if_pos hhigh]] at h
    cases hd : decodeBody (some m) rest with
    | none =>
      rw [hd] at h
      exact Option.noConfusion h
    | some p =>
      obtain ⟨pc, pr⟩ := p
      rw [hd] at h
      simp only [Option.map_some', Option.some.injEq, Prod.mk.injEq] at h
      obtain ⟨hc, hr⟩ := h
      subst hc
      subst hr
      obtain ⟨b', hb1, hb2, hb3⟩ := ih pc pr hd
      refine ⟨'\\' :: 'u' :: a :: b0 :: c0 :: d0 :: b', by rw [hb1]; rfl, ?_,
        quotesEscapedB_hex a b0 c0 d0 m hx b' hb3⟩
      intro r2
      simp only [List.cons_append]
      rw [show decodeBody (some n)
            ('\\' :: 'u' :: a :: b0 :: c0 :: d0 :: (b' ++ '\x22' :: r2)) =
          (decodeBody (some m) (b' ++ '\x22' :: r2)).map
            (fun p => (Char.ofNat n :: p.1, p.2)) from by
        simp only [decodeBody, hx]
        rw [if_neg hlow, if_pos hhigh]]
      rw [hb2 r2]
      rfl
  | case7 a b0 c0 d0 rest m hx n hlow hhigh ih =>
    rw [show decodeBody (some n) ('\\' :: 'u' :: a :: b0 :: c0 :: d0 :: rest) =
        (decodeBody none rest).map
          (fun p => (Char.ofNat n :: Char.ofNat m :: p.1, p.2)) from by
      simp only [decodeBody, hx]
      rw [if_neg hlow, if_neg hhigh]] at h
    cases hd : decodeBody none rest with
    | none =>
      rw [hd] at h
      exact Option.noConfusion h
    | some p =>
      obtain ⟨pc, pr⟩ := p
      rw [hd] at h
      simp only [Option.map_some', Option.some.injEq, Prod.mk.injEq] at h
      obtain ⟨hc, hr⟩ := h
      subst hc
      subst hr
      obtain ⟨b', hb1, hb2, hb3⟩ := ih pc pr hd
      refine ⟨'\\' :: 'u' :: a :: b0 :: c0 :: d0 :: b', by rw [hb1]; rfl, ?_,
        quotesEscapedB_hex a b0 c0 d0 m hx b' hb3⟩
      intro r2
      simp only [List.cons_append]
      rw [show decodeBody (some n)
            ('\\' :: 'u' :: a :: b0 :: c0 :: d0 :: (b' ++ '\x22' :: r2)) =
          (decodeBody none (b' ++ '\x22' :: r2)).map
            (fun p => (Char.ofNat n :: Char.ofNat m :: p.1, p.2)) from by
        simp only [decodeBody, hx]
        rw [if_neg hlow, if_neg hhigh]]
      rw [hb2 r2]
      rfl
  | case8 a b0 c0 d0 rest m hx hhigh ih =>
    rw [show decodeBody none ('\\' :: 'u' :: a :: b0 :: c0 :: d0 :: rest) =
        decodeBody (some m) rest from by
      simp only [decodeBody, hx]
      rw [if_pos hhigh]] at h
    obtain ⟨b', hb1, hb2, hb3⟩ := ih c r h
    refine ⟨'\\' :: 'u' :: a :: b0 :: c0 :: d0 :: b', by rw [hb1]; rfl, ?_,
      quotesEscapedB_hex a b0 c0 d0 m hx b' hb3⟩
    intro r2
    simp only [List.cons_append]
    rw [show decodeBody none ('\\' :: 'u' :: a :: b0 :: c0 :: d0 :: (b' ++ '\x22' :: r2)) =
        decodeBody (some m) (b' ++ '\x22' :: r2) from by
      simp only [decodeBody, hx]
      rw [if_pos hhigh]]
    exact hb2 r2
  | case9 a b0 c0 d0 rest m hx hhigh ih =>
    rw [show decodeBody none ('\\' :: 'u' :: a :: b0 :: c0 :: d0 :: rest) =
        (decodeBody none rest).map (fun p => (Char.ofNat m :: p.1, p.2)) from by
      simp only [decodeBody, hx]
      rw [if_neg hhigh]] at h
    cases hd : decodeBody none rest with
    | none =>
      rw [hd] at h
      exact Option.noConfusion h
    | some p =>
      obtain ⟨pc, pr⟩ := p
      rw [hd] at h
      simp only [Option.map_some', Option.some.injEq, Prod.mk.injEq] at h
      obtain ⟨hc, hr⟩ := h
      subst hc
      subst hr
      obtain ⟨b', hb1, hb2, hb3⟩ := ih pc pr hd
      refine ⟨'\\' :: 'u' :: a :: b0 :: c0 :: d0 :: b', by rw [hb1]; rfl, ?_,
        quotesEscapedB_hex a b0 c0 d0 m hx b' hb3⟩
      intro r2
      simp only [List.cons_append]
      rw [show decodeBody none ('\\' :: 'u' :: a :: b0 :: c0 :: d0 :: (b' ++ '\x22' :: r2)) =
          (decodeBody none (b' ++ '\x22' :: r2)).map
            (fun p => (Char.ofNat m :: p.1, p.2)) from by
        simp only [decodeBody, hx]
        rw [if_neg hhigh]]
      rw [hb2 r2]
      rfl
  | case10 pend0 e rest hnu hesc =>
    rw [decodeBody.eq_def] at h
    split at h
    · exact Option.noConfusion h
    · rename_i rest2 heq
      injection heq with h1 h2
      exact absurd h1 (by decide)
    · rename_i a2 b2 c2 d2 rest2 heq
      injection heq with h1 h2
      injection h2 with h3 h4
      exact absurd (hnu a2 b2 c2 d2 rest2 h3 h4) (fun hf => hf)
    · rename_i e2 rest2 hnu2 heq
      injection heq with h1 h2
      injection h2 with h3 h4
      rw [← h3, ← h4] at h
      simp only [hesc] at h
      exact Option.noConfusion h
    · rename_i c2 rest2 hq2 hbu2 hbe2 heq
      injection heq with h1 h2
      exact absurd (hbe2 e rest h1.symm h2.symm) (fun hf => hf)
  | case11 e rest hnu ec hesc n ih =>
    have hneu : e ≠ 'u' := by
      intro he
      subst he
      rw [show escChar 'u' = none from rfl] at hesc
      exact Option.noConfusion hesc
    rw [decodeBody.eq_def] at h
    split at h
    · exact Option.noConfusion h
    · rename_i rest2 heq
      injection heq with h1 h2
      exact absurd h1 (by decide)
    · rename_i a2 b2 c2 d2 rest2 heq
      injection heq with h1 h2
      injection h2 with h3 h4
      exact absurd h3 hneu
    · rename_i e2 rest2 hnu2 heq
      injection heq with h1 h2
      injection h2 with h3 h4
      rw [← h3, ← h4] at h
      simp only [hesc] at h
      cases hd : decodeBody none rest with
      | none =>
        rw [hd] at h
        exact Option.noConfusion h
      | some p =>
        obtain ⟨pc, pr⟩ := p
        rw [hd] at h
        simp only [Option.map_some', Option.some.injEq, Prod.mk.injEq] at h
        obtain ⟨hc, hr⟩ := h
        subst hc
        subst hr
        obtain ⟨b', hb1, hb2, hb3⟩ := ih pc pr hd
        refine ⟨'\\' :: e :: b', by rw [hb1]; rfl, ?_, quotesEscapedB_esc e b' hb3⟩
        intro r2
        simp only [List.cons_append]
        rw [decodeBody.eq_def]
        split
        · rename_i heq2
          exact List.noConfusion heq2
        · rename_i rest3 heq2
          injection heq2 with h5 h6
          exact absurd h5 (by decide)
        · rename_i a3 b3 c3 d3 rest3 heq2
          injection heq2 with h5 h6
          injection h6 with h7 h8
          exact absurd h7 hneu
        · rename_i e3 rest3 hnu3 heq2
          injection heq2 with h5 h6
          injection h6 with h7 h8
          rw [← h7, ← h8]
          simp only [hesc, hb2 r2, Option.map_some']
        · rename_i c3 rest3 hq3 hbu3 hbe3 heq2
          injection heq2 with h5 h6
          exact absurd (hbe3 e (b' ++ '\x22' :: r2) h5.symm h6.symm) (fun hf => hf)
    · rename_i c2 rest2 hq2 hbu2 hbe2 heq
      injection heq with h1 h2
      exact absurd (hbe2 e rest h1.symm h2.symm) (fun hf => hf)
  | case12 e rest hnu ec hesc ih =>
    have hneu : e ≠ 'u' := by
      intro he
      subst he
      rw [show escChar 'u' = none from rfl] at hesc
      exact Option.noConfusion hesc
    rw [decodeBody.eq_def] at h
    split at h
    · exact Option.noConfusion h
    · rename_i rest2 heq
      injection heq with h1 h2
      exact absurd h1 (by decide)
    · rename_i a2 b2 c2 d2 rest2 heq
      injection heq with h1 h2
      injection h2 with h3 h4
      exact absurd h3 hneu
    · rename_i e2 rest2 hnu2 heq
      injection heq with h1 h2
      injection h2 with h3 h4
      rw [← h3, ← h4] at h
      simp only [hesc] at h
      cases hd : decodeBody none rest with
      | none =>
        rw [hd] at h
        exact Option.noConfusion h
      | some p =>
        obtain ⟨pc, pr⟩ := p
        rw [hd] at h
        simp only [Option.map_some', Option.some.injEq, Prod.mk.injEq] at h
        obtain ⟨hc, hr⟩ := h
        subst hc
        subst hr
        obtain ⟨b', hb1, hb2, hb3⟩ := ih pc pr hd
        refine ⟨'\\' :: e :: b', by rw [hb1]; rfl, ?_, quotesEscapedB_esc e b' hb3⟩
        intro r2
        simp only [List.cons_append]
        rw [decodeBody.eq_def]
        split
        · rename_i heq2
          exact List.noConfusion heq2
        · rename_i rest3 heq2
          injection heq2 with h5 h6
          exact absurd h5 (by decide)
        · rename_i a3 b3 c3 d3 rest3 heq2
          injection heq2 with h5 h6
          injection h6 with h7 h8
          exact absurd h7 hneu
        · rename_i e3 rest3 hnu3 heq2
          injection heq2 with h5 h6
          injection h6 with h7 h8
          rw [← h7, ← h8]
          simp only [hesc, hb2 r2, Option.map_some']
        · rename_i c3 rest3 hq3 hbu3 hbe3 heq2
          injection heq2 with h5 h6
          exact absurd (hbe3 e (b' ++ '\x22' :: r2) h5.symm h6.symm) (fun hf => hf)
    · rename_i c2 rest2 hq2 hbu2 hbe2 heq
      injection heq with h1 h2
      exact absurd (hbe2 e rest h1.symm h2.symm) (fun hf => hf)
  | case13 pend0 c0 rest hq hbu hbe hctl =>
    rw [decodeBody.eq_def] at h
    split at h
    · exact Option.noConfusion h
    · rename_i rest2 heq
      injection heq with h1 h2
      exact absurd (hq h1) (fun hf => hf)
    · rename_i a2 b2 c2 d2 rest2 heq
      injection heq with h1 h2
      exact absurd (hbu a2 b2 c2 d2 rest2 h1 h2) (fun hf => hf)
    · rename_i e2 rest2 hnu2 heq
      injection heq with h1 h2
      exact absurd (hbe e2 rest2 h1 h2) (fun hf => hf)
    · rename_i c2 rest2 hq2 hbu2 hbe2 heq
      injection heq with h1 h2
      rw [← h1, ← h2] at h
      rw [if_pos hctl] at h
      exact Option.noConfusion h
  | case14 c0 rest hq hbu hbe hctl n ih =>
    rw [decodeBody.eq_def] at h
    split at h
    · exact Option.noConfusion h
    · rename_i rest2 heq
      injection heq with h1 h2
      exact absurd (hq h1) (fun hf => hf)
    · rename_i a2 b2 c2 d2 rest2 heq
      injection heq with h1 h2
      exact absurd (hbu a2 b2 c2 d2 rest2 h1 h2) (fun hf => hf)
    · rename_i e2 rest2 hnu2 heq
      injection heq with h1 h2
      exact absurd (hbe e2 rest2 h1 h2) (fun hf => hf)
    · rename_i c2 rest2 hq2 hbu2 hbe2 heq
      injection heq with h1 h2
      rw [← h1, ← h2] at h
      rw [if_neg hctl] at h
      simp only [] at h
      cases hd : decodeBody none rest with
      | none =>
        rw [hd] at h
        simp at h
      | some p =>
        obtain ⟨pc, pr⟩ := p
        rw [hd] at h
        simp only [Option.map_some', Option.some.injEq, Prod.mk.injEq] at h
        obtain ⟨hc, hr⟩ := h
        subst hc
        subst hr
        obtain ⟨b', hb1, hb2, hb3⟩ := ih pc pr hd
        have hcb : c0 ≠ '\\' := by
          intro hcc
          cases b' with
          | nil => exact hbe '\x22' pr hcc (by simpa using hb1)
          | cons bb bt => exact hbe bb (bt ++ '\x22' :: pr) hcc (by simpa using hb1)
        refine ⟨c0 :: b', by rw [hb1]; rfl, ?_, fun prev => quotesEscapedB_cons_ne prev c0 b' hq (hb3 c0)⟩
        intro r2
        simp only [List.cons_append]
        rw [decodeBody.eq_def]
        split
        · rename_i heq2
          exact List.noConfusion heq2
        · rename_i rest3 heq2
          injection heq2 with h5 h6
          exact absurd (hq h5) (fun hf => hf)
        · rename_i a3 b3 c3 d3 rest3 heq2
          injection heq2 with h5 h6
          exact absurd h5 hcb
        · rename_i e3 rest3 hnu3 heq2
          injection heq2 with h5 h6
          exact absurd h5 hcb
        · rename_i c3 rest3 hq3 hbu3 hbe3 heq2
          injection heq2 with h5 h6
          rw [← h5, ← h6]
          rw [if_neg hctl]
          simp only [hb2 r2, Option.map_some']
  | case15 c0 rest hq hbu hbe hctl ih =>
    rw [decodeBody.eq_def] at h
    split at h
    · exact Option.noConfusion h
    · rename_i rest2 heq
      injection heq with h1 h2
      exact absurd (hq h1) (fun hf => hf)
    · rename_i a2 b2 c2 d2 rest2 heq
      injection heq with h1 h2
      exact absurd (hbu a2 b2 c2 d2 rest2 h1 h2) (fun hf => hf)
    · rename_i e2 rest2 hnu2 heq
      injection heq with h1 h2
      exact absurd (hbe e2 rest2 h1 h2) (fun hf => hf)
    · rename_i c2 rest2 hq2 hbu2 hbe2 heq
      injection heq with h1 h2
      rw [← h1, ← h2] at h
      rw [if_neg hctl] at h
      simp only [] at h
      cases hd : decodeBody none rest with
      | none =>
        rw [hd] at h
        simp at h
      | some p =>
        obtain ⟨pc, pr⟩ := p
        rw [hd] at h
        simp only [Option.map_some', Option.some.injEq, Prod.mk.injEq] at h
        obtain ⟨hc, hr⟩ := h
        subst hc
        subst hr
        obtain ⟨b', hb1, hb2, hb3⟩ := ih pc pr hd
        have hcb : c0 ≠ '\\' := by
          intro hcc
          cases b' with
          | nil => exact hbe '\x22' pr hcc (by simpa using hb1)
          | cons bb bt => exact hbe bb (bt ++ '\x22' :: pr) hcc (by simpa using hb1)
        refine ⟨c0 :: b', by rw [hb1]; rfl, ?_, fun prev => quotesEscapedB_cons_ne prev c0 b' hq (hb3 c0)⟩
        intro r2
        simp only [List.cons_append]
        rw [decodeBody.eq_def]
        split
        · rename_i heq2
          exact List.noConfusion heq2
        · rename_i rest3 heq2
          injection heq2 with h5 h6
          exact absurd (hq h5) (fun hf => hf)
        · rename_i a3 b3 c3 d3 rest3 heq2
          injection heq2 with h5 h6
          exact absurd h5 hcb
        · rename_i e3 rest3 hnu3 heq2
          injection heq2 with h5 h6
          exact absurd h5 hcb
        · rename_i c3 rest3 hq3 hbu3 hbe3 heq2
          injection heq2 with h5 h6
          rw [← h5, ← h6]
          rw [if_neg hctl]
          simp only [hb2 r2, Option.map_some']

theorem string_cut (cs0 content rest : List Char)
    (h : decodeBody none cs0 = some (content, rest)) (k : Nat) :
    (∀ r, parse_string ('\x22' :: cs0.take k) = .error r → benignPErr r) ∧
    (∀ v2 rem c2, parse_string ('\x22' :: cs0.take k) = .ok (v2, rem, c2) →
      (∃ w, v2 = .str w) ∧ ∃ m, m ≤ rest.length ∧ rem = rest.take m) := by
  obtain ⟨b, hb1, hb2, hb3⟩ := decodeBody_span none cs0 content rest h
  subst hb1
  by_cases hk : k ≤ b.length
  · have htake : (b ++ '\x22' :: rest).take k = b.take k :=
      List.take_append_of_le_length hk
    have hsq : scanQuote '\x22' ((b ++ '\x22' :: rest).take k) = none := by
      rw [htake]
      exact scanQuote_escaped_none _ _ (quotesEscapedB_take _ _ (hb3 '\x22') k)
    have hval : parse_string ('\x22' :: (b ++ '\x22' :: rest).take k) =
        .ok (.str ((b ++ '\x22' :: rest).take k), [], false) := by
      unfold parse_string
      dsimp only
      simp only [List.drop_succ_cons, List.drop_zero]
      rw [hsq]
    constructor
    · intro r hr
      rw [hval] at hr
      exact Except.noConfusion hr
    · intro v2 rem c2 hok
      rw [hval] at hok
      simp only [Except.ok.injEq, Prod.mk.injEq] at hok
      obtain ⟨h1, h2, h3⟩ := hok
      exact ⟨⟨_, h1.symm⟩, 0, Nat.zero_le _, by rw [← h2, List.take_zero]⟩
  · push_neg at hk
    have hsplit : (b ++ '\x22' :: rest).take k =
        b ++ '\x22' :: rest.take (k - b.length - 1) := by
      rw [List.take_append_eq_append_take, List.take_of_length_le (by omega)]
      congr 1
      have hone : k - b.length = (k - b.length - 1) + 1 := by omega
      conv_lhs => rw [hone]
      rw [List.take_succ_cons]
    by_cases hlast : lastD '\x22' b = '\\'
    · have hsq := scanQuote_escaped_skip '\x22' b (rest.take (k - b.length - 1))
        (hb3 '\x22') hlast
      cases hsq2 : scanQuote '\x22' (rest.take (k - b.length - 1)) with
      | none =>
        have hval : parse_string ('\x22' :: (b ++ '\x22' :: rest).take k) =
            .ok (.str ((b ++ '\x22' :: rest).take k), [], false) := by
          unfold parse_string
          dsimp only
          simp only [List.drop_succ_cons, List.drop_zero]
          rw [hsplit, hsq, hsq2]
          rfl
        constructor
        · intro r hr
          rw [hval] at hr
          exact Except.noConfusion hr
        · intro v2 rem c2 hok
          rw [hval] at hok
          simp only [Except.ok.injEq, Prod.mk.injEq] at hok
          obtain ⟨h1, h2, h3⟩ := hok
          exact ⟨⟨_, h1.symm⟩, 0, Nat.zero_le _, by rw [← h2, List.take_zero]⟩
      | some p =>
        obtain ⟨p1, p2⟩ := p
        have hval : parse_string ('\x22' :: (b ++ '\x22' :: rest).take k) =
            .error (.decodeErr .stringDecode) := by
          unfold parse_string
          dsimp only
          simp only [List.drop_succ_cons, List.drop_zero]
          rw [hsplit, hsq, hsq2]
          simp only [Option.map_some']
          have hd : decodeBody none ((b ++ '\x22' :: p1) ++ ['\x22']) =
              some (content, p1 ++ ['\x22']) := by
            rw [List.append_assoc]
            simp only [List.cons_append]
            exact hb2 _
          rw [hd]
          cases p1 <;> rfl
        constructor
        · intro r hr
          rw [hval] at hr
          simp only [Except.error.injEq] at hr
          subst hr
          exact .inr (.inr (.inr (.inl rfl)))
        · intro v2 rem c2 hok
          rw [hval] at hok
          exact Except.noConfusion hok
    · have hsq := scanQuote_escaped_term '\x22' b (rest.take (k - b.length - 1))
        (hb3 '\x22') hlast
      have hval : parse_string ('\x22' :: (b ++ '\x22' :: rest).take k) =
          .ok (.str content, rest.take (k - b.length - 1), true) := by
        unfold parse_string
        dsimp only
        simp only [List.drop_succ_cons, List.drop_zero]
        rw [hsplit, hsq]
        dsimp only
        rw [show decodeBody none (b ++ ['\x22']) = some (content, []) from hb2 []]
      constructor
      · intro r hr
        rw [hval] at hr
        exact Except.noConfusion hr
      · intro v2 rem c2 hok
        rw [hval] at hok
        simp only [Except.ok.injEq, Prod.mk.injEq] at hok
        obtain ⟨h1, h2, h3⟩ := hok
        obtain ⟨m, hm, hcl⟩ := take_clip rest (k - b.length - 1)
        exact ⟨⟨content, h1.symm⟩, m, hm, by rw [← h2, hcl]⟩

theorem parse_true_err (s : List Char) (e : PErr) (hs : parse_true s = .error e) :
    benignPErr e := by
  unfold parse_true at hs
  split at hs
  · exact Except.noConfusion hs
  · injection hs with h1
    rw [← h1]
    exact .inr (.inr (.inl rfl))

theorem parse_false_err (s : List Char) (e : PErr) (hs : parse_false s = .error e) :
    benignPErr e := by
  unfold parse_false at hs
  split at hs
  · exact Except.noConfusion hs
  · injection hs with h1
    rw [← h1]
    exact .inr (.inr (.inl rfl))

theorem parse_null_err (s : List Char) (e : PErr) (hs : parse_null s = .error e) :
    benignPErr e := by
  unfold parse_null at hs
  split at hs
  · exact Except.noConfusion hs
  · injection hs with h1
    rw [← h1]
    exact .inr (.inr (.inl rfl))

theorem parse_true_ok (s : List Char) (v2 : JVal) (rem : List Char) (c2 : Bool)
    (hs : parse_true s = .ok (v2, rem, c2)) : s = 't' :: 'r' :: 'u' :: 'e' :: rem := by
  unfold parse_true at hs
  split at hs
  · rename_i rest2
    simp only [Except.ok.injEq, Prod.mk.injEq] at hs
    rw [hs.2.1]
  · exact Except.noConfusion hs

theorem parse_false_ok (s : List Char) (v2 : JVal) (rem : List Char) (c2 : Bool)
    (hs : parse_false s = .ok (v2, rem, c2)) :
    s = 'f' :: 'a' :: 'l' :: 's' :: 'e' :: rem := by
  unfold parse_false at hs
  split at hs
  · rename_i rest2
    simp only [Except.ok.injEq, Prod.mk.injEq] at hs
    rw [hs.2.1]
  · exact Except.noConfusion hs

theorem parse_null_ok (s : List Char) (v2 : JVal) (rem : List Char) (c2 : Bool)
    (hs : parse_null s = .ok (v2, rem, c2)) : s = 'n' :: 'u' :: 'l' :: 'l' :: rem := by
  unfold parse_null at hs
  split at hs
  · rename_i rest2
    simp only [Except.ok.injEq, Prod.mk.injEq] at hs
    rw [hs.2.1]
  · exact Except.noConfusion hs

theorem literal_take_tail4 (c1 c2 c3 c4 : Char) (rest rem : List Char) (k : Nat)
    (h : (c1 :: c2 :: c3 :: c4 :: rest).take k = c1 :: c2 :: c3 :: c4 :: rem) :
    ∃ m, m ≤ rest.length ∧ rem = rest.take m := by
  cases k with
  | zero => exact List.noConfusion h
  | succ k1 =>
    injection h with e1 h1
    cases k1 with
    | zero => exact List.noConfusion h1
    | succ k2 =>
      injection h1 with e2 h2
      cases k2 with
      | zero => exact List.noConfusion h2
      | succ k3 =>
        injection h2 with e3 h3
        cases k3 with
        | zero => exact List.noConfusion h3
        | succ k4 =>
          injection h3 with e4 h4
          obtain ⟨m, hm, hcl⟩ := take_clip rest k4
          exact ⟨m, hm, by rw [← h4, hcl]⟩

theorem literal_take_tail5 (c1 c2 c3 c4 c5 : Char) (rest rem : List Char) (k : Nat)
    (h : (c1 :: c2 :: c3 :: c4 :: c5 :: rest).take k = c1 :: c2 :: c3 :: c4 :: c5 :: rem) :
    ∃ m, m ≤ rest.length ∧ rem = rest.take m := by
  cases k with
  | zero => exact List.noConfusion h
  | succ k1 =>
    injection h with e1 h1
    exact literal_take_tail4 c2 c3 c4 c5 rest rem k1 h1

theorem err_pair (rest : List Char) (e0 : PErr) (hb : benignPErr e0)
    (X : Except PErr (JVal × List Char × Bool)) (hX : X = .error e0) :
    (∀ r, X = .error r → benignPErr r) ∧
    (∀ v2 rem c2, X = .ok (v2, rem, c2) →
      (∃ d x, rem = d :: x ∧ desyncHead d = true) ∨
        ∃ m, m ≤ rest.length ∧ rem = rest.take m) := by
  constructor
  · intro r hr
    rw [hX] at hr
    injection hr with he
    rw [← he]
    exact hb
  · intro v2 rem c2 hok
    rw [hX] at hok
    exact Except.noConfusion hok

theorem err_pair_loop {β : Type} (rest : List Char) (e0 : PErr) (hb : benignPErr e0)
    (X : Except PErr (β × List Char × Bool)) (hX : X = .error e0) :
    (∀ r, X = .error r → benignPErr r) ∧
    (∀ a2 rem c2, X = .ok (a2, rem, c2) → ∃ m, m ≤ rest.length ∧ rem = rest.take m) := by
  constructor
  · intro r hr
    rw [hX] at hr
    injection hr with he
    rw [← he]
    exact hb
  · intro a2 rem c2 hok
    rw [hX] at hok
    exact Except.noConfusion hok

theorem jsonObjBody_brace (f : Nat) (r : List Char) :
    jsonObjBody (f + 1) ('\x7d' :: r) = some (.obj [], r) := rfl

theorem jsonObjBody_nil (f : Nat) : jsonObjBody (f + 1) [] = jsonMembers f [] [] := rfl

theorem jsonObjBody_other (f : Nat) (c : Char) (t : List Char) (hc : c ≠ '\x7d') :
    jsonObjBody (f + 1) (c :: t) = jsonMembers f [] (c :: t) := by
  simp only [jsonObjBody]
  split
  · rename_i r heq
    injection heq with h1
    exact absurd h1 hc
  · rfl

theorem jsonArrBody_brk (f : Nat) (r : List Char) :
    jsonArrBody (f + 1) (']' :: r) = some (.arr [], r) := rfl

theorem jsonArrBody_nil (f : Nat) : jsonArrBody (f + 1) [] = jsonElems f [] [] := rfl

theorem jsonArrBody_other (f : Nat) (c : Char) (t : List Char) (hc : c ≠ ']') :
    jsonArrBody (f + 1) (c :: t) = jsonElems f [] (c :: t) := by
  simp only [jsonArrBody]
  split
  · rename_i r heq
    injection heq with h1
    exact absurd h1 hc
  · rfl

theorem parse_object_lift (g2 : Nat) (s : List Char) (rest : List Char)
    (hloopE : ∀ e, objLoop g2 [] false (pyStrip (s.drop 1)) = .error e → benignPErr e)
    (hloopO : ∀ a2 rem c2, objLoop g2 [] false (pyStrip (s.drop 1)) = .ok (a2, rem, c2) →
      ∃ m2, m2 ≤ rest.length ∧ rem = rest.take m2) :
    (∀ r, parse_object (g2 + 1) s = .error r → benignPErr r) ∧
    (∀ v2 rem c2, parse_object (g2 + 1) s = .ok (v2, rem, c2) →
      (∃ d x, rem = d :: x ∧ desyncHead d = true) ∨
        ∃ m, m ≤ rest.length ∧ rem = rest.take m) := by
  obtain ⟨h1, h2⟩ := parse_object_step g2 s
  constructor
  · intro r hr
    cases hOL : objLoop g2 [] false (pyStrip (s.drop 1)) with
    | error e =>
      rw [h1 e hOL] at hr
      injection hr with he
      rw [← he]
      exact hloopE e hOL
    | ok trip =>
      obtain ⟨a2, rem2, cc⟩ := trip
      rw [h2 a2 rem2 cc hOL] at hr
      exact Except.noConfusion hr
  · intro v2 rem c2 hok
    cases hOL : objLoop g2 [] false (pyStrip (s.drop 1)) with
    | error e =>
      rw [h1 e hOL] at hok
      exact Except.noConfusion hok
    | ok trip =>
      obtain ⟨a2, rem2, cc⟩ := trip
      rw [h2 a2 rem2 cc hOL] at hok
      simp only [Except.ok.injEq, Prod.mk.injEq] at hok
      obtain ⟨-, hr2, -⟩ := hok
      obtain ⟨m2, hm2, hrem⟩ := hloopO a2 rem2 cc hOL
      exact .inr ⟨m2, hm2, by rw [← hr2, hrem]⟩

theorem parse_array_lift (g2 : Nat) (s : List Char) (rest : List Char)
    (hloopE : ∀ e, arrLoop g2 [] false (pyStrip (s.drop 1)) = .error e → benignPErr e)
    (hloopO : ∀ a2 rem c2, arrLoop g2 [] false (pyStrip (s.drop 1)) = .ok (a2, rem, c2) →
      ∃ m2, m2 ≤ rest.length ∧ rem = rest.take m2) :
    (∀ r, parse_array (g2 + 1) s = .error r → benignPErr r) ∧
    (∀ v2 rem c2, parse_array (g2 + 1) s = .ok (v2, rem, c2) →
      (∃ d x, rem = d :: x ∧ desyncHead d = true) ∨
        ∃ m, m ≤ rest.length ∧ rem = rest.take m) := by
  obtain ⟨h1, h2⟩ := parse_array_step g2 s
  constructor
  · intro r hr
    cases hOL : arrLoop g2 [] false (pyStrip (s.drop 1)) with
    | error e =>
      rw [h1 e hOL] at hr
      injection hr with he
      rw [← he]
      exact hloopE e hOL
    | ok trip =>
      obtain ⟨a2, rem2, cc⟩ := trip
      rw [h2 a2 rem2 cc hOL] at hr
      exact Except.noConfusion hr
  · intro v2 rem c2 hok
    cases hOL : arrLoop g2 [] false (pyStrip (s.drop 1)) with
    | error e =>
      rw [h1 e hOL] at hok
      exact Except.noConfusion hok
    | ok trip =>
      obtain ⟨a2, rem2, cc⟩ := trip
      rw [h2 a2 rem2 cc hOL] at hok
      simp only [Except.ok.injEq, Prod.mk.injEq] at hok
      obtain ⟨-, hr2, -⟩ := hok
      obtain ⟨m2, hm2, hrem⟩ := hloopO a2 rem2 cc hOL
      exact .inr ⟨m2, hm2, by rw [← hr2, hrem]⟩

theorem literal_take_tail3 (c1 c2 c3 : Char) (rest rem : List Char) (k : Nat)
    (h : (c1 :: c2 :: c3 :: rest).take k = c1 :: c2 :: c3 :: rem) :
    ∃ m, m ≤ rest.length ∧ rem = rest.take m := by
  cases k with
  | zero => exact List.noConfusion h
  | succ k1 =>
    injection h with e1 h1
    cases k1 with
    | zero => exact List.noConfusion h1
    | succ k2 =>
      injection h1 with e2 h2
      cases k2 with
      | zero => exact List.noConfusion h2
      | succ k3 =>
        injection h2 with e3 h3
        obtain ⟨m, hm, hcl⟩ := take_clip rest k3
        exact ⟨m, hm, by rw [← h3, hcl]⟩

theorem prefix_cut_all (F : Nat) :
    (∀ cs v rest, jsonValue F cs = some (v, rest) →
      (∀ c t, rest = c :: t → jsonIsSpace c = true ∨ c = ',' ∨ c = ']' ∨ c = '\x7d') →
      ∀ k g,
        (∀ r, parse_any g (cs.take k) = .error r → benignPErr r) ∧
        (∀ v2 rem c2, parse_any g (cs.take k) = .ok (v2, rem, c2) →
          (∃ d x, rem = d :: x ∧ desyncHead d = true) ∨
            ∃ m, m ≤ rest.length ∧ rem = rest.take m)) ∧
    (∀ acc cs v rest, jsonMembers F acc cs = some (v, rest) →
      ∀ k g acc2 b,
        (∀ r, objLoop g acc2 b (cs.take k) = .error r → benignPErr r) ∧
        (∀ a2 rem c2, objLoop g acc2 b (cs.take k) = .ok (a2, rem, c2) →
          ∃ m, m ≤ rest.length ∧ rem = rest.take m)) ∧
    (∀ acc cs v rest, jsonElems F acc cs = some (v, rest) →
      ∀ k g acc2 b,
        (∀ r, arrLoop g acc2 b (cs.take k) = .error r → benignPErr r) ∧
        (∀ a2 rem c2, arrLoop g acc2 b (cs.take k) = .ok (a2, rem, c2) →
          ∃ m, m ≤ rest.length ∧ rem = rest.take m)) := by
  induction F using Nat.strong_induction_on with
  | h F ih =>
  refine ⟨?_, ?_, ?_⟩
  · -- values
    intro cs v rest h hrest k g
    cases F with
    | zero => exact absurd h (by simp [jsonValue])
    | succ F2 =>
    cases g with
    | zero => exact err_pair rest _ (.inl rfl) _ rfl
    | succ g =>
    cases k with
    | zero =>
      rw [List.take_zero]
      exact err_pair rest _ (.inr (.inl rfl)) _ rfl
    | succ k =>
    cases cs with
    | nil => exact absurd h (by simp [jsonValue])
    | cons c0 t0 =>
    rw [List.take_succ_cons]
    simp only [jsonValue] at h
    by_cases h1 : c0 = '\x7b'
    · subst h1
      rw [if_pos rfl] at h
      rw [parse_any_obj]
      cases g with
      | zero => exact err_pair rest _ (.inl rfl) _ rfl
      | succ g2 =>
      cases F2 with
      | zero => exact absurd h (by simp [jsonObjBody])
      | succ F3 =>
      cases hsk : skipW t0 with
      | nil =>
        rw [hsk, jsonObjBody_nil] at h
        obtain ⟨tq0, hq0⟩ := jsonMembers_head F3 [] [] (v, rest) h
        exact List.noConfusion hq0
      | cons w0 tw =>
      by_cases hw0 : w0 = '\x7d'
      · subst hw0
        rw [hsk, jsonObjBody_brace] at h
        simp only [Option.some.injEq, Prod.mk.injEq] at h
        obtain ⟨hv, hrr⟩ := h
        obtain ⟨m, hm, hstrip⟩ := pyStrip_take_skipW t0 k (fun c t hct => by
          rw [hsk] at hct
          injection hct with hx1 hx2
          rw [← hx1]
          decide)
        rw [hsk] at hstrip
        refine parse_object_lift g2 _ rest ?_ ?_
        · intro e he
          rw [show ((('\x7b' :: t0.take k) : List Char)).drop 1 = t0.take k from rfl,
            hstrip] at he
          cases g2 with
          | zero =>
            injection he with he2
            rw [← he2]
            exact .inl rfl
          | succ g3 =>
            cases m with
            | zero =>
              rw [List.take_zero, objLoop_nil] at he
              exact Except.noConfusion he
            | succ m1 =>
              rw [List.take_succ_cons, objLoop_close] at he
              exact Except.noConfusion he
        · intro a2 rem c2 hok
          rw [show ((('\x7b' :: t0.take k) : List Char)).drop 1 = t0.take k from rfl,
            hstrip] at hok
          cases g2 with
          | zero => exact Except.noConfusion hok
          | succ g3 =>
            cases m with
            | zero =>
              rw [List.take_zero, objLoop_nil] at hok
              simp only [Except.ok.injEq, Prod.mk.injEq] at hok
              exact ⟨0, Nat.zero_le _, by rw [← hok.2.1, List.take_zero]⟩
            | succ m1 =>
              rw [List.take_succ_cons, objLoop_close] at hok
              simp only [Except.ok.injEq, Prod.mk.injEq] at hok
              obtain ⟨m2, hm2, hcl⟩ := take_clip tw m1
              refine ⟨m2, by rw [← hrr]; exact hm2, ?_⟩
              rw [← hok.2.1, hcl, hrr]
      · rw [hsk, jsonObjBody_other F3 w0 tw hw0] at h
        rw [← hsk] at h
        obtain ⟨tq, hq⟩ := jsonMembers_head F3 [] (skipW t0) (v, rest) h
        obtain ⟨m, hm, hstrip⟩ := pyStrip_take_skipW t0 k (fun c t hct => by
          rw [hq] at hct
          injection hct with hx1 hx2
          rw [← hx1]
          decide)
        have hM := (ih F3 (by omega)).2.1 [] (skipW t0) v rest h m g2 [] false
        refine parse_object_lift g2 _ rest ?_ ?_
        · intro e he
          rw [show ((('\x7b' :: t0.take k) : List Char)).drop 1 = t0.take k from rfl,
            hstrip] at he
          exact hM.1 e he
        · intro a2 rem c2 hok
          rw [show ((('\x7b' :: t0.take k) : List Char)).drop 1 = t0.take k from rfl,
            hstrip] at hok
          exact hM.2 a2 rem c2 hok
    · rw [if_neg h1] at h
      by_cases h2 : c0 = '['
      · subst h2
        rw [if_pos rfl] at h
        rw [parse_any_arr]
        cases g with
        | zero => exact err_pair rest _ (.inl rfl) _ rfl
        | succ g2 =>
        cases F2 with
        | zero => exact absurd h (by simp [jsonArrBody])
        | succ F3 =>
        cases hsk : skipW t0 with
        | nil =>
          rw [hsk, jsonArrBody_nil] at h
          obtain ⟨c', t', hcons, -, -, -, -, -⟩ := jsonElems_head F3 [] [] (v, rest) h
          exact List.noConfusion hcons
        | cons w0 tw =>
        by_cases hw0 : w0 = ']'
        · subst hw0
          rw [hsk, jsonArrBody_brk] at h
          simp only [Option.some.injEq, Prod.mk.injEq] at h
          obtain ⟨hv, hrr⟩ := h
          obtain ⟨m, hm, hstrip⟩ := pyStrip_take_skipW t0 k (fun c t hct => by
            rw [hsk] at hct
            injection hct with hx1 hx2
            rw [← hx1]
            decide)
          rw [hsk] at hstrip
          refine parse_array_lift g2 _ rest ?_ ?_
          · intro e he
            rw [show ((('[' :: t0.take k) : List Char)).drop 1 = t0.take k from rfl,
              hstrip] at he
            cases g2 with
            | zero =>
              injection he with he2
              rw [← he2]
              exact .inl rfl
            | succ g3 =>
              cases m with
              | zero =>
                rw [List.take_zero, arrLoop_nil] at he
                exact Except.noConfusion he
              | succ m1 =>
                rw [List.take_succ_cons, arrLoop_close] at he
                exact Except.noConfusion he
          · intro a2 rem c2 hok
            rw [show ((('[' :: t0.take k) : List Char)).drop 1 = t0.take k from rfl,
              hstrip] at hok
            cases g2 with
            | zero => exact Except.noConfusion hok
            | succ g3 =>
              cases m with
              | zero =>
                rw [List.take_zero, arrLoop_nil] at hok
                simp only [Except.ok.injEq, Prod.mk.injEq] at hok
                exact ⟨0, Nat.zero_le _, by rw [← hok.2.1, List.take_zero]⟩
              | succ m1 =>
                rw [List.take_succ_cons, arrLoop_close] at hok
                simp only [Except.ok.injEq, Prod.mk.injEq] at hok
                obtain ⟨m2, hm2, hcl⟩ := take_clip tw m1
                refine ⟨m2, by rw [← hrr]; exact hm2, ?_⟩
                rw [← hok.2.1, hcl, hrr]
        · rw [hsk, jsonArrBody_other F3 w0 tw hw0] at h
          rw [← hsk] at h
          obtain ⟨c', t', hcons, hnws, -, -, -, -⟩ := jsonElems_head F3 [] (skipW t0)
            (v, rest) h
          obtain ⟨m, hm, hstrip⟩ := pyStrip_take_skipW t0 k (fun c t hct => by
            rw [hcons] at hct
            injection hct with hx1 hx2
            rw [← hx1]
            exact hnws)
          have hE := (ih F3 (by omega)).2.2 [] (skipW t0) v rest h m g2 [] false
          refine parse_array_lift g2 _ rest ?_ ?_
          · intro e he
            rw [show ((('[' :: t0.take k) : List Char)).drop 1 = t0.take k from rfl,
              hstrip] at he
            exact hE.1 e he
          · intro a2 rem c2 hok
            rw [show ((('[' :: t0.take k) : List Char)).drop 1 = t0.take k from rfl,
              hstrip] at hok
            exact hE.2 a2 rem c2 hok
      · rw [if_neg h2] at h
        by_cases h3 : c0 = '\x22'
        · subst h3
          rw [if_pos rfl] at h
          rw [parse_any_quote]
          cases hdec : decodeBody none t0 with
          | none =>
            rw [hdec] at h
            exact Option.noConfusion h
          | some p =>
            obtain ⟨pc, pr⟩ := p
            rw [hdec] at h
            simp only [Option.map_some', Option.some.injEq, Prod.mk.injEq] at h
            obtain ⟨hv, hrr⟩ := h
            obtain ⟨hscE, hscO⟩ := string_cut t0 pc pr hdec k
            constructor
            · intro r hr
              exact hscE r hr
            · intro v2 rem c2 hok
              obtain ⟨-, m, hm, hrem⟩ := hscO v2 rem c2 hok
              exact .inr ⟨m, by rw [← hrr]; exact hm, by rw [← hrr]; exact hrem⟩
        · rw [if_neg h3] at h
          by_cases h4 : c0 = 't'
          · subst h4
            rw [if_pos rfl] at h
            rw [parse_any_t]
            split at h
            · rename_i r1
              simp only [Option.some.injEq, Prod.mk.injEq] at h
              obtain ⟨hv, hrr⟩ := h
              constructor
              · intro r hr
                exact parse_true_err _ _ hr
              · intro v2 rem c2 hok
                have hsh := parse_true_ok _ _ _ _ hok
                injection hsh with hz1 hz2
                obtain ⟨m, hm, hrem⟩ := literal_take_tail3 'r' 'u' 'e' r1 rem k hz2
                exact .inr ⟨m, by rw [← hrr]; exact hm, by rw [← hrr]; exact hrem⟩
            · exact Option.noConfusion h
          · rw [if_neg h4] at h
            by_cases h5 : c0 = 'f'
            · subst h5
              rw [if_pos rfl] at h
              rw [parse_any_f]
              split at h
              · rename_i r1
                simp only [Option.some.injEq, Prod.mk.injEq] at h
                obtain ⟨hv, hrr⟩ := h
                constructor
                · intro r hr
                  exact parse_false_err _ _ hr
                · intro v2 rem c2 hok
                  have hsh := parse_false_ok _ _ _ _ hok
                  injection hsh with hz1 hz2
                  obtain ⟨m, hm, hrem⟩ := literal_take_tail4 'a' 'l' 's' 'e' r1 rem k hz2
                  exact .inr ⟨m, by rw [← hrr]; exact hm, by rw [← hrr]; exact hrem⟩
              · exact Option.noConfusion h
            · rw [if_neg h5] at h
              by_cases h6 : c0 = 'n'
              · subst h6
                rw [if_pos rfl] at h
                rw [parse_any_n]
                split at h
                · rename_i r1
                  simp only [Option.some.injEq, Prod.mk.injEq] at h
                  obtain ⟨hv, hrr⟩ := h
                  constructor
                  · intro r hr
                    exact parse_null_err _ _ hr
                  · intro v2 rem c2 hok
                    have hsh := parse_null_ok _ _ _ _ hok
                    injection hsh with hz1 hz2
                    obtain ⟨m, hm, hrem⟩ := literal_take_tail3 'u' 'l' 'l' r1 rem k hz2
                    exact .inr ⟨m, by rw [← hrr]; exact hm, by rw [← hrr]; exact hrem⟩
                · exact Option.noConfusion h
              · rw [if_neg h6] at h
                by_cases h7 : c0 = '-' ∨ isDigitCh c0 = true
                · rw [if_pos h7] at h
                  rw [parse_any_num g c0 (t0.take k) h7]
                  have hrest2 : ∀ c t, rest = c :: t → isNumCh c = false := by
                    intro c t hct
                    rcases hrest c t hct with hws | hc | hc | hc
                    · simp only [jsonIsSpace, Bool.or_eq_true, decide_eq_true_eq] at hws
                      rcases hws with ((hx | hx) | hx) | hx <;> subst hx <;> decide
                    · subst hc
                      decide
                    · subst hc
                      decide
                    · subst hc
                      decide
                  exact number_cut (c0 :: t0) v rest h (k + 1) hrest2
                · rw [if_neg h7] at h
                  exact Option.noConfusion h
  · -- members
    intro acc cs v rest h k g acc2 b
    cases F with
    | zero => exact absurd h (by simp [jsonMembers])
    | succ F2 =>
    obtain ⟨tq, hq⟩ := jsonMembers_head (F2 + 1) acc cs (v, rest) h
    subst hq
    simp only [jsonMembers] at h
    cases hdec : decodeBody none tq with
    | none =>
      rw [hdec] at h
      exact Option.noConfusion h
    | some pk =>
    obtain ⟨key, r1⟩ := pk
    rw [hdec] at h
    dsimp only at h
    split at h
    · rename_i r2 heqW1
      cases hval : jsonValue F2 (skipW r2) with
      | none =>
        rw [hval] at h
        exact Option.noConfusion h
      | some pv =>
      obtain ⟨vv, r3⟩ := pv
      rw [hval] at h
      dsimp only at h
      have hfinal : (∃ r4, skipW r3 = ',' :: r4 ∧
          jsonMembers F2 (strInsertP acc key vv) (skipW r4) = some (v, rest)) ∨
          (∃ r4, skipW r3 = '\x7d' :: r4 ∧ rest = r4) := by
        split at h
        · rename_i r4 heqW3
          exact .inl ⟨r4, heqW3, h⟩
        · rename_i r4 heqW3
          simp only [Option.some.injEq, Prod.mk.injEq] at h
          exact .inr ⟨r4, heqW3, h.2.symm⟩
        · exact Option.noConfusion h
      cases g with
      | zero => exact err_pair_loop rest _ (.inl rfl) _ rfl
      | succ g1 =>
      cases k with
      | zero =>
        rw [List.take_zero]
        constructor
        · intro r hr
          rw [objLoop_nil] at hr
          exact Except.noConfusion hr
        · intro a2 rem c2 hok
          rw [objLoop_nil] at hok
          simp only [Except.ok.injEq, Prod.mk.injEq] at hok
          exact ⟨0, Nat.zero_le _, by rw [← hok.2.1, List.take_zero]⟩
      | succ k1 =>
      rw [List.take_succ_cons]
      obtain ⟨hstepE, hstepO⟩ := objLoop_step g1 acc2 b '\x22' (tq.take k1) (by decide)
      obtain ⟨hkeyE, hkeyO⟩ := string_cut tq key r1 hdec k1
      cases hpa : parse_any g1 ('\x22' :: tq.take k1) with
      | error e =>
        constructor
        · intro r hr
          rw [hstepE e hpa] at hr
          injection hr with he
          rw [← he]
          cases g1 with
          | zero =>
            injection hpa with hpe
            rw [← hpe]
            exact .inl rfl
          | succ g2 =>
            rw [parse_any_quote] at hpa
            exact hkeyE e hpa
        · intro a2 rem c2 hok
          rw [hstepE e hpa] at hok
          exact Except.noConfusion hok
      | ok tripK =>
      obtain ⟨keyv, s1, kc⟩ := tripK
      cases g1 with
      | zero => exact absurd hpa (fun hx => Except.noConfusion hx)
      | succ g2 =>
      have hps : parse_string ('\x22' :: tq.take k1) = .ok (keyv, s1, kc) := by
        rw [← parse_any_quote g2]
        exact hpa
      obtain ⟨⟨w, hw⟩, m1, hm1, hs1⟩ := hkeyO keyv s1 kc hps
      subst hw
      subst hs1
      obtain ⟨hd1, hd2, hd3⟩ := hstepO (.str w) (r1.take m1) kc hpa rfl
      obtain ⟨m2, hm2, hstr1⟩ := pyStrip_take_skipW r1 m1 (fun c t hct => by
        rw [heqW1] at hct
        injection hct with hx1 hx2
        rw [← hx1]
        decide)
      rw [heqW1] at hstr1
      cases m2 with
      | zero =>
        rw [List.take_zero] at hstr1
        constructor
        · intro r hr
          rw [hd1 hstr1] at hr
          exact Except.noConfusion hr
        · intro a2 rem c2 hok
          rw [hd1 hstr1] at hok
          simp only [Except.ok.injEq, Prod.mk.injEq] at hok
          exact ⟨0, Nat.zero_le _, by rw [← hok.2.1, List.take_zero]⟩
      | succ m3 =>
      rw [List.take_succ_cons] at hstr1
      obtain ⟨he1, he2, he3, he4⟩ := hd3 (r2.take m3) hstr1
      obtain ⟨cv, tv, hcv, hcvs, -, hcvc, -, hcvb⟩ := jsonValue_head F2 (skipW r2) vv r3
        hval
      obtain ⟨m4, hm4, hstr2⟩ := pyStrip_take_skipW r2 m3 (fun c t hct => by
        rw [hcv] at hct
        injection hct with hx1 hx2
        rw [← hx1]
        exact hcvs)
      cases m4 with
      | zero =>
        rw [List.take_zero] at hstr2
        constructor
        · intro r hr
          rw [he1 hstr2] at hr
          exact Except.noConfusion hr
        · intro a2 rem c2 hok
          rw [he1 hstr2] at hok
          simp only [Except.ok.injEq, Prod.mk.injEq] at hok
          exact ⟨0, Nat.zero_le _, by rw [← hok.2.1, List.take_zero]⟩
      | succ m5 =>
      rw [hcv, List.take_succ_cons] at hstr2
      obtain ⟨hv1, hv2⟩ := he4 cv (tv.take m5) hstr2 hcvc hcvb
      have hrestv : ∀ c t, r3 = c :: t → jsonIsSpace c = true ∨ c = ',' ∨ c = ']' ∨
          c = '\x7d' := by
        intro c t hct
        rcases skipW_head r3 c t hct with hws | hsk2
        · exact .inl hws
        · rcases hfinal with ⟨r4, hW3, -⟩ | ⟨r4, hW3, -⟩
          · rw [hct] at hW3 hsk2
            rw [hsk2] at hW3
            injection hW3 with hz1 hz2
            exact .inr (.inl hz1)
          · rw [hct] at hW3 hsk2
            rw [hsk2] at hW3
            injection hW3 with hz1 hz2
            exact .inr (.inr (.inr hz1))
      have hLV := (ih F2 (by omega)).1 (skipW r2) vv r3 hval hrestv
      have hinput : pyStrip (r2.take m3) = (skipW r2).take (m5 + 1) := by
        rw [hstr2, hcv, List.take_succ_cons]
      cases hpv : parse_any (g2 + 1) (pyStrip (r2.take m3)) with
      | error e =>
        constructor
        · intro r hr
          rw [hv1 e hpv] at hr
          injection hr with he
          rw [← he]
          rw [hinput] at hpv
          exact (hLV (m5 + 1) (g2 + 1)).1 e hpv
        · intro a2 rem c2 hok
          rw [hv1 e hpv] at hok
          exact Except.noConfusion hok
      | ok tripV =>
      obtain ⟨value, s5, vc⟩ := tripV
      have hloopeq := hv2 value s5 vc hpv
      rw [hinput] at hpv
      rcases (hLV (m5 + 1) (g2 + 1)).2 value s5 vc hpv with ⟨d, x, hrem, hde⟩ |
        ⟨m6, hm6, hrem⟩
      · subst hrem
        have hde2 : d = 'e' ∨ d = 'E' := by
          simpa [desyncHead, Bool.or_eq_true, decide_eq_true_eq] using hde
        have hdss : pyIsSpace d = false := by
          rcases hde2 with h' | h' <;> subst h' <;> decide
        have hdcc : d ≠ ',' := by
          rcases hde2 with h' | h' <;> subst h' <;> decide
        rw [pyStrip_cons_not_space d x hdss, consumeComma_ne d (rstrip x) hdcc] at hloopeq
        rcases objLoop_desync (g2 + 1) (insertEq acc2 (.str w) value)
            ((b || !kc) || !vc) d (rstrip x) hde with hOL | hOL
        · constructor
          · intro r hr
            rw [hloopeq, hOL] at hr
            injection hr with he
            rw [← he]
            exact .inl rfl
          · intro a2 rem c2 hok
            rw [hloopeq, hOL] at hok
            exact Except.noConfusion hok
        · constructor
          · intro r hr
            rw [hloopeq, hOL] at hr
            injection hr with he
            rw [← he]
            exact .inr (.inr (.inr (.inr rfl)))
          · intro a2 rem c2 hok
            rw [hloopeq, hOL] at hok
            exact Except.noConfusion hok
      · subst hrem
        rcases hfinal with ⟨r4, hW3, hrec⟩ | ⟨r4, hW3, hrq⟩
        · obtain ⟨m7, hm7, hstr3⟩ := pyStrip_take_skipW r3 m6 (fun c t hct => by
            rw [hW3] at hct
            injection hct with hz1 hz2
            rw [← hz1]
            decide)
          rw [hW3] at hstr3
          cases m7 with
          | zero =>
            rw [List.take_zero] at hstr3
            rw [hstr3, consumeComma_nil] at hloopeq
            constructor
            · intro r hr
              rw [hloopeq, objLoop_nil] at hr
              exact Except.noConfusion hr
            · intro a2 rem c2 hok
              rw [hloopeq, objLoop_nil] at hok
              simp only [Except.ok.injEq, Prod.mk.injEq] at hok
              exact ⟨0, Nat.zero_le _, by rw [← hok.2.1, List.take_zero]⟩
          | succ m8 =>
            rw [List.take_succ_cons] at hstr3
            rw [hstr3, consumeComma_comma] at hloopeq
            obtain ⟨tq2, hq2⟩ := jsonMembers_head F2 (strInsertP acc key vv) (skipW r4)
              (v, rest) hrec
            obtain ⟨m9, hm9, hstr4⟩ := pyStrip_take_skipW r4 m8 (fun c t hct => by
              rw [hq2] at hct
              injection hct with hz1 hz2
              rw [← hz1]
              decide)
            rw [hstr4] at hloopeq
            have hIH := (ih F2 (by omega)).2.1 (strInsertP acc key vv) (skipW r4) v rest
              hrec m9 (g2 + 1) (insertEq acc2 (.str w) value) ((b || !kc) || !vc)
            constructor
            · intro r hr
              rw [hloopeq] at hr
              exact hIH.1 r hr
            · intro a2 rem c2 hok
              rw [hloopeq] at hok
              exact hIH.2 a2 rem c2 hok
        · obtain ⟨m7, hm7, hstr3⟩ := pyStrip_take_skipW r3 m6 (fun c t hct => by
            rw [hW3] at hct
            injection hct with hz1 hz2
            rw [← hz1]
            decide)
          rw [hW3] at hstr3
          cases m7 with
          | zero =>
            rw [List.take_zero] at hstr3
            rw [hstr3, consumeComma_nil] at hloopeq
            constructor
            · intro r hr
              rw [hloopeq, objLoop_nil] at hr
              exact Except.noConfusion hr
            · intro a2 rem c2 hok
              rw [hloopeq, objLoop_nil] at hok
              simp only [Except.ok.injEq, Prod.mk.injEq] at hok
              exact ⟨0, Nat.zero_le _, by rw [← hok.2.1, List.take_zero]⟩
          | succ m8 =>
            rw [List.take_succ_cons] at hstr3
            rw [hstr3, consumeComma_ne '\x7d' (r4.take m8) (by decide)] at hloopeq
            constructor
            · intro r hr
              rw [hloopeq, objLoop_close] at hr
              exact Except.noConfusion hr
            · intro a2 rem c2 hok
              rw [hloopeq, objLoop_close] at hok
              simp only [Except.ok.injEq, Prod.mk.injEq] at hok
              obtain ⟨m10, hm10, hcl⟩ := take_clip r4 m8
              refine ⟨m10, by rw [hrq]; exact hm10, ?_⟩
              rw [← hok.2.1, hcl, hrq]
    · exact Option.noConfusion h
  · -- elements
    intro acc cs v rest h k g acc2 b
    cases F with
    | zero => exact absurd h (by simp [jsonElems])
    | succ F2 =>
    simp only [jsonElems] at h
    cases hval : jsonValue F2 cs with
    | none =>
      rw [hval] at h
      exact Option.noConfusion h
    | some pv =>
    obtain ⟨vv, r1⟩ := pv
    rw [hval] at h
    dsimp only at h
    have hfinal : (∃ r2, skipW r1 = ',' :: r2 ∧
        jsonElems F2 (acc ++ [vv]) (skipW r2) = some (v, rest)) ∨
        (∃ r2, skipW r1 = ']' :: r2 ∧ rest = r2) := by
      split at h
      · rename_i r2 hW
        exact .inl ⟨r2, hW, h⟩
      · rename_i r2 hW
        simp only [Option.some.injEq, Prod.mk.injEq] at h
        exact .inr ⟨r2, hW, h.2.symm⟩
      · exact Option.noConfusion h
    obtain ⟨cv, tv, hcv, hcvs, -, hcvc, hcvbr, -⟩ := jsonValue_head F2 cs vv r1 hval
    subst hcv
    cases g with
    | zero => exact err_pair_loop rest _ (.inl rfl) _ rfl
    | succ g1 =>
    cases k with
    | zero =>
      rw [List.take_zero]
      constructor
      · intro r hr
        rw [arrLoop_nil] at hr
        exact Except.noConfusion hr
      · intro a2 rem c2 hok
        rw [arrLoop_nil] at hok
        simp only [Except.ok.injEq, Prod.mk.injEq] at hok
        exact ⟨0, Nat.zero_le _, by rw [← hok.2.1, List.take_zero]⟩
    | succ k1 =>
    rw [List.take_succ_cons]
    obtain ⟨hstepE, hstepO⟩ := arrLoop_step g1 acc2 b cv (tv.take k1) hcvbr
    have hrestv : ∀ c t, r1 = c :: t → jsonIsSpace c = true ∨ c = ',' ∨ c = ']' ∨
        c = '\x7d' := by
      intro c t hct
      rcases skipW_head r1 c t hct with hws | hsk2
      · exact .inl hws
      · rcases hfinal with ⟨r2, hW, -⟩ | ⟨r2, hW, -⟩
        · rw [hct] at hW hsk2
          rw [hsk2] at hW
          injection hW with hz1 hz2
          exact .inr (.inl hz1)
        · rw [hct] at hW hsk2
          rw [hsk2] at hW
          injection hW with hz1 hz2
          exact .inr (.inr (.inl hz1))
    have hLV := (ih F2 (by omega)).1 (cv :: tv) vv r1 hval hrestv
    cases hpv : parse_any g1 (cv :: tv.take k1) with
    | error e =>
      constructor
      · intro r hr
        rw [hstepE e hpv] at hr
        injection hr with he
        rw [← he]
        exact (hLV (k1 + 1) g1).1 e hpv
      · intro a2 rem c2 hok
        rw [hstepE e hpv] at hok
        exact Except.noConfusion hok
    | ok tripV =>
    obtain ⟨res, s1, ic⟩ := tripV
    cases g1 with
    | zero => exact absurd hpv (fun hx => Except.noConfusion hx)
    | succ g3 =>
    have hloopeq := hstepO res s1 ic hpv
    rcases (hLV (k1 + 1) (g3 + 1)).2 res s1 ic hpv with ⟨d, x, hrem, hde⟩ |
      ⟨m6, hm6, hrem⟩
    · subst hrem
      have hde2 : d = 'e' ∨ d = 'E' := by
        simpa [desyncHead, Bool.or_eq_true, decide_eq_true_eq] using hde
      have hdss : pyIsSpace d = false := by
        rcases hde2 with h' | h' <;> subst h' <;> decide
      have hdcc : d ≠ ',' := by
        rcases hde2 with h' | h' <;> subst h' <;> decide
      rw [pyStrip_cons_not_space d x hdss, consumeComma_ne d (rstrip x) hdcc] at hloopeq
      rcases arrLoop_desync (g3 + 1) (acc2 ++ [res]) (b || !ic) d (rstrip x) hde with
        hOL | hOL
      · constructor
        · intro r hr
          rw [hloopeq, hOL] at hr
          injection hr with he
          rw [← he]
          exact .inl rfl
        · intro a2 rem c2 hok
          rw [hloopeq, hOL] at hok
          exact Except.noConfusion hok
      · constructor
        · intro r hr
          rw [hloopeq, hOL] at hr
          injection hr with he
          rw [← he]
          exact .inr (.inr (.inr (.inr rfl)))
        · intro a2 rem c2 hok
          rw [hloopeq, hOL] at hok
          exact Except.noConfusion hok
    · subst hrem
      rcases hfinal with ⟨r2, hW, hrec⟩ | ⟨r2, hW, hrq⟩
      · obtain ⟨m7, hm7, hstr3⟩ := pyStrip_take_skipW r1 m6 (fun c t hct => by
          rw [hW] at hct
          injection hct with hz1 hz2
          rw [← hz1]
          decide)
        rw [hW] at hstr3
        cases m7 with
        | zero =>
          rw [List.take_zero] at hstr3
          rw [hstr3, consumeComma_nil] at hloopeq
          constructor
          · intro r hr
            rw [hloopeq, arrLoop_nil] at hr
            exact Except.noConfusion hr
          · intro a2 rem c2 hok
            rw [hloopeq, arrLoop_nil] at hok
            simp only [Except.ok.injEq, Prod.mk.injEq] at hok
            exact ⟨0, Nat.zero_le _, by rw [← hok.2.1, List.take_zero]⟩
        | succ m8 =>
          rw [List.take_succ_cons] at hstr3
          rw [hstr3, consumeComma_comma] at hloopeq
          obtain ⟨c2', t2', hcons2, hnws2, -, -, -, -⟩ := jsonElems_head F2 (acc ++ [vv])
            (skipW r2) (v, rest) hrec
          obtain ⟨m9, hm9, hstr4⟩ := pyStrip_take_skipW r2 m8 (fun c t hct => by
            rw [hcons2] at hct
            injection hct with hz1 hz2
            rw [← hz1]
            exact hnws2)
          rw [hstr4] at hloopeq
          have hIH := (ih F2 (by omega)).2.2 (acc ++ [vv]) (skipW r2) v rest hrec m9
            (g3 + 1) (acc2 ++ [res]) (b || !ic)
          constructor
          · intro r hr
            rw [hloopeq] at hr
            exact hIH.1 r hr
          · intro a2 rem c2 hok
            rw [hloopeq] at hok
            exact hIH.2 a2 rem c2 hok
      · obtain ⟨m7, hm7, hstr3⟩ := pyStrip_take_skipW r1 m6 (fun c t hct => by
          rw [hW] at hct
          injection hct with hz1 hz2
          rw [← hz1]
          decide)
        rw [hW] at hstr3
        cases m7 with
        | zero =>
          rw [List.take_zero] at hstr3
          rw [hstr3, consumeComma_nil] at hloopeq
          constructor
          · intro r hr
            rw [hloopeq, arrLoop_nil] at hr
            exact Except.noConfusion hr
          · intro a2 rem c2 hok
            rw [hloopeq, arrLoop_nil] at hok
            simp only [Except.ok.injEq, Prod.mk.injEq] at hok
            exact ⟨0, Nat.zero_le _, by rw [← hok.2.1, List.take_zero]⟩
        | succ m8 =>
          rw [List.take_succ_cons] at hstr3
          rw [hstr3, consumeComma_ne ']' (r2.take m8) (by decide)] at hloopeq
          constructor
          · intro r hr
            rw [hloopeq, arrLoop_close] at hr
            exact Except.noConfusion hr
          · intro a2 rem c2 hok
            rw [hloopeq, arrLoop_close] at hok
            simp only [Except.ok.injEq, Prod.mk.injEq] at hok
            obtain ⟨m10, hm10, hcl⟩ := take_clip r2 m8
            refine ⟨m10, by rw [hrq]; exact hm10, ?_⟩
            rw [← hok.2.1, hcl, hrq]

theorem parse_any_ws (g : Nat) (c : Char) (t : List Char) (h : pySpaceKey c = true) :
    parse_any (g + 1 + 1) (c :: t) = parse_any g (pyStrip (c :: t)) := by
  have h1 : parse_any (g + 1 + 1) (c :: t) = parse_space (g + 1) (c :: t) := by
    simp only [parse_any]
    rw [if_pos h]
  rw [h1, parse_space_eq]

/-- C3 counterexample: `false` is a valid complete JSON text and `fa` is
its prefix of length 2 (within 1..len); its first significant character
`f` has a registered fragment parser, yet `parse` raises the
literal-mismatch structural error instead of yielding a best-effort
value. -/
theorem cex_prefix_literal :
    jsonLoads ("false").data = some (JVal.bool false) ∧
      ("false").data.take 2 = ("fa").data ∧
      parse ("fa").data = .error (.decodeErr .literalMismatch) :=
  ⟨rfl, rfl, rfl⟩

/-- C3, amended: on any prefix of a valid complete JSON text, `parse`
can raise only at the empty-input or unregistered-head dispatch sites, at
the literal-mismatch site (a cut `true`/`false`/`null` token), or at the
string-decode site; the key-colon and number-conversion raise sites can
never fire on such a prefix. -/
theorem claim_prefix_safety_amended (T : List Char) (v : JVal) (i : Nat)
    (hT : jsonLoads T = some v) (r : PErr)
    (h : parse (T.take i) = .error r) :
    r = .decodeErr .emptyInput ∨ r = .decodeErr .literalMismatch ∨
      r = .decodeErr .stringDecode ∨ r = .decodeErr .undispatchable := by
  have hpa0 : parseAnyTop (T.take i) = .error r := by
    by_cases hlen : 1 ≤ (T.take i).length
    · rw [parse, parseWithState, if_pos hlen] at h
      cases hjl : jsonLoads (T.take i) with
      | some w =>
        rw [hjl] at h
        exact absurd h (by simp [Except.map])
      | none =>
        rw [hjl] at h
        dsimp only at h
        cases hpt : parseAnyTop (T.take i) with
        | error e =>
          rw [hpt] at h
          dsimp only at h
          simp only [Except.map] at h
          injection h with h2
          rw [h2]
        | ok p =>
          obtain ⟨d1, d2, d3⟩ := p
          rw [hpt] at h
          exact absurd h (by simp [Except.map])
    · rw [parse, parseWithState, if_neg hlen] at h
      exact absurd h (by simp [Except.map])
  have hne : r ≠ .outOfFuel := fun hr => parseAnyTop_no_fuel (T.take i) (hr ▸ hpa0)
  have hpa := hpa0
  unfold parseAnyTop at hpa
  rw [jsonLoads] at hT
  cases hjv : jsonValue (2 * T.length + 4) (skipW T) with
  | none =>
    rw [hjv] at hT
    exact absurd hT (by simp)
  | some p =>
  obtain ⟨v0, rest0⟩ := p
  rw [hjv] at hT
  dsimp only at hT
  by_cases hres : skipW rest0 = []
  · have hrest : ∀ c t, rest0 = c :: t → jsonIsSpace c = true ∨ c = ',' ∨ c = ']' ∨
        c = '\x7d' := fun c t hct => .inl (skipW_nil_head rest0 c t hct hres)
    have hLV := (prefix_cut_all (2 * T.length + 4)).1 (skipW T) v0 rest0 hjv hrest
    cases i with
    | zero =>
      rw [List.take_zero] at hpa
      have h2 : (Except.error (PErr.decodeErr RSite.emptyInput) :
          Except PErr (JVal × List Char × Bool)) = .error r := hpa
      injection h2 with h3
      exact .inl h3.symm
    | succ i1 =>
    cases T with
    | nil =>
      rw [show (([] : List Char)).take (i1 + 1) = [] from rfl] at hpa
      have h2 : (Except.error (PErr.decodeErr RSite.emptyInput) :
          Except PErr (JVal × List Char × Bool)) = .error r := hpa
      injection h2 with h3
      exact .inl h3.symm
    | cons a tT =>
    rw [List.take_succ_cons] at hpa
    by_cases hsp : pySpaceKey a = true
    · obtain ⟨ch, th, hch, hchs, -, -, -, -⟩ := jsonValue_head _ (skipW (a :: tT)) v0
        rest0 hjv
      obtain ⟨m, hm, hstrip⟩ := pyStrip_take_skipW (a :: tT) (i1 + 1) (fun c t hct => by
        rw [hch] at hct
        injection hct with hx1 hx2
        rw [← hx1]
        exact hchs)
      rw [List.take_succ_cons] at hstrip
      have hF : FUEL (a :: tT.take i1) = (3 * (tT.take i1).length + 4) + 1 + 1 := by
        simp only [FUEL, List.length_cons]
        omega
      rw [hF, parse_any_ws _ _ _ hsp, hstrip] at hpa
      rcases (hLV m (3 * (tT.take i1).length + 4)).1 r hpa with hb | hb | hb | hb | hb
      · exact absurd hb hne
      · exact .inl hb
      · exact .inr (.inl hb)
      · exact .inr (.inr (.inl hb))
      · exact .inr (.inr (.inr hb))
    · have hja : ¬ jsonIsSpace a = true := fun hj => hsp (jsonIsSpace_key a hj)
      have hskT : skipW (a :: tT) = a :: tT := by
        rw [skipW, List.dropWhile_cons_of_neg (by simp [hja])]
      have hLV2 := hLV (i1 + 1) (FUEL (a :: tT.take i1))
      rw [hskT, List.take_succ_cons] at hLV2
      rcases hLV2.1 r hpa with hb | hb | hb | hb | hb
      · exact absurd hb hne
      · exact .inl hb
      · exact .inr (.inl hb)
      · exact .inr (.inr (.inl hb))
      · exact .inr (.inr (.inr hb))
  · rw [if_neg hres] at hT
    exact absurd hT (by simp)

/-- C3 witness: `false` is valid complete JSON; on its length-2 prefix
the amended theorem confines the structural error that `parse` raises to
the four permitted sites. -/
theorem claim_prefix_safety_amended_witness :
    jsonLoads ("false").data = some (JVal.bool false) ∧
      parse (("false").data.take 2) = .error (.decodeErr .literalMismatch) ∧
      (PErr.decodeErr RSite.literalMismatch = .decodeErr .emptyInput ∨
        PErr.decodeErr RSite.literalMismatch = .decodeErr .literalMismatch ∨
        PErr.decodeErr RSite.literalMismatch = .decodeErr .stringDecode ∨
        PErr.decodeErr RSite.literalMismatch = .decodeErr .undispatchable) :=
  ⟨rfl, rfl, claim_prefix_safety_amended ("false").data (JVal.bool false) 2 rfl
    (PErr.decodeErr RSite.literalMismatch) rfl⟩

end PartialJson
